import Mathlib

/-!
# Mojura (gdbu/dbl): transactional engine

A shallow embedding of the transactional engine of the store: the error
sentinels, the context-bounded transaction runner, the nesting of the backend
transaction and the change-log (kiroku) transaction, the ID codec and the
entry / relationship index maintenance.

Byte strings are lists of characters; keys are ordered bytewise. The
collaborators (backend, kiroku, encoder, fmt, strconv, context) are modelled
by their contracts; every outcome they decide is an explicit argument.
-/

namespace Dbl

/-- Byte strings (the byte slices and strings of the source). -/
abbrev Bytes := List Char

deriving instance DecidableEq for Except

/-! ## Errors -/

/-- Error values. The sentinels are those of `mojura.go`; `ErrIsClosed` is the
sentinel of the errors package returned by `Close`; `opening name dir cause`
is the error `init` builds with
`fmt.Errorf("error opening db for %s (%s): %v", name, dir, err)`; `both` is the
error list of the errors package holding two errors, as `Close` builds it;
`other` stands for the opaque errors of the collaborators (backend, encoder,
context, strconv). -/
inductive Error where
  | ErrNotInitialized
  | ErrRelationshipNotFound
  | ErrLookupNotFound
  | ErrEntryNotFound
  | ErrEndOfEntries
  | ErrInvalidNumberOfRelationships
  | ErrInvalidType
  | ErrInvalidEntries
  | ErrInvalidLogKey
  | ErrEmptyFilters
  | ErrInversePrimaryFilter
  | ErrContextCancelled
  | Break
  | ErrIsClosed
  | opening (name dir : Bytes) (cause : Error)
  | both (first second : Error)
  | other (msg : String)
  deriving DecidableEq, Repr

/-- The Go `error` result of a call returning a value or an error: `none` is `nil`. -/
def errOf {α : Type} : Except Error α → Option Error
  | .ok _ => none
  | .error e => some e

/-! ## Byte order -/

/-- Bytewise lexicographic comparison (`bytes.Compare`), the key order of the backend. -/
def compareBytes : Bytes → Bytes → Ordering
  | [], [] => .eq
  | [], _ :: _ => .lt
  | _ :: _, [] => .gt
  | a :: as, b :: bs =>
    if a.toNat < b.toNat then .lt
    else if b.toNat < a.toNat then .gt
    else compareBytes as bs

/-! ## ID codec: fmt and strconv -/

/-- Decimal rendering of an unsigned integer, as `%d` prints it. -/
def formatDecimal (n : Nat) : Bytes := Nat.toDigits 10 n

/-- Left padding with the character `0` up to a minimum width. -/
def padZero (w : Nat) (ds : Bytes) : Bytes := List.replicate (w - ds.length) '0' ++ ds

/-- Left padding with blanks up to a minimum width. -/
def padSpace (w : Nat) (ds : Bytes) : Bytes := List.replicate (w - ds.length) ' ' ++ ds

/-- Numeric value of a decimal digit character. -/
def digitVal (c : Char) : Nat := c.toNat - 48

/-- An operand of `fmt.Sprintf`: a string, an `int` (the index length) or a
`uint64` (an index). -/
inductive Arg where
  | str (s : Bytes)
  | int (n : Nat)
  | uint64 (n : Nat)
  deriving DecidableEq, Repr

/-- The name of the operand's type, as `%T` prints it. -/
def Arg.typeName : Arg → Bytes
  | .str _ => "string".toList
  | .int _ => "int".toList
  | .uint64 _ => "uint64".toList

/-- The operand in its default format, as `%v` prints it. -/
def Arg.text : Arg → Bytes
  | .str s => s
  | .int n => formatDecimal n
  | .uint64 n => formatDecimal n

/-- The operands left over when the format ends: nothing when all were used,
otherwise `%!(EXTRA type=value, ...)`. -/
def extraArgs : List Arg → Bytes
  | [] => []
  | a :: rest =>
    "%!(EXTRA ".toList ++
      ", ".toList.intercalate ((a :: rest).map (fun x => x.typeName ++ ['='] ++ x.text)) ++ [')']

/-- One verb applied to one operand: `%d` prints an integer in decimal, padded
to the width with zeros under the zero flag and with blanks otherwise; `%s`
prints a string padded with blanks; a verb that does not fit the operand
prints `%!verb(type=value)`. -/
def verbText (zero : Bool) (width : Nat) (verb : Char) : Arg → Bytes
  | .str s =>
    if verb = 's' then padSpace width s
    else "%!".toList ++ [verb] ++ ['('] ++ (Arg.str s).typeName ++ ['='] ++ s ++ [')']
  | .int n =>
    if verb = 'd' then
      (if zero then padZero width (formatDecimal n) else padSpace width (formatDecimal n))
    else "%!".toList ++ [verb] ++ ['('] ++ (Arg.int n).typeName ++ ['='] ++ formatDecimal n ++ [')']
  | .uint64 n =>
    if verb = 'd' then
      (if zero then padZero width (formatDecimal n) else padSpace width (formatDecimal n))
    else
      "%!".toList ++ [verb] ++ ['('] ++ (Arg.uint64 n).typeName ++ ['='] ++ formatDecimal n ++ [')']

/-- Scanner state of `fmt.Sprintf`: copying text, or inside a verb after the
percent sign with the zero flag and the width read so far. -/
inductive FmtState where
  | text
  | verb (zero : Bool) (width : Nat)
  deriving DecidableEq, Repr

/-- The fragment of `fmt.Sprintf` the store uses: the verbs `%s`, `%d` and
`%%`, the zero flag and a decimal width. A `0` right after the percent sign
is the flag; the digits after it are the width. As in `parsenum` of the fmt
package, a width whose value read so far exceeds 1000000 when a further digit
comes is abandoned together with the rest of the format, which prints
`%!(NOVERB)`; a format that ends inside a verb prints `%!(NOVERB)` too; a verb
without an operand prints `%!verb(MISSING)`; operands left over at the end are
listed as `%!(EXTRA ...)`. The other verbs and flags of the fmt package are
outside the fragment: the store's formats do not hold them, and the model
prints them as a verb that does not fit its operand. -/
def SprintfGo : FmtState → Bytes → List Arg → Bytes
  | .text, [], args => extraArgs args
  | .verb _ _, [], args => "%!(NOVERB)".toList ++ extraArgs args
  | .text, c :: rest, args =>
    if c = '%' then SprintfGo (.verb false 0) rest args
    else c :: SprintfGo .text rest args
  | .verb z w, c :: rest, args =>
    if c = '0' ∧ w = 0 then SprintfGo (.verb true 0) rest args
    else if c.isDigit then
      if 1000000 < w then "%!(NOVERB)".toList ++ extraArgs args
      else SprintfGo (.verb z (w * 10 + digitVal c)) rest args
    else if c = '%' then '%' :: SprintfGo .text rest args
    else
      match args with
      | [] => "%!".toList ++ [c] ++ "(MISSING)".toList ++ SprintfGo .text rest []
      | a :: args' => verbText z w c a ++ SprintfGo .text rest args'

/-- The `fmt.Sprintf` call. -/
def Sprintf (format : Bytes) (args : List Arg) : Bytes := SprintfGo .text format args

/-- The digit loop of `strconv.ParseUint(s, 10, 64)`. -/
def parseUintGo : Nat → Bytes → Option Nat
  | acc, [] => some acc
  | acc, c :: cs =>
    if c.isDigit then
      if acc * 10 + digitVal c < 2 ^ 64 then parseUintGo (acc * 10 + digitVal c) cs else none
    else none

/-- The call `strconv.ParseUint(s, 10, 64)`: the empty string, a non-digit and
a value out of the 64-bit range are errors. -/
def parseUint (s : Bytes) : Except Error Nat :=
  if s = [] then .error (.other "strconv.ParseUint: invalid syntax")
  else
    match parseUintGo 0 s with
    | some n => .ok n
    | none => .error (.other "strconv.ParseUint: invalid syntax or value out of range")

/-- Modelled from the spec: `parseIDAsIndex` is not among the sources; it is the
`parse` of the ID codec (section 4.2), the decimal value of an ID as an
unsigned 64-bit integer. -/
def parseIDAsIndex (id : Bytes) : Except Error Nat := parseUint id

/-- Fixed-width decimal digits of `i`, most significant first (the closed form
of a zero-padded ID of width `w`). -/
def fixedWidth : Nat → Nat → Bytes
  | 0, _ => []
  | w + 1, i => fixedWidth w (i / 10) ++ [Nat.digitChar (i % 10)]

/-! ## Backend: ordered buckets -/

/-- A bucket of the backend: key/value pairs, iterated by cursors in list order. -/
abbrev Bucket := List (Bytes × Bytes)

/-- Lookup of a key. -/
def Bucket.Get : Bucket → Bytes → Option Bytes
  | [], _ => none
  | (k', v) :: rest, k => if k' = k then some v else Bucket.Get rest k

/-- Insertion at the key's place in the byte order, replacing an equal key. -/
def Bucket.Put : Bucket → Bytes → Bytes → Bucket
  | [], k, v => [(k, v)]
  | (k', v') :: rest, k, v =>
    match compareBytes k k' with
    | .lt => (k, v) :: (k', v') :: rest
    | .eq => (k, v) :: rest
    | .gt => (k', v') :: Bucket.Put rest k v

/-- Deletion of a key. -/
def Bucket.Delete (b : Bucket) (k : Bytes) : Bucket := b.filter (fun kv => kv.1 ≠ k)

/-- The keys of a bucket in cursor order (first to last). -/
def Bucket.keys (b : Bucket) : List Bytes := b.map Prod.fst

/-- The result of `Cursor().Last()`: the last pair, or nil key and value when the
bucket is empty. -/
def Bucket.Last (b : Bucket) : Bytes × Bytes := b.getLast?.getD ([], [])

/-- The bucket's cursor order is the strict byte order of its keys. -/
def Bucket.Sorted (b : Bucket) : Prop :=
  b.keys.Pairwise (fun a c => compareBytes a c = .lt)

instance (b : Bucket) : Decidable b.Sorted := by
  unfold Bucket.Sorted
  infer_instance

/-- Bucket keys of `mojura.go`. -/
def entriesBktKey : Bytes := "entries".toList
/-- Bucket key of the relationships bucket. -/
def relationshipsBktKey : Bytes := "relationships".toList
/-- Bucket key of the lookups bucket. -/
def lookupsBktKey : Bytes := "lookups".toList

/-- The state of the backend database (also the working state of one backend
transaction): the top-level buckets created so far, the relationship buckets
created under `relationships`, and the contents of the three keyspaces.
`relationships name id` is the bucket of leaves `relationships/name/id`;
`lookups name id` is the bucket `lookups/name/id`. -/
structure DB where
  buckets : List Bytes
  relationshipBkts : List Bytes
  entries : Bucket
  relationships : Bytes → Bytes → Bucket
  lookups : Bytes → Bytes → Bucket

/-- The database of a freshly opened backend file. -/
def DB.empty : DB := ⟨[], [], [], fun _ _ => [], fun _ _ => []⟩

/-- The call `GetOrCreateBucket` on a list of bucket keys. -/
def getOrCreate (bs : List Bytes) (key : Bytes) : List Bytes :=
  if key ∈ bs then bs else bs ++ [key]

/-! ## Change log (kiroku) -/

/-- A record of the change log: a write of a payload or a delete, under a log key. -/
inductive LogRecord where
  | write (key payload : Bytes)
  | delete (key : Bytes)
  deriving DecidableEq, Repr

/-- The writer of one change-log transaction: the records buffered so far. -/
abbrev Writer := List LogRecord

/-- The change log: the record blocks of the committed log transactions, oldest
first, and the number of log transactions opened so far. -/
structure Kiroku where
  chunks : List (List LogRecord)
  opened : Nat
  deriving DecidableEq, Repr

/-- The log key of a mutation (`utils.go`): bucket, the delimiter `::`, key. -/
def getLogKey (bucket key : Bytes) : Bytes := bucket ++ "::".toList ++ key

/-! ## Transactions of the collaborators -/

/-- The backend's `Transaction(fn)`: `fn` runs on a working copy of the
database; a non-nil error of `fn` rolls the copy back and is returned as is;
otherwise the copy is committed, and `commit` is the error of that commit
(`none` when it succeeds). `σ` is the state outside the backend that `fn`
captures and mutates: it is never rolled back. -/
def Backend.Transaction {σ α : Type} (commit : Option Error) (db : DB) (s : σ)
    (fn : DB → σ → DB × σ × Except Error α) : DB × σ × Except Error α :=
  match fn db s with
  | (_, s1, .error e) => (db, s1, .error e)
  | (txn, s1, .ok a) =>
    match commit with
    | none => (txn, s1, .ok a)
    | some e => (db, s1, .error e)

/-- The backend's `ReadTransaction(fn)`: `fn` runs on a snapshot that is
discarded; the error of `fn` is returned. -/
def Backend.ReadTransaction {σ α : Type} (db : DB) (s : σ)
    (fn : DB → σ → DB × σ × Except Error α) : DB × σ × Except Error α :=
  match fn db s with
  | (_, s1, r) => (db, s1, r)

/-- The change log's `Transaction(fn)`: `fn` runs on a fresh writer; a non-nil
error of `fn` discards the writer and is returned as is; otherwise the
buffered records are committed as one block, and `commit` is the error of that
commit (`none` when it succeeds). `σ` is the captured state outside the log. -/
def Kiroku.Transaction {σ α : Type} (commit : Option Error) (k : Kiroku) (s : σ)
    (fn : Writer → σ → Writer × σ × Except Error α) : Kiroku × σ × Except Error α :=
  match fn [] s with
  | (_, s1, .error e) => (⟨k.chunks, k.opened + 1⟩, s1, .error e)
  | (w, s1, .ok a) =>
    match commit with
    | none => (⟨k.chunks ++ [w], k.opened + 1⟩, s1, .ok a)
    | some e => (⟨k.chunks, k.opened + 1⟩, s1, .error e)

/-- The errors the two commits of one write transaction return. -/
structure Commits where
  data : Option Error
  log : Option Error
  deriving DecidableEq, Repr

/-- Both commits succeed. -/
def Commits.ok : Commits := ⟨none, none⟩

/-! ## Values, encoder, options -/

/-- A record: the ID assigned by the engine, the relationship vector returned
by `GetRelationships()` (one list of relationship ids per slot) and the
remaining user-provided fields. -/
structure Value where
  ID : Bytes
  Relationships : List (List Bytes)
  Data : Bytes
  deriving DecidableEq, Repr

/-- The user-provided fields of a record: everything but the ID. -/
def Value.userFields (v : Value) : List (List Bytes) × Bytes := (v.Relationships, v.Data)

/-- The encoder adapter. -/
structure Encoder where
  Marshal : Value → Except Error Bytes
  Unmarshal : Bytes → Except Error Value

/-- An encoder whose `Unmarshal` undoes `Marshal`. -/
def Encoder.Lawful (enc : Encoder) : Prop :=
  ∀ v bs, enc.Marshal v = .ok bs → enc.Unmarshal bs = .ok v

/-- The options of a store; the backend initializer and the exporter are
collaborators whose outcomes are arguments of `NewWithOpts`. -/
structure Opts where
  IndexLength : Nat
  Encoder : Encoder

/-- Modelled from the spec: `Opts.Validate` is not among the sources; the spec
requires `IndexLength` to be at least 1 (section 6). -/
def Opts.Validate (o : Opts) : Option Error :=
  if o.IndexLength < 1 then some (.other "invalid index length") else none

/-- Modelled from the spec: `defaultOpts` is not among the sources; the default
`IndexLength` is 8 (section 4.1), over the given encoder. -/
def defaultOpts (enc : Encoder) : Opts := ⟨8, enc⟩

/-! ## Context runner -/

/-- What `runTransaction` observes of the context container `t.cc`:
whether its `select` receives from `Done()` before it receives the closure's
result, and the value `Err()` has at that point. -/
structure Context where
  doneFirst : Bool
  err : Option Error
  deriving DecidableEq, Repr

/-- The context `context.Background()`: its `Done` channel never fires. -/
def Context.Background : Context := ⟨false, none⟩

/-! ## The store -/

/-- The DB manager `Mojura`: backend database, change log, options, ID format,
declared relationship names and the closed flag. -/
structure Mojura where
  db : DB
  k : Kiroku
  opts : Opts
  indexFmt : Bytes
  relationships : List Bytes
  closed : Bool

/-- A transaction object: the owning store, the context container, the backend
transaction, the change-log writer (nil for reads) and the next index once it
has been allocated in this transaction. -/
structure Transaction where
  m : Mojura
  cc : Context
  txn : DB
  kw : Option Writer
  index : Option Nat

/-- The constructor `newTransaction(ctx, m, txn, kw)`. -/
def newTransaction (ctx : Context) (m : Mojura) (txn : DB) (kw : Option Writer) : Transaction :=
  ⟨m, ctx, txn, kw, none⟩

/-- A transaction closure: it mutates the transaction object and returns a
value or an error. -/
abbrev TransactionFn (α : Type) := Transaction → Transaction × Except Error α

/-- `Mojura.runTransaction`: the closure's result when the `select` receives it
first; on the `Done` branch the context's own `Err()` when it is non-nil and
`ErrContextCancelled` otherwise. On the `Done` branch the closure's effects on
the backend transaction and the writer are not observed. -/
def Mojura.runTransaction {α : Type} (m : Mojura) (ctx : Context) (txn : DB)
    (kw : Option Writer) (fn : TransactionFn α) : DB × Option Writer × Except Error α :=
  let t := newTransaction ctx m txn kw
  if t.cc.doneFirst then
    match t.cc.err with
    | some e => (txn, kw, .error e)
    | none => (txn, kw, .error .ErrContextCancelled)
  else
    match fn t with
    | (t1, r) => (t1.txn, t1.kw, r)

/-- The closure `Mojura.transaction` hands to the backend transaction: it runs
the change-log transaction around `fn` and returns its error. -/
def Mojura.transactionFn {α : Type} (c : Commits)
    (fn : DB → Writer → DB × Writer × Except Error α) (txn : DB) (k : Kiroku) :
    DB × Kiroku × Except Error α :=
  match Kiroku.Transaction c.log k txn (fun w txn0 =>
      match fn txn0 w with
      | (txn1, w1, r) => (w1, txn1, r)) with
  | (k1, txn1, r) => (txn1, k1, r)

/-- `Mojura.transaction`: the change-log transaction runs inside the closure
handed to the backend transaction. -/
def Mojura.transaction {α : Type} (m : Mojura) (c : Commits)
    (fn : DB → Writer → DB × Writer × Except Error α) : Mojura × Except Error α :=
  match Backend.Transaction c.data m.db m.k (Mojura.transactionFn c fn) with
  | (db1, k1, r) => ({ m with db := db1, k := k1 }, r)

/-- `Mojura.Transaction`: a read/write transaction. -/
def Mojura.Transaction {α : Type} (m : Mojura) (c : Commits) (ctx : Context)
    (fn : TransactionFn α) : Mojura × Except Error α :=
  m.transaction c (fun txn kw =>
    match m.runTransaction ctx txn (some kw) fn with
    | (txn1, kw1, r) => (txn1, kw1.getD kw, r))

/-- `Mojura.ReadTransaction`: a read-only transaction; the writer is nil. -/
def Mojura.ReadTransaction {α : Type} (m : Mojura) (ctx : Context)
    (fn : TransactionFn α) : Mojura × Except Error α :=
  match Backend.ReadTransaction m.db () (fun txn u =>
      match m.runTransaction ctx txn none fn with
      | (txn1, _, r) => (txn1, u, r)) with
  | (db1, _, r) => ({ m with db := db1 }, r)

/-! ## Transaction operations -/

/-- Modelled from the spec: the mirroring of mutations is not among the sources
(section 4.8): one mutation is appended to the change-log writer, when there
is one. -/
def Transaction.mirror (t : Transaction) (r : LogRecord) : Transaction :=
  { t with kw := t.kw.map (fun w => w ++ [r]) }

/-- Modelled from the spec: write of `entries/id`, mirrored to the log (section 4.8). -/
def Transaction.putEntry (t : Transaction) (id bs : Bytes) : Transaction :=
  { t with txn := { t.txn with entries := t.txn.entries.Put id bs } }.mirror
    (.write (getLogKey entriesBktKey id) bs)

/-- Modelled from the spec: deletion of `entries/id`, mirrored to the log
(section 4.8). -/
def Transaction.deleteEntry (t : Transaction) (id : Bytes) : Transaction :=
  { t with txn := { t.txn with entries := t.txn.entries.Delete id } }.mirror
    (.delete (getLogKey entriesBktKey id))

/-- Modelled from the spec: the bucket path `relationships/name/rid` under which
a leaf is logged (section 3). -/
def relationshipPath (name rid : Bytes) : Bytes :=
  relationshipsBktKey ++ ['/'] ++ name ++ ['/'] ++ rid

/-- The relationship buckets after the write of the leaf `name/rid/id` (an
empty marker). -/
def putLeafAt (rel : Bytes → Bytes → Bucket) (name id rid : Bytes) : Bytes → Bytes → Bucket :=
  fun n r => if n = name ∧ r = rid then (rel n r).Put id [] else rel n r

/-- The relationship buckets after the deletion of the leaf `name/rid/id`. -/
def deleteLeafAt (rel : Bytes → Bytes → Bucket) (name id rid : Bytes) : Bytes → Bytes → Bucket :=
  fun n r => if n = name ∧ r = rid then (rel n r).Delete id else rel n r

/-- Modelled from the spec: write of the leaf `relationships/name/rid/id`,
mirrored to the log (sections 4.3 and 4.8). -/
def Transaction.putLeaf (t : Transaction) (name id rid : Bytes) : Transaction :=
  { t with txn := { t.txn with relationships := putLeafAt t.txn.relationships name id rid } }.mirror
    (.write (getLogKey (relationshipPath name rid) id) [])

/-- Modelled from the spec: deletion of the leaf `relationships/name/rid/id`,
mirrored to the log (sections 4.3 and 4.8). -/
def Transaction.deleteLeaf (t : Transaction) (name id rid : Bytes) : Transaction :=
  { t with txn := { t.txn with relationships := deleteLeafAt t.txn.relationships name id rid } }.mirror
    (.delete (getLogKey (relationshipPath name rid) id))

/-- `Mojura.getLastIDAsIndex`: the index of the ID of the last entry. -/
def Mojura.getLastIDAsIndex (_m : Mojura) (entriesBkt : Bucket) : Except Error Nat :=
  parseIDAsIndex entriesBkt.Last.1

/-- Modelled from the spec: the allocator is not among the sources. By section
4.2 the next index is `parse(cursor(entries).last()) + 1` (an unsigned 64-bit
sum) on the first write of the transaction and the value kept in memory
afterwards; on an empty entries bucket it is 0, the first ID being `00000000`
(P1, `TestCore_GetFirstByRelationship`). -/
def Transaction.nextIndex (t : Transaction) : Except Error Nat :=
  match t.index with
  | some i => .ok i
  | none =>
    if t.txn.entries = [] then .ok 0
    else
      match t.m.getLastIDAsIndex t.txn.entries with
      | .ok last => .ok ((last + 1) % 2 ^ 64)
      | .error e => .error e

/-- Modelled from the spec: writes the leaves of one slot, one leaf per
relationship id (section 4.3, `new`). -/
def Transaction.setRelationship (t : Transaction) (name id : Bytes) (rids : List Bytes) :
    Transaction :=
  rids.foldl (fun t1 rid => t1.putLeaf name id rid) t

/-- Modelled from the spec: deletes the leaves of one slot, one leaf per
relationship id (section 4.3, `remove`). -/
def Transaction.unsetRelationship (t : Transaction) (name id : Bytes) (rids : List Bytes) :
    Transaction :=
  rids.foldl (fun t1 rid => t1.deleteLeaf name id rid) t

/-- Modelled from the spec: the set diff of one slot on edit (section 4.3): the
removed ids (old without new) lose their leaf, the added ids (new without
old) get one. -/
def Transaction.updateRelationship (t : Transaction) (name id : Bytes)
    (old new : List Bytes) : Transaction :=
  (t.unsetRelationship name id (old.filter (fun r => r ∉ new))).setRelationship name id
    (new.filter (fun r => r ∉ old))

/-- Modelled from the spec: the loop over the relationship slots (section 4.3).
Runs a per-slot operation over the declared relationship names, slot `i`
receiving the `i`-th element of the old and of the new relationship vector
(empty when the vector is shorter). -/
def forSlots (op : Bytes → List Bytes → List Bytes → Transaction → Transaction) :
    List Bytes → List (List Bytes) → List (List Bytes) → Transaction → Transaction
  | [], _, _, t => t
  | name :: names, old, new, t =>
    forSlots op names old.tail new.tail (op name (old.headD []) (new.headD []) t)

/-- Modelled from the spec: `Transaction.new` is not among the sources (section
4.3): assigns the next id, encoded with the store's ID format, a value wider
than the fixed width being a fatal error; writes `entries/id = encode(val)`;
then writes the leaf `relationships/name_i/rid/id` for each slot `i` and each
`rid` of that slot. -/
def Transaction.new (t : Transaction) (val : Value) : Transaction × Except Error Bytes :=
  match t.nextIndex with
  | .error e => (t, .error e)
  | .ok index =>
    let id := Sprintf t.m.indexFmt [.uint64 index]
    if t.m.opts.IndexLength < id.length then (t, .error (.other "index exceeds the id width"))
    else
      match t.m.opts.Encoder.Marshal val with
      | .error e => (t, .error e)
      | .ok bs =>
        let t1 := t.putEntry id bs
        let t2 := forSlots (fun name _ new t0 => t0.setRelationship name id new)
          t.m.relationships [] val.Relationships t1
        ({ t2 with index := some ((index + 1) % 2 ^ 64) }, .ok id)

/-- Modelled from the spec: `Transaction.exists` is not among the sources
(section 4.3): presence test in entries. -/
def Transaction.exists (t : Transaction) (id : Bytes) : Transaction × Except Error Bool :=
  (t, .ok (t.txn.entries.Get id).isSome)

/-- Modelled from the spec: `Transaction.get` is not among the sources (section
4.3): loads `entries/id`, a missing row being `ErrEntryNotFound`; decodes it;
sets the ID of the result. -/
def Transaction.get (t : Transaction) (id : Bytes) : Except Error Value :=
  match t.txn.entries.Get id with
  | none => .error .ErrEntryNotFound
  | some bs =>
    match t.m.opts.Encoder.Unmarshal bs with
    | .error e => .error e
    | .ok v => .ok { v with ID := id }

/-- Modelled from the spec: `Transaction.edit` is not among the sources (section
4.3): loads the existing record, for each slot deletes the removed leaves and
inserts the added ones, and writes the new encoding. -/
def Transaction.edit (t : Transaction) (id : Bytes) (val : Value) :
    Transaction × Except Error Unit :=
  match t.get id with
  | .error e => (t, .error e)
  | .ok orig =>
    match t.m.opts.Encoder.Marshal val with
    | .error e => (t, .error e)
    | .ok bs =>
      let t1 := forSlots (fun name old new t0 => t0.updateRelationship name id old new)
        t.m.relationships orig.Relationships val.Relationships t
      (t1.putEntry id bs, .ok ())

/-- Modelled from the spec: `Transaction.remove` is not among the sources
(section 4.3): loads the existing record, for each slot deletes all its
leaves, then deletes the entries row. -/
def Transaction.remove (t : Transaction) (id : Bytes) : Transaction × Except Error Unit :=
  match t.get id with
  | .error e => (t, .error e)
  | .ok orig =>
    let t1 := forSlots (fun name old _ t0 => t0.unsetRelationship name id old)
      t.m.relationships orig.Relationships [] t
    (t1.deleteEntry id, .ok ())

/-- Modelled from the spec: loads the entries of a list of ids, in order (section
4.3, `GetByRelationship`); the first failing load is the result. -/
def Transaction.getAll (t : Transaction) : List Bytes → Except Error (List Value)
  | [] => .ok []
  | id :: ids =>
    match t.get id with
    | .error e => .error e
    | .ok v =>
      match Transaction.getAll t ids with
      | .error e => .error e
      | .ok vs => .ok (v :: vs)

/-- Modelled from the spec: `Transaction.getByRelationship` is not among the
sources (section 4.3): iterates the leaves of `relationships/name/rid`, loads
each entry and appends it. -/
def Transaction.getByRelationship (t : Transaction) (name rid : Bytes) :
    Except Error (List Value) :=
  t.getAll (t.txn.relationships name rid).keys

/-! ## Store operations -/

/-- `Mojura.New`: inserts a new entry in a transaction of its own. -/
def Mojura.New (m : Mojura) (c : Commits) (val : Value) : Mojura × Except Error Bytes :=
  m.Transaction c Context.Background (fun txn => txn.new val)

/-- `Mojura.Exists`: presence of an entry, in a read transaction. -/
def Mojura.Exists (m : Mojura) (entryID : Bytes) : Mojura × Except Error Bool :=
  m.ReadTransaction Context.Background (fun txn => txn.exists entryID)

/-- `Mojura.Get`: loads an entry by ID, in a read transaction. -/
def Mojura.Get (m : Mojura) (entryID : Bytes) : Mojura × Except Error Value :=
  m.ReadTransaction Context.Background (fun txn => (txn, txn.get entryID))

/-- `Mojura.Edit`: edits an entry in a transaction of its own. -/
def Mojura.Edit (m : Mojura) (c : Commits) (entryID : Bytes) (val : Value) :
    Mojura × Except Error Unit :=
  m.Transaction c Context.Background (fun txn => txn.edit entryID val)

/-- `Mojura.Remove`: removes an entry in a transaction of its own. -/
def Mojura.Remove (m : Mojura) (c : Commits) (entryID : Bytes) : Mojura × Except Error Unit :=
  m.Transaction c Context.Background (fun txn => txn.remove entryID)

/-- `GetByRelationship` of the store, as `core_test.go` calls it: the entries of
a relationship id, in a read transaction like the other reads of `mojura.go`. -/
def Mojura.GetByRelationship (m : Mojura) (name rid : Bytes) :
    Mojura × Except Error (List Value) :=
  m.ReadTransaction Context.Background (fun txn => (txn, txn.getByRelationship name rid))



/-! ## Filtered iteration -/

/-- A filter: relationship name, relationship id, and whether the comparison is
inverse. -/
structure Filter where
  RelationshipKey : Bytes
  RelationshipID : Bytes
  InverseComparison : Bool
  deriving DecidableEq, Repr

/-- The constructor `MakeFilter` (`core_test.go`). -/
def MakeFilter (relationshipKey relationshipID : Bytes) (inverseComparison : Bool) : Filter :=
  ⟨relationshipKey, relationshipID, inverseComparison⟩

/-- Modelled from the spec: whether the leaf `relationships/name/rid/id` exists
(section 4.4). -/
def Transaction.hasLeaf (t : Transaction) (name rid id : Bytes) : Bool :=
  ((t.txn.relationships name rid).Get id).isSome

/-- Modelled from the spec: filter matching is not among the sources (section
4.4): a non-inverse filter passes iff the candidate's leaf exists, an inverse
filter passes iff it does not. -/
def Transaction.isMatch (t : Transaction) (f : Filter) (id : Bytes) : Bool :=
  if f.InverseComparison then !t.hasLeaf f.RelationshipKey f.RelationshipID id
  else t.hasLeaf f.RelationshipKey f.RelationshipID id

/-- Modelled from the spec: the choice of the primary filter is not among the
sources (section 4.4): the first non-inverse filter, with the remaining
filters in their order. -/
def primaryFilter : List Filter → Option (Filter × List Filter)
  | [] => none
  | f :: fs =>
    if f.InverseComparison then
      match primaryFilter fs with
      | some (p, rest) => some (p, f :: rest)
      | none => none
    else some (f, fs)

/-- The cursor's `Seek` of the backend: the pairs from the first key not below
`k` on. -/
def Bucket.seek (b : Bucket) (k : Bytes) : Bucket :=
  b.dropWhile (fun kv => compareBytes kv.1 k = .lt)

/-- Modelled from the spec: the walk of the iteration (section 4.4). Walks
candidate ids in order: a candidate passing all the given filters is
loaded and handed to `fn`; the walk stops at the first error, of a load or of
`fn`. The result is the list of entries handed to `fn`, in call order, and
the error that stopped the walk. -/
def Transaction.deliver (t : Transaction) (fn : Bytes → Value → Option Error)
    (fs : List Filter) : List Bytes → List (Bytes × Value) × Option Error
  | [] => ([], none)
  | id :: ids =>
    if fs.all (fun f => t.isMatch f id) then
      match t.get id with
      | .error e => ([], some e)
      | .ok v =>
        match fn id v with
        | some e => ([(id, v)], some e)
        | none =>
          match Transaction.deliver t fn fs ids with
          | (ds, e) => ((id, v) :: ds, e)
    else Transaction.deliver t fn fs ids

/-- Modelled from the spec: the sentinel `Break` ends an iteration without an
error (section 4.4). -/
def breakToNil (e : Option Error) : Option Error :=
  if e = some .Break then none else e

/-- Modelled from the spec: the filtered `ForEach` is not among the sources
(section 4.4): with no filters a scan of entries from `seekID`; otherwise the
leaves of the primary filter's bucket from `seekID` in ascending order, each
candidate passing the remaining filters being loaded and delivered to `fn`.
A filter without a relationship name is invalid: the spec names no error for
it, and the iteration is taken to fail, before it delivers anything, with the
sentinel of a relationship that is not available. The result is the list of
delivered entries and the returned error. -/
def Transaction.ForEach (t : Transaction) (seekID : Bytes) (fn : Bytes → Value → Option Error)
    (filters : List Filter) : List (Bytes × Value) × Option Error :=
  match filters with
  | [] =>
    match t.deliver fn [] (t.txn.entries.seek seekID).keys with
    | (ds, e) => (ds, breakToNil e)
  | f :: fs =>
    if (f :: fs).any (fun g => g.RelationshipKey = []) then ([], some .ErrRelationshipNotFound)
    else
      match primaryFilter (f :: fs) with
      | none => ([], some .ErrInversePrimaryFilter)
      | some (p, rest) =>
        match t.deliver fn rest
            ((t.txn.relationships p.RelationshipKey p.RelationshipID).seek seekID).keys with
        | (ds, e) => (ds, breakToNil e)

/-- `ForEach` of the store, with the seek ID and the filters of `core_test.go`:
the iteration in a read transaction (`mojura.go`). The value of a call that
returns nil is the list of the entries delivered to `fn`. -/
def Mojura.ForEach (m : Mojura) (seekID : Bytes) (fn : Bytes → Value → Option Error)
    (filters : List Filter) : Mojura × Except Error (List (Bytes × Value)) :=
  m.ReadTransaction Context.Background (fun txn =>
    match txn.ForEach seekID fn filters with
    | (ds, none) => (txn, .ok ds)
    | (_, some e) => (txn, .error e))

/-! ## Opening a store -/

/-- What the collaborators decide while a store is opened: the error of the
backend initializer, the database found in the backend file, the error of
`GetOrCreateBucket` for each bucket key, the error of the commit of the
initializing transaction, the error of `kiroku.New` and the change log found. -/
structure InitEnv where
  openErr : Option Error
  opened : DB
  bucketErr : Bytes → Option Error
  commitErr : Option Error
  kirokuErr : Option Error
  log : Kiroku

/-- The environment of a store created from nothing, where no collaborator fails. -/
def InitEnv.fresh : InitEnv := ⟨none, DB.empty, fun _ => none, none, none, ⟨[], 0⟩⟩

/-- The calls on collaborators made while a store is opened. -/
inductive Effect where
  | openBackend (filename : Bytes)
  | newKiroku (dir name : Bytes)
  | newBatcher
  deriving DecidableEq, Repr

/-- The elements of a path, cut at its slashes; `cur` is the element being read. -/
def pathElems : Bytes → Bytes → List Bytes
  | cur, [] => [cur]
  | cur, c :: rest => if c = '/' then cur :: pathElems [] rest else pathElems (cur ++ [c]) rest

/-- One element in the loop of `path.Clean`; `out` holds the elements written so
far, the last one first. An empty element and `.` are dropped; `..` removes
the last element written when that is a name, is written itself on an
unrooted path that cannot go back further, and is dropped at the root; a name
is written. -/
def cleanStep (rooted : Bool) (out : List Bytes) (e : Bytes) : List Bytes :=
  if e = [] ∨ e = ".".toList then out
  else if e = "..".toList then
    match out with
    | [] => if rooted then [] else [e]
    | top :: below => if top = "..".toList then (if rooted then out else e :: out) else below
  else e :: out

/-- The call `path.Clean(p)`: the shortest equivalent path; the empty result of
an unrooted path is `.`. -/
def pathClean (p : Bytes) : Bytes :=
  let rooted := p.head? = some '/'
  let body := "/".toList.intercalate ((pathElems [] p).foldl (cleanStep rooted) []).reverse
  if rooted then '/' :: body
  else if body = [] then ".".toList
  else body

/-- The call `path.Join(dir, file)`: the non-empty arguments joined by a slash,
then cleaned; the empty string when both are empty. -/
def pathJoin (dir file : Bytes) : Bytes :=
  if dir = [] then (if file = [] then [] else pathClean file)
  else pathClean (dir ++ ['/'] ++ file)

/-- The loop of `init` over the declared relationships: each gets its bucket
under `relationships` and is appended to the store's relationship list. -/
def initRelationships (env : InitEnv) : List Bytes → DB → List Bytes →
    DB × List Bytes × Except Error Unit
  | [], txn, rels => (txn, rels, .ok ())
  | relationship :: rest, txn, rels =>
    match env.bucketErr relationship with
    | some e => (txn, rels, .error e)
    | none =>
      initRelationships env rest
        { txn with relationshipBkts := getOrCreate txn.relationshipBkts relationship }
        (rels ++ [relationship])

/-- The closure of the initializing transaction of `init`. -/
def initBuckets (env : InitEnv) (relationships : List Bytes) (txn : DB) (rels : List Bytes) :
    DB × List Bytes × Except Error Unit :=
  match env.bucketErr entriesBktKey with
  | some e => (txn, rels, .error e)
  | none =>
    let txn1 := { txn with buckets := getOrCreate txn.buckets entriesBktKey }
    match env.bucketErr lookupsBktKey with
    | some e => (txn1, rels, .error e)
    | none =>
      let txn2 := { txn1 with buckets := getOrCreate txn1.buckets lookupsBktKey }
      match env.bucketErr relationshipsBktKey with
      | some e => (txn2, rels, .error e)
      | none =>
        let txn3 := { txn2 with buckets := getOrCreate txn2.buckets relationshipsBktKey }
        initRelationships env relationships txn3 rels

/-- `Mojura.init`: opens the backend at `dir/name.bdb` and creates the buckets
in one backend transaction. -/
def Mojura.init (m : Mojura) (env : InitEnv) (name dir : Bytes) (relationships : List Bytes) :
    List Effect × Mojura × Option Error :=
  let filename := pathJoin dir (name ++ ".bdb".toList)
  match env.openErr with
  | some e => ([.openBackend filename], m, some (.opening name dir e))
  | none =>
    match Backend.Transaction env.commitErr env.opened m.relationships
        (initBuckets env relationships) with
    | (db1, rels, r) =>
      ([.openBackend filename], { m with db := db1, relationships := rels }, errOf r)

/-- `NewWithOpts`: validates the options and the number of relationships, sets
the ID format, initializes the backend, opens the change log and starts the
batcher. The first component lists the collaborators called. -/
def NewWithOpts (env : InitEnv) (name dir : Bytes) (exampleValue : Value) (opts : Opts)
    (relationships : List Bytes) : List Effect × Except Error Mojura :=
  match opts.Validate with
  | some e => ([], .error e)
  | none =>
    if exampleValue.Relationships.length ≠ relationships.length then
      ([], .error .ErrInvalidNumberOfRelationships)
    else
      let m : Mojura :=
        ⟨DB.empty, ⟨[], 0⟩, opts, Sprintf "%s0%dd".toList [.str "%".toList, .int opts.IndexLength],
          [], false⟩
      match m.init env name dir relationships with
      | (effs, _, some e) => (effs, .error e)
      | (effs, m1, none) =>
        match env.kirokuErr with
        | some e => (effs ++ [.newKiroku dir name], .error e)
        | none => (effs ++ [.newKiroku dir name, .newBatcher], .ok { m1 with k := env.log })

/-- `New`: a store with the default options. -/
def New (env : InitEnv) (enc : Encoder) (name dir : Bytes) (exampleValue : Value)
    (relationships : List Bytes) : List Effect × Except Error Mojura :=
  NewWithOpts env name dir exampleValue (defaultOpts enc) relationships

/-- The ID a store prints for an index once `NewWithOpts` has returned it
(nothing when the store did not open). -/
def openedID (r : Except Error Mojura) (index : Nat) : Option Bytes :=
  match r with
  | .ok m => some (Sprintf m.indexFmt [.uint64 index])
  | .error _ => none

/-! ## Sample inputs -/

/-- A record with one user and two tags. -/
def sampleValue : Value := ⟨[], [["user_1".toList], ["foo".toList, "bar".toList]], "FOO FOO".toList⟩

/-- The same record after an edit of its relationships. -/
def sampleEdited : Value := ⟨[], [["user_3".toList], ["bar".toList, "boom".toList]], "FOO FOO".toList⟩

/-- An encoder over the two sample records; `Unmarshal` undoes `Marshal`. -/
def sampleEncoder : Encoder where
  Marshal := fun v =>
    if v = sampleValue then .ok ['A']
    else if v = sampleEdited then .ok ['B']
    else .error (.other "unsupported value")
  Unmarshal := fun bs =>
    if bs = ['A'] then .ok sampleValue
    else if bs = ['B'] then .ok sampleEdited
    else .error (.other "invalid payload")

/-- The store opened by `New` on an empty directory with the relationships
`users` and `tags`. -/
def sampleStore : Mojura :=
  ⟨⟨[entriesBktKey, lookupsBktKey, relationshipsBktKey], ["users".toList, "tags".toList], [],
      fun _ _ => [], fun _ _ => []⟩,
    ⟨[], 0⟩, defaultOpts sampleEncoder, "%08d".toList, ["users".toList, "tags".toList], false⟩

/-- An encoder whose `Unmarshal` fails on every payload. -/
def brokenEncoder : Encoder where
  Marshal := fun _ => .ok ['A']
  Unmarshal := fun _ => .error (.other "invalid payload")

/-- The store opened by `New` on an empty directory with the relationships
`users` and `tags` and the encoder whose `Unmarshal` fails. -/
def brokenStore : Mojura :=
  ⟨⟨[entriesBktKey, lookupsBktKey, relationshipsBktKey], ["users".toList, "tags".toList], [],
      fun _ _ => [], fun _ _ => []⟩,
    ⟨[], 0⟩, defaultOpts brokenEncoder, "%08d".toList, ["users".toList, "tags".toList], false⟩

/-- A record holding `a` in its first slot and `b` in its second. -/
def swapValue : Value := ⟨[], [["a".toList], ["b".toList]], []⟩

/-- The same record with the two slots exchanged. -/
def swappedValue : Value := ⟨[], [["b".toList], ["a".toList]], []⟩

/-- An encoder over the two records with exchanged slots; `Unmarshal` undoes
`Marshal`. -/
def swapEncoder : Encoder where
  Marshal := fun v =>
    if v = swapValue then .ok ['A']
    else if v = swappedValue then .ok ['B']
    else .error (.other "unsupported value")
  Unmarshal := fun bs =>
    if bs = ['A'] then .ok swapValue
    else if bs = ['B'] then .ok swappedValue
    else .error (.other "invalid payload")

/-- The store opened by `New` on an empty directory with the relationship name
`users` declared for both slots. -/
def dupStore : Mojura :=
  ⟨⟨[entriesBktKey, lookupsBktKey, relationshipsBktKey], ["users".toList], [],
      fun _ _ => [], fun _ _ => []⟩,
    ⟨[], 0⟩, defaultOpts swapEncoder, "%08d".toList, ["users".toList, "users".toList], false⟩

/-- The store opened by `NewWithOpts` on an empty directory with the
relationships `users` and `tags` and the `IndexLength` 20. -/
def wideStore : Mojura :=
  ⟨⟨[entriesBktKey, lookupsBktKey, relationshipsBktKey], ["users".toList, "tags".toList], [],
      fun _ _ => [], fun _ _ => []⟩,
    ⟨[], 0⟩, ⟨20, sampleEncoder⟩, "%020d".toList, ["users".toList, "tags".toList], false⟩

/-- The store of `IndexLength` 20 after `k` insertions of the sample record. -/
def wideFilled : Nat → Mojura
  | 0 => wideStore
  | k + 1 => ((wideFilled k).New Commits.ok sampleValue).1

/-- A write closure of `Mojura.transaction` that logs one record and succeeds. -/
def sampleWrite : DB → Writer → DB × Writer × Except Error Unit :=
  fun txn w => (txn, w ++ [.write (getLogKey entriesBktKey "00000000".toList) ['A']], .ok ())

/-- A transaction closure that inserts the sample record. -/
def sampleInsert : TransactionFn Bytes := fun txn => txn.new sampleValue

/-! ## Runs of calls and invariants -/

/-- Runs `New` on each value in turn, each call on the store the previous one
left; the results are listed in call order. -/
def newAll : Mojura → List (Commits × Value) → Mojura × List (Except Error Bytes)
  | m, [] => (m, [])
  | m, (c, v) :: rest =>
    match m.New c v with
    | (m1, r) =>
      match newAll m1 rest with
      | (m2, rs) => (m2, r :: rs)

/-- The operation leaves the store handle and the entries bucket as they are. -/
def KeepsEntries (f : Transaction → Transaction) : Prop :=
  ∀ t, (f t).m = t.m ∧ (f t).txn.entries = t.txn.entries

/-- The keys of the entries bucket are IDs of width `w`, in strict byte order. -/
def CanonicalEntries (w : Nat) (entries : Bucket) : Prop :=
  entries.Sorted ∧ ∀ x ∈ entries.keys, ∃ i, i < 10 ^ w ∧ x = fixedWidth w i

/-- The relationship ids a vector holds in the slot of the relationship `name`:
the element of the vector at the position of `name` among the declared names
(empty when the vector is shorter or the name is not declared). -/
def slotOf : List Bytes → List (List Bytes) → Bytes → List Bytes
  | [], _, _ => []
  | n :: names, rels, name => if n = name then rels.headD [] else slotOf names rels.tail name

/-- The live entry stored under an id: the decoded row, if there is one. -/
def entryOf (enc : Encoder) (entries : Bucket) (id : Bytes) : Option Value :=
  match entries.Get id with
  | none => none
  | some bs =>
    match enc.Unmarshal bs with
    | .ok v => some v
    | .error _ => none

/-- The per-slot operation of `edit`, with the entry id fixed. -/
def updateOp (id : Bytes) : Bytes → List Bytes → List Bytes → Transaction → Transaction :=
  fun name old new t0 => t0.updateRelationship name id old new

/-- The configuration under which the index is maintained: the ID format of a
width between 1 and 19 (so that every index of that width is below the 64-bit
range), distinct relationship names and an encoder whose `Unmarshal` undoes
`Marshal`. -/
def StoreCfg (m : Mojura) : Prop :=
  1 ≤ m.opts.IndexLength ∧ m.opts.IndexLength ≤ 19 ∧
  m.indexFmt = '%' :: '0' :: (formatDecimal m.opts.IndexLength ++ ['d']) ∧
  m.relationships.Nodup ∧ m.opts.Encoder.Lawful

/-- The relationship invariant of the backend state: the entries bucket holds
IDs of the store's width in order, every relationship bucket is in order, and
the leaf `relationships/name/rid/id` exists exactly when the live entry `id`
holds `rid` in the slot of `name`. -/
def StoreInv (m : Mojura) : Prop :=
  CanonicalEntries m.opts.IndexLength m.db.entries ∧
  (∀ name rid, (m.db.relationships name rid).Sorted) ∧
  (∀ name rid id, id ∈ (m.db.relationships name rid).keys ↔
    ∃ v, entryOf m.opts.Encoder m.db.entries id = some v ∧
      rid ∈ slotOf m.relationships v.Relationships name)

/-- The stores reached from `m0` by successful `New`, `Edit` and `Remove` calls. -/
inductive Reachable (m0 : Mojura) : Mojura → Prop where
  | start : Reachable m0 m0
  | new (m : Mojura) (c : Commits) (v : Value) (id : Bytes) :
      Reachable m0 m → (m.New c v).2 = .ok id → Reachable m0 (m.New c v).1
  | edit (m : Mojura) (c : Commits) (id : Bytes) (v : Value) :
      Reachable m0 m → (m.Edit c id v).2 = .ok () → Reachable m0 (m.Edit c id v).1
  | remove (m : Mojura) (c : Commits) (id : Bytes) :
      Reachable m0 m → (m.Remove c id).2 = .ok () → Reachable m0 (m.Remove c id).1

/-- The entry `id` is among the entries `GetByRelationship(name, rid)` returns. -/
def returnedFor (m : Mojura) (name rid id : Bytes) : Prop :=
  ∃ es, (m.GetByRelationship name rid).2 = .ok es ∧ ∃ out ∈ es, out.ID = id

/-- The leaf of filter `f` exists for the entry `id`. -/
def leafExists (m : Mojura) (f : Filter) (id : Bytes) : Prop :=
  id ∈ (m.db.relationships f.RelationshipKey f.RelationshipID).keys

/-- The sample store after the insertion of the two sample records. -/
def sampleFilled : Mojura :=
  ((sampleStore.New Commits.ok sampleValue).1.New Commits.ok sampleEdited).1

/-- The state of the store of `IndexLength` 20 after `k` insertions of the sample
record: the configuration of the store, the relationship invariant, the IDs of
the indices below `k` as the keys of the entries bucket, each with the
encoding of the sample record. -/
def WideInv (k : Nat) (m : Mojura) : Prop :=
  m.opts = ⟨20, sampleEncoder⟩ ∧
  m.indexFmt = '%' :: '0' :: (formatDecimal 20 ++ ['d']) ∧
  m.relationships = ["users".toList, "tags".toList] ∧
  StoreInv m ∧
  (∀ x, x ∈ m.db.entries.keys ↔ ∃ i, i < k ∧ x = fixedWidth 20 i) ∧
  (∀ x ∈ m.db.entries.keys, m.db.entries.Get x = some ['A'])

/-! ## Log keys -/

/-- The loop of `bytes.Split(s, sep)` for a non-empty separator: the text is
cut at each occurrence of the separator found from left to right, the search
resuming after the occurrence. `cur` is the piece being read; the first
argument bounds the number of steps. -/
def bytesSplitGo (sep : Bytes) : Nat → Bytes → Bytes → List Bytes
  | 0, cur, s => [cur ++ s]
  | _ + 1, cur, [] => [cur]
  | n + 1, cur, c :: rest =>
    if sep.isPrefixOf (c :: rest) then cur :: bytesSplitGo sep n [] ((c :: rest).drop sep.length)
    else bytesSplitGo sep n (cur ++ [c]) rest

/-- The call `bytes.Split(s, sep)` with a non-empty separator. -/
def bytesSplit (s sep : Bytes) : List Bytes := bytesSplitGo sep s.length [] s

/-- `parseLogKey` (`utils.go`): the log key is split at `::`; anything but two
pieces is `ErrInvalidLogKey`; the pieces are the bucket and the key. -/
def parseLogKey (logKey : Bytes) : Except Error (Bytes × Bytes) :=
  let spl := bytesSplit logKey "::".toList
  if spl.length ≠ 2 then .error .ErrInvalidLogKey
  else .ok (spl.getD 0 [], spl.getD 1 [])

/-- The split of a text at the delimiter `::`, in closed form: `cur` is the
piece being read. -/
def splitDelimGo : Bytes → Bytes → List Bytes
  | cur, [] => [cur]
  | cur, [c] => [cur ++ [c]]
  | cur, c :: d :: rest =>
    if c = ':' ∧ d = ':' then cur :: splitDelimGo [] rest
    else splitDelimGo (cur ++ [c]) (d :: rest)

/-- The number of `::` delimiters of a text, counted from left to right without
overlap (as `bytes.Count` counts them). -/
def countDelim : Bytes → Nat
  | [] => 0
  | [_] => 0
  | c :: d :: rest =>
    if c = ':' ∧ d = ':' then countDelim rest + 1 else countDelim (d :: rest)

/-! ## Byte slices in memory

`getLogKey` builds its result with `make` and `append`. To state what it
does to its arguments, byte slices are also modelled in memory: a heap of
backing arrays and slice headers pointing into them. -/

/-- The heap of backing arrays: the contents of each array and the number of
arrays allocated so far (array `a` is allocated when `a < next`). -/
structure Heap where
  cells : Nat → Bytes
  next : Nat

/-- A slice header: backing array, offset, length and capacity. -/
structure Slice where
  arr : Nat
  off : Nat
  len : Nat
  cap : Nat
  deriving DecidableEq, Repr

/-- The elements of a slice. -/
def Slice.read (s : Slice) (h : Heap) : Bytes := ((h.cells s.arr).drop s.off).take s.len

/-- The array `a` with the bytes `src` written from index `i` on. -/
def writeAt (a : Bytes) (i : Nat) (src : Bytes) : Bytes :=
  a.take i ++ src ++ a.drop (i + src.length)

/-- The contents of the heap with array `a` replaced. -/
def Heap.set (h : Heap) (a : Nat) (content : Bytes) : Nat → Bytes :=
  fun x => if x = a then content else h.cells x

/-- The call `make([]byte, len, cap)`: a fresh zeroed array. -/
def Heap.make (h : Heap) (len cap : Nat) : Heap × Slice :=
  (⟨h.set h.next (List.replicate cap (Char.ofNat 0)), h.next + 1⟩, ⟨h.next, 0, len, cap⟩)

/-- The call `append(dst, src...)`: when the capacity suffices the bytes are
written into the backing array of `dst` after its elements; otherwise the
elements and the bytes go to a fresh array. -/
def Heap.append (h : Heap) (dst : Slice) (src : Bytes) : Heap × Slice :=
  if dst.len + src.length ≤ dst.cap then
    (⟨h.set dst.arr (writeAt (h.cells dst.arr) (dst.off + dst.len) src), h.next⟩,
      { dst with len := dst.len + src.length })
  else
    (⟨h.set h.next (dst.read h ++ src), h.next + 1⟩,
      ⟨h.next, 0, dst.len + src.length, dst.len + src.length⟩)

/-- `getLogKey` (`utils.go`) statement by statement, on slices in memory: a
buffer of capacity `len(bucket)+len(key)+2` is made, and the bucket, the
delimiter and the key are appended to it. -/
def getLogKeyIn (h : Heap) (bucket key : Slice) : Heap × Slice :=
  match h.make 0 (bucket.len + key.len + 2) with
  | (h1, logKey1) =>
    match h1.append logKey1 (bucket.read h1) with
    | (h2, logKey2) =>
      match h2.append logKey2 "::".toList with
      | (h3, logKey3) => h3.append logKey3 (key.read h3)

/-- A heap with the two sample arrays `entries` and `00000000`. -/
def sampleHeap : Heap :=
  ⟨fun a => if a = 0 then "entries".toList else if a = 1 then "00000000".toList else [], 2⟩

/-! ## Reflection on the entries argument -/

/-- Go types as far as the type checks of `utils.go` tell them apart: a defined
type that is neither a pointer nor a slice, the pointer type `*elem`, the
slice type `[]elem`, a defined type whose underlying type is the pointer type
`*elem` (`type name *elem`) and a defined type whose underlying type is the
slice type `[]elem` (`type name []elem`). Two types are identical when they
are built alike. -/
inductive GoType where
  | named (name : String)
  | ptr (elem : GoType)
  | slice (elem : GoType)
  | definedPtr (name : String) (elem : GoType)
  | definedSlice (name : String) (elem : GoType)
  deriving DecidableEq, Repr

/-- The kinds `reflect.Kind` the checks look at. -/
inductive Kind where
  | Invalid
  | Ptr
  | Slice
  | Other
  deriving DecidableEq, Repr

/-- A non-nil value handed over as `interface{}`: a value of a defined type, a
slice with its element type and its (opaque) elements, a pointer to a value,
a nil pointer of a pointer type, and a slice or a pointer of a defined slice
or pointer type. -/
inductive GoValue where
  | basic (name : String) (data : Bytes)
  | slice (elem : GoType) (items : List Bytes)
  | pointer (target : GoValue)
  | nilPointer (elem : GoType)
  | definedSlice (name : String) (elem : GoType) (items : List Bytes)
  | definedPointer (name : String) (target : GoValue)
  deriving DecidableEq, Repr

/-- The call `reflect.TypeOf` on a non-nil value. -/
def GoValue.typeOf : GoValue → GoType
  | .basic name _ => .named name
  | .slice elem _ => .slice elem
  | .pointer target => .ptr target.typeOf
  | .nilPointer elem => .ptr elem
  | .definedSlice name elem _ => .definedSlice name elem
  | .definedPointer name target => .definedPtr name target.typeOf

/-- A `reflect.Value`: `none` is the zero Value. `reflect.ValueOf` of a nil
interface is the zero Value, of a non-nil value the value itself. -/
abbrev ReflectValue := Option GoValue

/-- The method `Kind` of a type: the kind of its underlying type. -/
def GoType.Kind : GoType → Kind
  | .named _ => .Other
  | .ptr _ => .Ptr
  | .slice _ => .Slice
  | .definedPtr _ _ => .Ptr
  | .definedSlice _ _ => .Slice

/-- The method `Kind` of a `reflect.Value`; the zero Value has the kind `Invalid`. -/
def ReflectValue.Kind : ReflectValue → Kind
  | none => .Invalid
  | some v => v.typeOf.Kind

/-- The method `Elem` of a `reflect.Value` of kind `Ptr`: the value pointed to,
the zero Value for a nil pointer. -/
def ReflectValue.Elem : ReflectValue → ReflectValue
  | some (.pointer target) => some target
  | some (.definedPointer _ target) => some target
  | _ => none

/-- The method `Elem` of a type: the element type of a pointer or slice type,
defined or not (`none` where Go panics). -/
def GoType.Elem : GoType → Option GoType
  | .ptr elem => some elem
  | .slice elem => some elem
  | .definedPtr _ elem => some elem
  | .definedSlice _ elem => some elem
  | .named _ => none

/-- `isPointer` (`utils.go`). -/
def isPointer (t : GoType) : Bool := t.Kind = .Ptr

/-- `getCoreType` (`utils.go`): the type of the value, with one pointer level
stripped when it is a pointer type. -/
def getCoreType (v : GoValue) : GoType :=
  let t := v.typeOf
  if !isPointer t then t
  else
    match t.Elem with
    | some e => e
    | none => t

/-- `isType` (`utils.go`): the element type of the slice is a pointer type whose
element type is `t`. It is called on values of kind `Slice` only. -/
def isType (v : ReflectValue) (t : GoType) : Bool :=
  match v with
  | none => false
  | some val =>
    match val.typeOf.Elem with
    | none => false
    | some e =>
      if !isPointer e then false
      else e.Elem = some t

/-- `getReflectedSlice` (`utils.go`): the named results `slice` and `err` at each
return. A value that is not of kind `Ptr` returns the zero Value and a nil
error. -/
def getReflectedSlice (t : GoType) (v : Option GoValue) : ReflectValue × Option Error :=
  let ptr : ReflectValue := v
  if ptr.Kind ≠ .Ptr then (none, none)
  else
    let slice := ptr.Elem
    if slice.Kind ≠ .Slice then (slice, some .ErrInvalidEntries)
    else if !isType slice t then (slice, some .ErrInvalidType)
    else (slice, none)

/-- `Transaction.GetByRelationship` (`transaction.go`): the entries argument is
checked against the entry type of the store, then the lookup is made. The
first component tells whether the lookup was made. -/
def Transaction.GetByRelationship (t : Transaction) (entryType : GoType)
    (relationship relationshipID : Bytes) (entries : Option GoValue) :
    Bool × Except Error (List Value) :=
  match getReflectedSlice entryType entries with
  | (_, some e) => (false, .error e)
  | (_, none) => (true, t.getByRelationship relationship relationshipID)

/-- The example record of `core_test.go`, a pointer to a `testStruct`. -/
def sampleExample : GoValue := .pointer (.basic "testStruct" [])

/-! ## Cursors -/

/-- A cursor inside a transaction: the candidate entry ids it walks in
ascending order, the secondary filters it applies and its position. -/
structure Cursor where
  ids : List Bytes
  filters : List Filter
  position : Option Nat
  deriving DecidableEq, Repr

/-- Modelled from the spec: `Transaction.cursor` is not among the sources
(section 4.5): with no filters the cursor walks the entries bucket; with
filters it walks the bucket of the primary filter and applies the remaining
filters; a filter list without a non-inverse filter is
`ErrInversePrimaryFilter`. -/
def Transaction.cursor (t : Transaction) (fs : List Filter) : Except Error Cursor :=
  match fs with
  | [] => .ok ⟨t.txn.entries.keys, [], none⟩
  | f :: rest =>
    match primaryFilter (f :: rest) with
    | none => .error .ErrInversePrimaryFilter
    | some (p, secondary) =>
      .ok ⟨(t.txn.relationships p.RelationshipKey p.RelationshipID).keys, secondary, none⟩

/-- The closure `Mojura.Cursor` runs in its read transaction: it builds the
cursor, returns the error of building it, and otherwise the error of the
callback. -/
def Mojura.cursorFn (fn : Cursor → Option Error) (fs : List Filter) : TransactionFn Unit :=
  fun txn =>
    match txn.cursor fs with
    | .error e => (txn, .error e)
    | .ok c =>
      match fn c with
      | some e => (txn, .error e)
      | none => (txn, .ok ())

/-- `Mojura.Cursor`: the result of the read transaction, with `Break` turned
into nil. -/
def Mojura.Cursor (m : Mojura) (fn : Cursor → Option Error) (fs : List Filter) :
    Mojura × Option Error :=
  match m.ReadTransaction Context.Background (Mojura.cursorFn fn fs) with
  | (m1, r) => (m1, if errOf r = some .Break then none else errOf r)

/-! ## Closing -/

/-- The error list of the errors package: `Push` appends a non-nil error. -/
def ErrorList.Push (errs : List Error) (err : Option Error) : List Error :=
  match err with
  | none => errs
  | some e => errs ++ [e]

/-- The method `Err` of the error list: nil when the list is empty, the error
itself when there is one, the list of the errors otherwise. -/
def ErrorList.Err : List Error → Option Error
  | [] => none
  | [e] => some e
  | e :: rest =>
    match ErrorList.Err rest with
    | some r => some (.both e r)
    | none => some e

/-- The errors the backend and the change log return when they are closed. -/
structure CloseEnv where
  dbErr : Option Error
  kErr : Option Error
  deriving DecidableEq, Repr

/-- The collaborators closed by a `Close` call. -/
inductive CloseEffect where
  | closeBackend
  | closeLog
  deriving DecidableEq, Repr

/-- `Mojura.Close`: `closed.Set(true)` reports whether the flag changed; when it
did not, the result is `ErrIsClosed`; otherwise the backend and the change log
are closed and their errors are pushed to one error list. The second
component lists the collaborators closed by the call. -/
def Mojura.Close (m : Mojura) (env : CloseEnv) : Mojura × List CloseEffect × Option Error :=
  if m.closed then (m, [], some .ErrIsClosed)
  else
    ({ m with closed := true }, [.closeBackend, .closeLog],
      ErrorList.Err (ErrorList.Push (ErrorList.Push [] env.dbErr) env.kErr))

/-- Runs `Close` once for each environment, each call on the store the previous
one left; the closed collaborators and the results are listed in call order. -/
def closeAll : Mojura → List CloseEnv → List (List CloseEffect × Option Error)
  | _, [] => []
  | m, env :: rest => (m.Close env).2 :: closeAll (m.Close env).1 rest

/-! ## Lookups -/

/-- The bucket path `lookups/name/lookupID` under which a lookup key is logged. -/
def lookupPath (lookup lookupID : Bytes) : Bytes :=
  lookupsBktKey ++ ['/'] ++ lookup ++ ['/'] ++ lookupID

/-- Modelled from the spec: the place of a key written to a lookup bucket.
Section 4.3 words the result of `GetLookup`, the newest key first, as the
bucket's cursor walked from last to first: the cursor of a lookup bucket is
taken to walk the keys in the order in which they were inserted. A key that
is not held is written after the last one; a key that is already held keeps
its place and gets the new value. -/
def Bucket.PutLast (b : Bucket) (k v : Bytes) : Bucket :=
  if k ∈ b.keys then b.map (fun kv => if kv.1 = k then (k, v) else kv) else b ++ [(k, v)]

/-- The lookup buckets after the write of the key `lookup/lookupID/key` (an
empty marker). -/
def putLookupAt (lookups : Bytes → Bytes → Bucket) (lookup lookupID key : Bytes) :
    Bytes → Bytes → Bucket :=
  fun n r => if n = lookup ∧ r = lookupID then (lookups n r).PutLast key [] else lookups n r

/-- The lookup buckets after the deletion of the key `lookup/lookupID/key`. -/
def deleteLookupAt (lookups : Bytes → Bytes → Bucket) (lookup lookupID key : Bytes) :
    Bytes → Bytes → Bucket :=
  fun n r => if n = lookup ∧ r = lookupID then (lookups n r).Delete key else lookups n r

/-- Modelled from the spec: `SetLookup` is not among the sources (section 4.3):
inserts the key `lookups/lookup/lookupID/key` (an empty marker), mirrored to
the log. -/
def Transaction.setLookup (t : Transaction) (lookup lookupID key : Bytes) :
    Transaction × Except Error Unit :=
  (Transaction.mirror
    { t with txn := { t.txn with lookups := putLookupAt t.txn.lookups lookup lookupID key } }
    (.write (getLogKey (lookupPath lookup lookupID) key) []), .ok ())

/-- Modelled from the spec: `RemoveLookup` is not among the sources (section
4.3): deletes the single key `lookups/lookup/lookupID/key`, mirrored to the
log. -/
def Transaction.removeLookup (t : Transaction) (lookup lookupID key : Bytes) :
    Transaction × Except Error Unit :=
  (Transaction.mirror
    { t with txn := { t.txn with lookups := deleteLookupAt t.txn.lookups lookup lookupID key } }
    (.delete (getLogKey (lookupPath lookup lookupID) key)), .ok ())

/-- Modelled from the spec: `GetLookup` is not among the sources (section 4.3):
returns all keys under `lookups/lookup/lookupID` in reverse-insertion order,
the bucket's cursor walked from last to first. -/
def Transaction.getLookup (t : Transaction) (lookup lookupID : Bytes) :
    Except Error (List Bytes) :=
  .ok (t.txn.lookups lookup lookupID).keys.reverse

/-- `SetLookup` of the store (`core_test.go`), in a transaction of its own. -/
def Mojura.SetLookup (m : Mojura) (c : Commits) (lookup lookupID key : Bytes) :
    Mojura × Except Error Unit :=
  m.Transaction c Context.Background (fun txn => txn.setLookup lookup lookupID key)

/-- `RemoveLookup` of the store (`core_test.go`), in a transaction of its own. -/
def Mojura.RemoveLookup (m : Mojura) (c : Commits) (lookup lookupID key : Bytes) :
    Mojura × Except Error Unit :=
  m.Transaction c Context.Background (fun txn => txn.removeLookup lookup lookupID key)

/-- `GetLookup` of the store (`core_test.go`), in a read transaction. -/
def Mojura.GetLookup (m : Mojura) (lookup lookupID : Bytes) :
    Mojura × Except Error (List Bytes) :=
  m.ReadTransaction Context.Background (fun txn => (txn, txn.getLookup lookup lookupID))

/-- A call on a lookup: `SetLookup` or `RemoveLookup` of a key. -/
inductive LookupOp where
  | set (key : Bytes)
  | remove (key : Bytes)
  deriving DecidableEq, Repr

/-- One call on the lookup `lookups/lookup/lookupID`. -/
def Mojura.lookupCall (m : Mojura) (c : Commits) (lookup lookupID : Bytes) :
    LookupOp → Mojura × Except Error Unit
  | .set key => m.SetLookup c lookup lookupID key
  | .remove key => m.RemoveLookup c lookup lookupID key

/-- Runs the calls on one lookup in turn, each on the store the previous one
left; the results are listed in call order. -/
def lookupAll (lookup lookupID : Bytes) :
    Mojura → List (Commits × LookupOp) → Mojura × List (Except Error Unit)
  | m, [] => (m, [])
  | m, (c, op) :: rest =>
    match m.lookupCall c lookup lookupID op with
    | (m1, r) =>
      match lookupAll lookup lookupID m1 rest with
      | (m2, rs) => (m2, r :: rs)

/-- The keys of the `SetLookup` calls among the calls, in call order. -/
def setKeys : List LookupOp → List Bytes
  | [] => []
  | .set key :: ops => key :: setKeys ops
  | .remove _ :: ops => setKeys ops

/-- The keys held after the calls, the newest first, starting from the keys
`acc`: a key set while it is not held is put first, a key set while it is held
keeps its place, a removed key is dropped. -/
def newestFirst : List Bytes → List LookupOp → List Bytes
  | acc, [] => acc
  | acc, .set key :: ops => newestFirst (if key ∈ acc then acc else key :: acc) ops
  | acc, .remove key :: ops => newestFirst (acc.filter (fun k => k ≠ key)) ops

/-- The lookup bucket after the calls, each a write or a deletion of its key. -/
def Bucket.afterLookupOps : Bucket → List LookupOp → Bucket
  | b, [] => b
  | b, .set key :: ops => Bucket.afterLookupOps (b.PutLast key []) ops
  | b, .remove key :: ops => Bucket.afterLookupOps (b.Delete key) ops

end Dbl

/-! # Theorems -/

namespace Dbl


/-! ## The context runner -/

theorem sampleStore_opened :
    (New InitEnv.fresh sampleEncoder "test".toList "test_data".toList sampleValue
      ["users".toList, "tags".toList]).2 = .ok sampleStore := rfl

theorem sampleEncoder_lawful : sampleEncoder.Lawful := by
  intro v bs h
  simp only [sampleEncoder] at h ⊢
  split at h
  · cases h; simp_all
  · split at h
    · cases h
      rename_i h2
      subst h2
      decide
    · cases h

/-- C9. The result of `runTransaction` is determined by the event its `select`
receives: the closure's result (nil included) when that is received first; on
the `Done` branch the context's own `Err()` when it is non-nil and
`ErrContextCancelled` otherwise, never nil. -/
theorem runTransaction_selected {α : Type} (m : Mojura) (ctx : Context) (txn : DB)
    (kw : Option Writer) (fn : TransactionFn α) :
    (ctx.doneFirst = false →
      (m.runTransaction ctx txn kw fn).2.2 = (fn (newTransaction ctx m txn kw)).2) ∧
    (ctx.doneFirst = true → ∀ e, ctx.err = some e →
      errOf (m.runTransaction ctx txn kw fn).2.2 = some e) ∧
    (ctx.doneFirst = true → ctx.err = none →
      errOf (m.runTransaction ctx txn kw fn).2.2 = some .ErrContextCancelled) ∧
    (ctx.doneFirst = true → errOf (m.runTransaction ctx txn kw fn).2.2 ≠ none) := by
  refine ⟨?_, ?_, ?_, ?_⟩
  · intro h
    simp [Mojura.runTransaction, newTransaction, h]
  · intro h e he
    simp [Mojura.runTransaction, newTransaction, h, he, errOf]
  · intro h he
    simp [Mojura.runTransaction, newTransaction, h, he, errOf]
  · intro h
    cases he : ctx.err <;> simp [Mojura.runTransaction, newTransaction, h, he, errOf]

theorem runTransaction_selected_witness :
    errOf (sampleStore.runTransaction ⟨true, none⟩ sampleStore.db none sampleInsert).2.2
      = some .ErrContextCancelled ∧
    (sampleStore.runTransaction ⟨false, none⟩ sampleStore.db none sampleInsert).2.2
      = .ok "00000000".toList :=
  ⟨(runTransaction_selected sampleStore ⟨true, none⟩ sampleStore.db none sampleInsert).2.2.1
      rfl rfl,
    ((runTransaction_selected sampleStore ⟨false, none⟩ sampleStore.db none sampleInsert).1
      rfl).trans (by decide)⟩

/-- C8, as stated, fails: a context cancelled before the closure completes whose
`Err()` is the non-nil `context canceled` makes `runTransaction` return that
error, not `ErrContextCancelled`. -/
theorem runTransaction_cancelled_counterexample :
    errOf (sampleStore.runTransaction ⟨true, some (.other "context canceled")⟩
      sampleStore.db none sampleInsert).2.2 = some (.other "context canceled") ∧
    errOf (sampleStore.runTransaction ⟨true, some (.other "context canceled")⟩
      sampleStore.db none sampleInsert).2.2 ≠ some .ErrContextCancelled := by
  decide

/-- C8, amended. When the context's `Done` fires before the closure's result is
received, `Transaction` and `ReadTransaction` return a non-nil error, the
context's own `Err()` when it is non-nil and `ErrContextCancelled` only when
`Err()` is nil, and nothing is committed to the backend or to the log. -/
theorem cancelled_transaction_error {α : Type} (m : Mojura) (c : Commits) (ctx : Context)
    (fn : TransactionFn α) (h : ctx.doneFirst = true) :
    errOf (m.Transaction c ctx fn).2 = some (ctx.err.getD .ErrContextCancelled) ∧
    errOf (m.ReadTransaction ctx fn).2 = some (ctx.err.getD .ErrContextCancelled) ∧
    (m.Transaction c ctx fn).1.db = m.db ∧
    (m.Transaction c ctx fn).1.k.chunks = m.k.chunks ∧
    (m.ReadTransaction ctx fn).1 = m := by
  cases he : ctx.err <;>
    simp [Mojura.Transaction, Mojura.ReadTransaction, Mojura.transaction, Mojura.transactionFn,
      Backend.Transaction, Backend.ReadTransaction, Kiroku.Transaction, Mojura.runTransaction,
      newTransaction, h, he, errOf]

theorem cancelled_transaction_error_witness :
    errOf (sampleStore.Transaction Commits.ok ⟨true, none⟩ sampleInsert).2
      = some .ErrContextCancelled ∧
    errOf (sampleStore.ReadTransaction ⟨true, none⟩ sampleInsert).2
      = some .ErrContextCancelled :=
  ⟨(cancelled_transaction_error sampleStore Commits.ok ⟨true, none⟩ sampleInsert rfl).1,
    (cancelled_transaction_error sampleStore Commits.ok ⟨true, none⟩ sampleInsert rfl).2.1⟩

/-! ## The two commits of a write transaction -/

/-- C1, as stated, fails: the closure succeeds, the log commit succeeds and the
backend commit fails; the call returns the backend's error and leaves the
database unchanged, yet the change-log transaction of the call is committed. -/
theorem transaction_log_committed_counterexample :
    (sampleStore.transaction ⟨some (.other "commit failed"), none⟩ sampleWrite).2
      = .error (.other "commit failed") ∧
    (sampleStore.transaction ⟨some (.other "commit failed"), none⟩ sampleWrite).1.db.entries
      = sampleStore.db.entries ∧
    (sampleStore.transaction ⟨some (.other "commit failed"), none⟩ sampleWrite).1.k.chunks
      = [[.write "entries::00000000".toList ['A']]] ∧
    (sampleStore.transaction ⟨some (.other "commit failed"), none⟩ sampleWrite).1.k.chunks
      ≠ sampleStore.k.chunks := by
  decide

/-- C1, amended. In `Mojura.transaction` the change-log transaction is committed
before the backend commit is attempted: the log holds the call's block exactly
when `fn` returns nil and the log commit succeeds, whatever the backend commit
does; the backend transaction is committed only when, in addition, its own
commit succeeds. -/
theorem transaction_commit_order {α : Type} (m : Mojura) (c : Commits)
    (fn : DB → Writer → DB × Writer × Except Error α) :
    (m.transaction c fn).1.k.chunks =
      (match (fn m.db []).2.2, c.log with
        | .ok _, none => m.k.chunks ++ [(fn m.db []).2.1]
        | _, _ => m.k.chunks) ∧
    (m.transaction c fn).1.db =
      (match (fn m.db []).2.2, c.log, c.data with
        | .ok _, none, none => (fn m.db []).1
        | _, _, _ => m.db) := by
  rcases hfn : fn m.db [] with ⟨txn1, w1, r⟩
  rcases c with ⟨cd, cl⟩
  cases r <;> cases cl <;> cases cd <;>
    simp [Mojura.transaction, Mojura.transactionFn, Backend.Transaction, Kiroku.Transaction, hfn]

/-- C2. In `Mojura.transaction`, when `fn` returns an error, or `fn` returns nil
and the change-log commit returns an error, the closure handed to the backend
returns that same error, the backend transaction is not committed and the
caller receives that error; so `Mojura.Transaction` returns the error of the
user closure it runs. -/
theorem transaction_error_propagates {α : Type} (m : Mojura) (c : Commits)
    (fn : DB → Writer → DB × Writer × Except Error α) (e : Error)
    (h : errOf (fn m.db []).2.2 = some e ∨ (errOf (fn m.db []).2.2 = none ∧ c.log = some e)) :
    errOf (Mojura.transactionFn c fn m.db m.k).2.2 = some e ∧
    errOf (m.transaction c fn).2 = some e ∧
    (m.transaction c fn).1.db = m.db ∧
    (∀ (ctx : Context) (ufn : TransactionFn α), ctx.doneFirst = false →
      errOf (ufn (newTransaction ctx m m.db (some []))).2 = some e →
      errOf (m.Transaction c ctx ufn).2 = some e ∧ (m.Transaction c ctx ufn).1.db = m.db) := by
  rcases hfn : fn m.db [] with ⟨txn1, w1, r⟩
  rcases c with ⟨cd, cl⟩
  rw [hfn] at h
  refine ⟨?_, ?_, ?_, ?_⟩
  · rcases h with h | ⟨h, hl⟩
    · cases r <;> simp_all [Mojura.transactionFn, Kiroku.Transaction, errOf]
    · cases r <;> simp_all [Mojura.transactionFn, Kiroku.Transaction, errOf]
  · rcases h with h | ⟨h, hl⟩
    · cases r <;>
        simp_all [Mojura.transaction, Mojura.transactionFn, Backend.Transaction,
          Kiroku.Transaction, errOf]
    · cases r <;>
        simp_all [Mojura.transaction, Mojura.transactionFn, Backend.Transaction,
          Kiroku.Transaction, errOf]
  · rcases h with h | ⟨h, hl⟩
    · cases r <;>
        simp_all [Mojura.transaction, Mojura.transactionFn, Backend.Transaction,
          Kiroku.Transaction, errOf]
    · cases r <;>
        simp_all [Mojura.transaction, Mojura.transactionFn, Backend.Transaction,
          Kiroku.Transaction, errOf]
  · intro ctx ufn hd hu
    rcases hufn : ufn (newTransaction ctx m m.db (some [])) with ⟨t1, r1⟩
    rw [hufn] at hu
    have hrun : m.runTransaction ctx m.db (some []) ufn = (t1.txn, t1.kw, r1) := by
      have hcc : (newTransaction ctx m m.db (some [])).cc = ctx := rfl
      unfold Mojura.runTransaction
      simp only [hcc, hd, hufn]
      rfl
    cases r1 with
    | ok a => simp [errOf] at hu
    | error e1 =>
      have he : e1 = e := by simpa [errOf] using hu
      subst he
      simp [Mojura.Transaction, Mojura.transaction, Mojura.transactionFn,
        Backend.Transaction, Kiroku.Transaction, hrun, errOf]

theorem transaction_error_propagates_witness :
    errOf (sampleStore.transaction Commits.ok
      (fun txn w => (txn, w, (.error .ErrEntryNotFound : Except Error Unit)))).2
      = some .ErrEntryNotFound :=
  (transaction_error_propagates sampleStore Commits.ok
    (fun txn w => (txn, w, (.error .ErrEntryNotFound : Except Error Unit))) .ErrEntryNotFound
    (Or.inl rfl)).2.1

/-- C10. `ReadTransaction` runs the closure on a transaction object whose
change-log writer is nil and opens no change-log transaction: whatever the
context and the closure, the store after the call is the store before it (no
record is written, no log transaction is opened), and the result is the one
the runner computes with a nil writer; so it is for `Exists`, `Get`,
`GetByRelationship` and `ForEach`. -/
theorem readTransaction_no_log {α : Type} (m : Mojura) (ctx : Context) (fn : TransactionFn α) :
    (m.ReadTransaction ctx fn).1 = m ∧
    (m.ReadTransaction ctx fn).1.k.opened = m.k.opened ∧
    (m.ReadTransaction ctx fn).1.k.chunks = m.k.chunks ∧
    (m.ReadTransaction ctx fn).2 = (m.runTransaction ctx m.db none fn).2.2 ∧
    (newTransaction ctx m m.db none).kw = none ∧
    (∀ id, (m.Exists id).1 = m ∧ (m.Get id).1 = m) ∧
    (∀ name rid, (m.GetByRelationship name rid).1 = m) ∧
    (∀ seekID f fs, (m.ForEach seekID f fs).1 = m) := by
  have key : ∀ {β : Type} (c : Context) (g : TransactionFn β), (m.ReadTransaction c g).1 = m := by
    intro β c g
    simp [Mojura.ReadTransaction, Backend.ReadTransaction]
  refine ⟨key ctx fn, by rw [key], by rw [key], ?_, rfl, ?_, ?_, ?_⟩
  · simp [Mojura.ReadTransaction, Backend.ReadTransaction]
  · intro id
    exact ⟨key _ _, key _ _⟩
  · intro name rid
    exact key _ _
  · intro seekID f fs
    exact key _ _

/-! ## The ID codec -/

theorem toDigitsCore_append (fuel : Nat) : ∀ (n : Nat) (acc : List Char),
    Nat.toDigitsCore 10 fuel n acc = Nat.toDigitsCore 10 fuel n [] ++ acc := by
  induction fuel with
  | zero => intro n acc; simp [Nat.toDigitsCore]
  | succ f ih =>
    intro n acc
    simp only [Nat.toDigitsCore]
    by_cases h : n / 10 = 0
    · simp [h]
    · simp only [h, if_false]
      rw [ih (n / 10) (_ :: acc), ih (n / 10) [_]]
      simp

theorem toDigitsCore_fuel (fuel : Nat) : ∀ (n fuel' : Nat), n < fuel → n < fuel' →
    Nat.toDigitsCore 10 fuel n [] = Nat.toDigitsCore 10 fuel' n [] := by
  induction fuel with
  | zero => intro n _ h; omega
  | succ f ih =>
    intro n fuel' hn hn'
    obtain ⟨f', rfl⟩ : ∃ f', fuel' = f' + 1 := ⟨fuel' - 1, by omega⟩
    simp only [Nat.toDigitsCore]
    by_cases h : n / 10 = 0
    · simp [h]
    · simp only [h, if_false]
      rw [toDigitsCore_append f, toDigitsCore_append f']
      rw [ih (n / 10) f' (by omega) (by omega)]

theorem formatDecimal_lt (n : Nat) (h : n < 10) : formatDecimal n = [Nat.digitChar n] := by
  have h0 : n / 10 = 0 := by omega
  have h1 : n % 10 = n := by omega
  simp [formatDecimal, Nat.toDigits, Nat.toDigitsCore, h0, h1]

theorem formatDecimal_ge (n : Nat) (h : 10 ≤ n) :
    formatDecimal n = formatDecimal (n / 10) ++ [Nat.digitChar (n % 10)] := by
  have h0 : n / 10 ≠ 0 := by omega
  have e : formatDecimal n = Nat.toDigitsCore 10 (n + 1) n [] := rfl
  rw [e, Nat.toDigitsCore]
  simp only [h0, if_false]
  rw [toDigitsCore_append, toDigitsCore_fuel n (n / 10) (n / 10 + 1) (by omega) (by omega)]
  rfl

theorem fixedWidth_length (w i : Nat) : (fixedWidth w i).length = w := by
  induction w generalizing i with
  | zero => rfl
  | succ w ih => simp [fixedWidth, ih]

theorem fixedWidth_zero (w : Nat) : fixedWidth w 0 = List.replicate w '0' := by
  induction w with
  | zero => rfl
  | succ w ih =>
    simp only [fixedWidth, Nat.zero_div, Nat.zero_mod, ih]
    rw [List.replicate_succ']
    rfl

theorem formatDecimal_length_le (w : Nat) : ∀ i, i < 10 ^ (w + 1) → (formatDecimal i).length ≤ w + 1 := by
  induction w with
  | zero => intro i hi; rw [formatDecimal_lt i (by simpa using hi)]; simp
  | succ w ih =>
    intro i hi
    by_cases h : i < 10
    · rw [formatDecimal_lt i h]; simp
    · rw [formatDecimal_ge i (by omega)]
      have : i / 10 < 10 ^ (w + 1) := by
        rw [Nat.div_lt_iff_lt_mul (by norm_num)]
        calc i < 10 ^ (w + 1 + 1) := hi
          _ = 10 ^ (w + 1) * 10 := by ring
      have := ih (i / 10) this
      simp; omega

theorem padZero_formatDecimal (w : Nat) : ∀ i, i < 10 ^ (w + 1) →
    padZero (w + 1) (formatDecimal i) = fixedWidth (w + 1) i := by
  induction w with
  | zero =>
    intro i hi
    have h : i < 10 := by simpa using hi
    have h0 : i / 10 = 0 := by omega
    have h1 : i % 10 = i := by omega
    rw [formatDecimal_lt i h]
    simp [padZero, fixedWidth, h1]
  | succ w ih =>
    intro i hi
    by_cases h : i < 10
    · have h0 : i / 10 = 0 := by omega
      have h1 : i % 10 = i := by omega
      rw [formatDecimal_lt i h, fixedWidth]
      simp [padZero, h0, h1, fixedWidth_zero]
    · have hlt : i / 10 < 10 ^ (w + 1) := by
        rw [Nat.div_lt_iff_lt_mul (by norm_num)]
        calc i < 10 ^ (w + 1 + 1) := hi
          _ = 10 ^ (w + 1) * 10 := by ring
      have hlen := formatDecimal_length_le w (i / 10) hlt
      rw [formatDecimal_ge i (by omega), fixedWidth, ← ih (i / 10) hlt]
      simp only [padZero, List.length_append, List.length_singleton]
      have : w + 1 + 1 - ((formatDecimal (i / 10)).length + 1) = w + 1 - (formatDecimal (i / 10)).length := by omega
      rw [this]
      simp

theorem compareBytes_self (a : Bytes) : compareBytes a a = .eq := by
  induction a with
  | nil => rfl
  | cons c cs ih => simp [compareBytes, ih]

theorem compareBytes_append_left (p x y : Bytes) :
    compareBytes (p ++ x) (p ++ y) = compareBytes x y := by
  induction p with
  | nil => rfl
  | cons c cs ih => simp [compareBytes, ih]

theorem compareBytes_append_lt : ∀ (a b x y : Bytes), a.length = b.length →
    compareBytes a b = .lt → compareBytes (a ++ x) (b ++ y) = .lt := by
  intro a
  induction a with
  | nil => intro b x y hl h; cases b <;> simp_all [compareBytes]
  | cons c cs ih =>
    intro b x y hl h
    cases b with
    | nil => simp at hl
    | cons d ds =>
      simp only [compareBytes, List.cons_append] at h ⊢
      by_cases h1 : c.toNat < d.toNat
      · simp [h1]
      · by_cases h2 : d.toNat < c.toNat
        · simp [h1, h2] at h
        · simp only [h1, h2, if_false] at h ⊢
          exact ih ds x y (by simpa using hl) h

theorem digitChar_toNat (d : Nat) (h : d < 10) : (Nat.digitChar d).toNat = 48 + d := by
  interval_cases d <;> rfl

theorem fixedWidth_lt (w : Nat) : ∀ i j, i < j → j < 10 ^ w →
    compareBytes (fixedWidth w i) (fixedWidth w j) = .lt := by
  induction w with
  | zero => intro i j hij hj; simp at hj; omega
  | succ w ih =>
    intro i j hij hj
    have hj' : j / 10 < 10 ^ w := by
      rw [Nat.div_lt_iff_lt_mul (by norm_num)]
      calc j < 10 ^ (w + 1) := hj
        _ = 10 ^ w * 10 := by ring
    simp only [fixedWidth]
    by_cases h : i / 10 < j / 10
    · exact compareBytes_append_lt _ _ _ _ (by simp [fixedWidth_length]) (ih _ _ h hj')
    · have e : i / 10 = j / 10 := by omega
      rw [e, compareBytes_append_left]
      have h1 := digitChar_toNat (i % 10) (by omega)
      have h2 := digitChar_toNat (j % 10) (by omega)
      have : i % 10 < j % 10 := by omega
      simp only [compareBytes, h1, h2]
      simp [this]

theorem parseUintGo_append (xs : Bytes) (c : Char) : ∀ acc,
    parseUintGo acc (xs ++ [c]) = (parseUintGo acc xs).bind (fun v => parseUintGo v [c]) := by
  induction xs with
  | nil => intro acc; rfl
  | cons x xs ih =>
    intro acc
    simp only [List.cons_append, parseUintGo]
    split
    · split
      · exact ih _
      · rfl
    · rfl

theorem digitChar_isDigit (d : Nat) (h : d < 10) : (Nat.digitChar d).isDigit = true := by
  interval_cases d <;> rfl

theorem digitVal_digitChar (d : Nat) (h : d < 10) : digitVal (Nat.digitChar d) = d := by
  simp [digitVal, digitChar_toNat d h]

theorem parseUintGo_fixedWidth (w : Nat) : ∀ i, i < 10 ^ w → i < 2 ^ 64 →
    parseUintGo 0 (fixedWidth w i) = some i := by
  induction w with
  | zero => intro i hi _; simp at hi; subst hi; rfl
  | succ w ih =>
    intro i hi h64
    have hi' : i / 10 < 10 ^ w := by
      rw [Nat.div_lt_iff_lt_mul (by norm_num)]
      calc i < 10 ^ (w + 1) := hi
        _ = 10 ^ w * 10 := by ring
    rw [fixedWidth, parseUintGo_append, ih (i / 10) hi' (by omega)]
    simp only [Option.some_bind, parseUintGo, digitChar_isDigit (i % 10) (by omega),
      digitVal_digitChar (i % 10) (by omega), if_true]
    have : i / 10 * 10 + i % 10 = i := by omega
    rw [this, if_pos h64]

theorem formatDecimal_digits (n : Nat) :
    (∀ c ∈ formatDecimal n, c.isDigit = true) ∧
    (formatDecimal n).foldl (fun a c => a * 10 + digitVal c) 0 = n := by
  induction n using Nat.strong_induction_on with
  | _ n ih =>
    by_cases h : n < 10
    · rw [formatDecimal_lt n h]
      refine ⟨?_, ?_⟩
      · intro c hc
        simp only [List.mem_singleton] at hc
        subst hc
        exact digitChar_isDigit n h
      · simp [digitVal_digitChar n h]
    · rw [formatDecimal_ge n (by omega)]
      obtain ⟨ih1, ih2⟩ := ih (n / 10) (by omega)
      refine ⟨?_, ?_⟩
      · intro c hc
        rcases List.mem_append.mp hc with hc | hc
        · exact ih1 c hc
        · simp only [List.mem_singleton] at hc
          subst hc
          exact digitChar_isDigit _ (by omega)
      · rw [List.foldl_append, ih2]
        simp only [List.foldl_cons, List.foldl_nil, digitVal_digitChar (n % 10) (by omega)]
        omega

theorem foldl_digits_le (cs : Bytes) : ∀ w,
    w ≤ cs.foldl (fun a c => a * 10 + digitVal c) w := by
  induction cs with
  | nil => intro w; exact Nat.le_refl w
  | cons c cs ih =>
    intro w
    simp only [List.foldl_cons]
    exact Nat.le_trans (by omega) (ih (w * 10 + digitVal c))

/-- The digits of a width whose value is at most 10000009 are read to the end:
no value read before a further digit exceeds 1000000. -/
theorem SprintfGo_width (ds rest : Bytes) (args : List Arg) (hds : ∀ c ∈ ds, c.isDigit = true) :
    ∀ w, ds.foldl (fun a c => a * 10 + digitVal c) w ≤ 10000009 →
      SprintfGo (.verb true w) (ds ++ rest) args
        = SprintfGo (.verb true (ds.foldl (fun a c => a * 10 + digitVal c) w)) rest args := by
  induction ds with
  | nil => intro w _; rfl
  | cons c cs ih =>
    intro w hw
    have hc : c.isDigit = true := hds c (by simp)
    have hcs : ∀ d ∈ cs, d.isDigit = true := fun d hd => hds d (by simp [hd])
    simp only [List.foldl_cons] at hw
    have hle := foldl_digits_le cs (w * 10 + digitVal c)
    have hsmall : ¬ 1000000 < w := by omega
    simp only [List.cons_append, SprintfGo, List.foldl_cons]
    by_cases h0 : c = '0' ∧ w = 0
    · obtain ⟨rfl, rfl⟩ := h0
      simp only [and_self, if_true]
      exact ih hcs 0 hw
    · rw [if_neg h0, if_pos hc, if_neg hsmall]
      exact ih hcs _ hw

theorem SprintfGo_verb_cons (z : Bool) (w : Nat) (c : Char) (rest : Bytes) (args : List Arg) :
    SprintfGo (.verb z w) (c :: rest) args
      = if c = '0' ∧ w = 0 then SprintfGo (.verb true 0) rest args
        else if c.isDigit then
          if 1000000 < w then "%!(NOVERB)".toList ++ extraArgs args
          else SprintfGo (.verb z (w * 10 + digitVal c)) rest args
        else if c = '%' then '%' :: SprintfGo .text rest args
        else
          match args with
          | [] => "%!".toList ++ [c] ++ "(MISSING)".toList ++ SprintfGo .text rest []
          | a :: args' => verbText z w c a ++ SprintfGo .text rest args' := by
  simp only [SprintfGo]

/-- The digits of a width are abandoned, with the rest of the format, when the
value read before its last digit exceeds 1000000. -/
theorem SprintfGo_abandoned (rest : Bytes) (args : List Arg) : ∀ (ds : Bytes) (w : Nat),
    (∀ c ∈ ds, c.isDigit = true) → ds ≠ [] →
    1000000 < ds.dropLast.foldl (fun a c => a * 10 + digitVal c) w →
    SprintfGo (.verb true w) (ds ++ rest) args = "%!(NOVERB)".toList ++ extraArgs args := by
  intro ds
  induction ds with
  | nil => intro w _ h; exact absurd rfl h
  | cons c cs ih =>
    intro w hds _ hbig
    have hc : c.isDigit = true := hds c (by simp)
    have hcs : ∀ d ∈ cs, d.isDigit = true := fun d hd => hds d (by simp [hd])
    cases cs with
    | nil =>
      simp only [List.dropLast_single, List.foldl_nil] at hbig
      have h0 : ¬ (c = '0' ∧ w = 0) := by
        rintro ⟨-, rfl⟩
        omega
      simp only [List.cons_append, List.nil_append, SprintfGo]
      rw [if_neg h0, if_pos hc, if_pos hbig]
    | cons d ds =>
      simp only [List.dropLast_cons₂, List.foldl_cons] at hbig
      rw [List.cons_append, SprintfGo_verb_cons]
      by_cases h0 : c = '0' ∧ w = 0
      · obtain ⟨rfl, rfl⟩ := h0
        rw [if_pos ⟨rfl, rfl⟩]
        exact ih 0 hcs (by simp) hbig
      · rw [if_neg h0, if_pos hc]
        by_cases hw : 1000000 < w
        · rw [if_pos hw]
        · rw [if_neg hw]
          exact ih _ hcs (by simp) hbig

theorem Sprintf_format (n : Nat) :
    Sprintf "%s0%dd".toList [.str "%".toList, .int n] = '%' :: '0' :: (formatDecimal n ++ ['d']) := by
  have e : "%s0%dd".toList = ['%', 's', '0', '%', 'd', 'd'] := rfl
  have e2 : "%".toList = ['%'] := rfl
  rw [e, e2]
  simp [Sprintf, SprintfGo, verbText, extraArgs, padSpace]

/-- The ID format of a width of at most 10000009 prints an index as its
decimal, left-padded with zeros to the width. -/
theorem Sprintf_index (n i : Nat) (hn : n ≤ 10000009) :
    Sprintf ('%' :: '0' :: (formatDecimal n ++ ['d'])) [.uint64 i]
      = padZero n (formatDecimal i) := by
  have h1 : Sprintf ('%' :: '0' :: (formatDecimal n ++ ['d'])) [.uint64 i]
      = SprintfGo (.verb true 0) (formatDecimal n ++ ['d']) [.uint64 i] := by
    simp [Sprintf, SprintfGo]
  rw [h1, SprintfGo_width _ _ _ (formatDecimal_digits n).1 0
    (by rw [(formatDecimal_digits n).2]; exact hn), (formatDecimal_digits n).2]
  have hd : ¬ (('d' : Char) = '0' ∧ n = 0) := by
    intro h
    exact absurd h.1 (by decide)
  have hd2 : ('d' : Char).isDigit = false := by decide
  have hd3 : ¬ (('d' : Char) = '%') := by decide
  simp [SprintfGo, hd2, verbText, extraArgs]

/-! ## The byte order -/

theorem Char_toNat_inj {a b : Char} (h : a.toNat = b.toNat) : a = b :=
  Char.ext (UInt32.toNat.inj h)

theorem compareBytes_eq_iff : ∀ (a b : Bytes), compareBytes a b = .eq ↔ a = b := by
  intro a
  induction a with
  | nil => intro b; cases b <;> simp [compareBytes]
  | cons c cs ih =>
    intro b
    cases b with
    | nil => simp [compareBytes]
    | cons d ds =>
      simp only [compareBytes, List.cons.injEq]
      by_cases h1 : c.toNat < d.toNat
      · simp only [h1, if_true]
        constructor
        · intro h; cases h
        · rintro ⟨rfl, -⟩; omega
      · by_cases h2 : d.toNat < c.toNat
        · simp only [h1, h2, if_true, if_false]
          constructor
          · intro h; cases h
          · rintro ⟨rfl, -⟩; omega
        · simp only [h1, h2, if_false, ih ds]
          have : c = d := Char_toNat_inj (by omega)
          simp [this]

theorem compareBytes_gt_iff : ∀ (a b : Bytes), compareBytes a b = .gt ↔ compareBytes b a = .lt := by
  intro a
  induction a with
  | nil => intro b; cases b <;> simp [compareBytes]
  | cons c cs ih =>
    intro b
    cases b with
    | nil => simp [compareBytes]
    | cons d ds =>
      simp only [compareBytes]
      by_cases h1 : c.toNat < d.toNat
      · have h2 : ¬ d.toNat < c.toNat := by omega
        simp [h1, h2]
      · by_cases h2 : d.toNat < c.toNat
        · simp [h1, h2]
        · simp only [h1, h2, if_false]
          exact ih ds

theorem compareBytes_lt_trans : ∀ (a b c : Bytes),
    compareBytes a b = .lt → compareBytes b c = .lt → compareBytes a c = .lt := by
  intro a
  induction a with
  | nil =>
    intro b c h1 h2
    cases b with
    | nil => simp [compareBytes] at h1
    | cons y ys => cases c <;> simp_all [compareBytes]
  | cons x xs ih =>
    intro b c h1 h2
    cases b with
    | nil => simp [compareBytes] at h1
    | cons y ys =>
      cases c with
      | nil => simp [compareBytes] at h2
      | cons z zs =>
        simp only [compareBytes] at h1 h2 ⊢
        by_cases hxy : x.toNat < y.toNat
        · by_cases hyz : y.toNat < z.toNat
          · have : x.toNat < z.toNat := by omega
            simp [this]
          · by_cases hzy : z.toNat < y.toNat
            · simp [hyz, hzy] at h2
            · have : x.toNat < z.toNat := by omega
              simp [this]
        · by_cases hyx : y.toNat < x.toNat
          · simp [hxy, hyx] at h1
          · simp only [hxy, hyx, if_false] at h1
            by_cases hyz : y.toNat < z.toNat
            · have : x.toNat < z.toNat := by omega
              simp [this]
            · by_cases hzy : z.toNat < y.toNat
              · simp [hyz, hzy] at h2
              · simp only [hyz, hzy, if_false] at h2
                have e1 : ¬ x.toNat < z.toNat := by omega
                have e2 : ¬ z.toNat < x.toNat := by omega
                simp only [e1, e2, if_false]
                exact ih ys zs h1 h2

theorem compareBytes_lt_ne {a b : Bytes} (h : compareBytes a b = .lt) : a ≠ b := by
  intro e
  subst e
  rw [compareBytes_self] at h
  cases h

theorem compareBytes_lt_asymm {a b : Bytes} (h : compareBytes a b = .lt) :
    compareBytes b a ≠ .lt := by
  intro h2
  have := compareBytes_lt_trans a b a h h2
  rw [compareBytes_self] at this
  cases this

/-! ## Buckets -/

theorem Bucket.Get_Put_same : ∀ (b : Bucket) (k v : Bytes), (b.Put k v).Get k = some v := by
  intro b
  induction b with
  | nil => intro k v; simp [Bucket.Put, Bucket.Get]
  | cons kv rest ih =>
    intro k v
    obtain ⟨k1, v1⟩ := kv
    simp only [Bucket.Put]
    cases h : compareBytes k k1 with
    | lt => simp [Bucket.Get]
    | eq => simp [Bucket.Get]
    | gt =>
      have hne : k1 ≠ k := compareBytes_lt_ne ((compareBytes_gt_iff k k1).mp h)
      simp [Bucket.Get, hne, ih]

theorem Bucket.Get_Put_other : ∀ (b : Bucket) (k v x : Bytes), x ≠ k →
    (b.Put k v).Get x = b.Get x := by
  intro b
  induction b with
  | nil => intro k v x hx; simp [Bucket.Put, Bucket.Get, Ne.symm hx]
  | cons kv rest ih =>
    intro k v x hx
    obtain ⟨k1, v1⟩ := kv
    simp only [Bucket.Put]
    cases h : compareBytes k k1 with
    | lt => simp [Bucket.Get, Ne.symm hx]
    | eq =>
      have e : k = k1 := (compareBytes_eq_iff k k1).mp h
      subst e
      simp [Bucket.Get, Ne.symm hx]
    | gt => simp [Bucket.Get, ih k v x hx]

theorem Bucket.Get_Delete (b : Bucket) (k x : Bytes) :
    (b.Delete k).Get x = if x = k then none else b.Get x := by
  induction b with
  | nil => simp [Bucket.Delete, Bucket.Get]
  | cons kv rest ih =>
    obtain ⟨k1, v1⟩ := kv
    simp only [Bucket.Delete] at ih ⊢
    by_cases h1 : k1 = k
    · subst h1
      by_cases hx : x = k1
      · subst hx
        simpa [List.filter, Bucket.Get] using ih
      · have : ¬ k1 = x := fun e => hx e.symm
        simpa [List.filter, Bucket.Get, hx, this] using ih
    · by_cases hx : x = k
      · subst hx
        simpa [List.filter, Bucket.Get, h1] using ih
      · by_cases h2 : k1 = x
        · simp [List.filter, Bucket.Get, h1, h2, hx]
        · simpa [List.filter, Bucket.Get, h1, h2, hx] using ih

theorem Bucket.Get_isSome_iff (b : Bucket) (k : Bytes) : (b.Get k).isSome = true ↔ k ∈ b.keys := by
  induction b with
  | nil => simp [Bucket.Get, Bucket.keys]
  | cons kv rest ih =>
    obtain ⟨k1, v1⟩ := kv
    simp only [Bucket.Get, Bucket.keys, List.map_cons, List.mem_cons] at ih ⊢
    by_cases h : k1 = k
    · simp [h]
    · have : ¬ k = k1 := fun e => h e.symm
      simp [h, this, ih, Bucket.keys]

theorem Bucket.mem_keys_Put (b : Bucket) (k v x : Bytes) :
    x ∈ (b.Put k v).keys ↔ x = k ∨ x ∈ b.keys := by
  rw [← Bucket.Get_isSome_iff, ← Bucket.Get_isSome_iff]
  by_cases h : x = k
  · subst h
    simp [Bucket.Get_Put_same]
  · simp [Bucket.Get_Put_other b k v x h, h]

theorem Bucket.mem_keys_Delete (b : Bucket) (k x : Bytes) :
    x ∈ (b.Delete k).keys ↔ x ≠ k ∧ x ∈ b.keys := by
  rw [← Bucket.Get_isSome_iff, ← Bucket.Get_isSome_iff, Bucket.Get_Delete]
  by_cases h : x = k <;> simp [h]

theorem Bucket.keys_Put_lt : ∀ (b : Bucket) (k v y : Bytes),
    (∀ x ∈ b.keys, compareBytes y x = .lt) → compareBytes y k = .lt →
    ∀ x ∈ (b.Put k v).keys, compareBytes y x = .lt := by
  intro b k v y hb hk x hx
  rcases (Bucket.mem_keys_Put b k v x).mp hx with h | h
  · subst h; exact hk
  · exact hb x h

theorem Bucket.Sorted_Put : ∀ (b : Bucket) (k v : Bytes), b.Sorted → (b.Put k v).Sorted := by
  intro b
  induction b with
  | nil => intro k v _; simp [Bucket.Put, Bucket.Sorted, Bucket.keys]
  | cons kv rest ih =>
    intro k v hs
    obtain ⟨k1, v1⟩ := kv
    have hs1 : ∀ x ∈ Bucket.keys rest, compareBytes k1 x = .lt := by
      intro x hx
      simp only [Bucket.Sorted, Bucket.keys, List.map_cons, List.pairwise_cons] at hs
      exact hs.1 x hx
    have hs2 : Bucket.Sorted rest := by
      simp only [Bucket.Sorted, Bucket.keys, List.map_cons, List.pairwise_cons] at hs
      exact hs.2
    simp only [Bucket.Put]
    cases h : compareBytes k k1 with
    | lt =>
      simp only [Bucket.Sorted, Bucket.keys, List.map_cons, List.pairwise_cons, List.mem_cons]
      refine ⟨?_, ?_, ?_⟩
      · intro x hx
        rcases hx with rfl | hx
        · exact h
        · exact compareBytes_lt_trans _ _ _ h (hs1 x hx)
      · exact hs1
      · exact hs2
    | eq =>
      have e : k = k1 := (compareBytes_eq_iff k k1).mp h
      subst e
      simp only [Bucket.Sorted, Bucket.keys, List.map_cons, List.pairwise_cons]
      exact ⟨hs1, hs2⟩
    | gt =>
      have hlt : compareBytes k1 k = .lt := (compareBytes_gt_iff k k1).mp h
      have := ih k v hs2
      simp only [Bucket.Sorted, Bucket.keys, List.map_cons, List.pairwise_cons] at this ⊢
      exact ⟨Bucket.keys_Put_lt rest k v k1 hs1 hlt, this⟩

theorem Bucket.Sorted_Delete (b : Bucket) (k : Bytes) (h : b.Sorted) : (b.Delete k).Sorted := by
  simp only [Bucket.Sorted, Bucket.keys, Bucket.Delete] at h ⊢
  exact List.Pairwise.sublist (List.Sublist.map _ (List.filter_sublist _)) h

/-- In a sorted non-empty bucket every key is the last key or below it. -/
theorem Bucket.Sorted_le_Last : ∀ (b : Bucket), b.Sorted → ∀ x ∈ b.keys,
    x = b.Last.1 ∨ compareBytes x b.Last.1 = .lt := by
  intro b
  induction b with
  | nil => intro _ x hx; simp [Bucket.keys] at hx
  | cons kv rest ih =>
    intro hs x hx
    obtain ⟨k1, v1⟩ := kv
    simp only [Bucket.Sorted, Bucket.keys, List.map_cons, List.pairwise_cons] at hs
    cases rest with
    | nil =>
      simp only [Bucket.keys, List.map_cons, List.map_nil, List.mem_singleton] at hx
      subst hx
      left
      rfl
    | cons kv2 rest2 =>
      have hlast : Bucket.Last ((k1, v1) :: kv2 :: rest2) = Bucket.Last (kv2 :: rest2) := by
        simp [Bucket.Last, List.getLast?_cons_cons]
      rw [hlast]
      have hmem : (Bucket.Last (kv2 :: rest2)).1 ∈ Bucket.keys (kv2 :: rest2) := by
        simp only [Bucket.Last, Bucket.keys]
        have hne : (kv2 :: rest2) ≠ [] := by simp
        rw [List.getLast?_eq_getLast _ hne]
        simp only [Option.getD_some]
        exact List.mem_map_of_mem _ (List.getLast_mem hne)
      simp only [Bucket.keys, List.map_cons, List.mem_cons] at hx
      rcases hx with rfl | hx
      · right
        exact hs.1 _ hmem
      · exact ih hs.2 x (by simpa [Bucket.keys] using hx)

theorem Bucket.Last_mem (b : Bucket) (h : b ≠ []) : b.Last.1 ∈ b.keys := by
  simp only [Bucket.Last, Bucket.keys]
  rw [List.getLast?_eq_getLast _ h]
  simp only [Option.getD_some]
  exact List.mem_map_of_mem _ (List.getLast_mem h)

/-! ## Opening a store -/

theorem initRelationships_ok (env : InitEnv) : ∀ (rest : List Bytes) (txn : DB) (rels : List Bytes)
    (txn1 : DB) (rels1 : List Bytes),
    initRelationships env rest txn rels = (txn1, rels1, .ok ()) →
    rels1 = rels ++ rest ∧ txn1.entries = txn.entries ∧
    txn1.relationships = txn.relationships ∧ txn1.lookups = txn.lookups := by
  intro rest
  induction rest with
  | nil =>
    intro txn rels txn1 rels1 h
    simp only [initRelationships, Prod.mk.injEq] at h
    obtain ⟨rfl, rfl, -⟩ := h
    simp
  | cons r rest ih =>
    intro txn rels txn1 rels1 h
    simp only [initRelationships] at h
    cases hb : env.bucketErr r with
    | some e => simp [hb] at h
    | none =>
      simp only [hb] at h
      obtain ⟨h1, h2, h3, h4⟩ := ih _ _ _ _ h
      refine ⟨?_, h2, h3, h4⟩
      rw [h1]
      simp

theorem initBuckets_ok (env : InitEnv) (rest : List Bytes) (txn : DB) (rels : List Bytes)
    (txn1 : DB) (rels1 : List Bytes)
    (h : initBuckets env rest txn rels = (txn1, rels1, .ok ())) :
    rels1 = rels ++ rest ∧ txn1.entries = txn.entries ∧
    txn1.relationships = txn.relationships ∧ txn1.lookups = txn.lookups := by
  simp only [initBuckets] at h
  cases h1 : env.bucketErr entriesBktKey with
  | some e => simp [h1] at h
  | none =>
    cases h2 : env.bucketErr lookupsBktKey with
    | some e => simp [h1, h2] at h
    | none =>
      cases h3 : env.bucketErr relationshipsBktKey with
      | some e => simp [h1, h2, h3] at h
      | none =>
        simp only [h1, h2, h3] at h
        have key := initRelationships_ok env rest _ rels txn1 rels1 h
        exact key

/-- What a successful `NewWithOpts` fixes: the options, the ID format, the
declared relationships, and the contents found in the backend file. -/
theorem NewWithOpts_ok (env : InitEnv) (name dir : Bytes) (ex : Value) (opts : Opts)
    (rels : List Bytes) (m : Mojura)
    (h : (NewWithOpts env name dir ex opts rels).2 = .ok m) :
    m.opts = opts ∧ 1 ≤ opts.IndexLength ∧
    m.indexFmt = '%' :: '0' :: (formatDecimal opts.IndexLength ++ ['d']) ∧
    m.relationships = rels ∧ m.db.entries = env.opened.entries ∧
    m.db.relationships = env.opened.relationships ∧ m.db.lookups = env.opened.lookups := by
  unfold NewWithOpts at h
  cases hv : opts.Validate with
  | some e => simp [hv] at h
  | none =>
    have hlen : 1 ≤ opts.IndexLength := by
      simp only [Opts.Validate] at hv
      split at hv
      · cases hv
      · omega
    simp only [hv] at h
    split at h
    · simp at h
    · simp only [Mojura.init] at h
      cases ho : env.openErr with
      | some e => simp [ho] at h
      | none =>
        simp only [ho, Backend.Transaction] at h
        rcases hib : initBuckets env rels env.opened [] with ⟨txn1, rels1, r⟩
        simp only [hib] at h
        cases r with
        | error e => simp [errOf] at h
        | ok u =>
          obtain ⟨h1, h2, h3, h4⟩ := initBuckets_ok env rels env.opened [] txn1 rels1 hib
          cases hc : env.commitErr with
          | some e => simp [hc, errOf] at h
          | none =>
            cases hk : env.kirokuErr with
            | some e => simp [hc, hk, errOf] at h
            | none =>
              simp only [hc, hk, errOf, Except.ok.injEq] at h
              subst h
              refine ⟨rfl, hlen, ?_, ?_, h2, h3, h4⟩
              · exact Sprintf_format opts.IndexLength
              · simpa using h1

theorem padZero_eq_fixedWidth (n i : Nat) (hn : 1 ≤ n) (hi : i < 10 ^ n) :
    padZero n (formatDecimal i) = fixedWidth n i := by
  obtain ⟨w, rfl⟩ : ∃ w, n = w + 1 := ⟨n - 1, by omega⟩
  exact padZero_formatDecimal w i hi

/-- An ID format of a width of 10000010 or more prints no ID: the width is
abandoned and the index is listed as a left-over operand. -/
theorem Sprintf_index_abandoned (n i : Nat) (hn : 10000010 ≤ n) :
    Sprintf ('%' :: '0' :: (formatDecimal n ++ ['d'])) [.uint64 i]
      = "%!(NOVERB)%!(EXTRA uint64=".toList ++ formatDecimal i ++ [')'] := by
  have h1 : Sprintf ('%' :: '0' :: (formatDecimal n ++ ['d'])) [.uint64 i]
      = SprintfGo (.verb true 0) (formatDecimal n ++ ['d']) [.uint64 i] := by
    simp [Sprintf, SprintfGo]
  have hge : formatDecimal n = formatDecimal (n / 10) ++ [Nat.digitChar (n % 10)] :=
    formatDecimal_ge n (by omega)
  have hdrop : (formatDecimal n).dropLast = formatDecimal (n / 10) := by
    rw [hge, List.dropLast_concat]
  have hne : formatDecimal n ≠ [] := by
    rw [hge]
    simp
  rw [h1, SprintfGo_abandoned ['d'] [.uint64 i] (formatDecimal n) 0 (formatDecimal_digits n).1 hne
    (by rw [hdrop, (formatDecimal_digits (n / 10)).2]; omega)]
  simp [extraArgs, Arg.typeName, Arg.text, List.intercalate]

/-- C5, as stated, fails: with `IndexLength` 10000010 the store opens with the
format `%010000010d`, whose width `fmt` abandons: the ID printed for the index
5 is `%!(NOVERB)%!(EXTRA uint64=5)`, of length 28 and not 10000010. -/
theorem indexFmt_width_counterexample :
    openedID (NewWithOpts InitEnv.fresh "test".toList "test_data".toList sampleValue
        ⟨10000010, sampleEncoder⟩ ["users".toList, "tags".toList]).2 5
      = some "%!(NOVERB)%!(EXTRA uint64=5)".toList ∧
    "%!(NOVERB)%!(EXTRA uint64=5)".toList.length = 28 := by
  decide

/-- C5, amended. For every `IndexLength` `n` from 1 to 10000009 (the largest
width `fmt` reads) a store opened by `NewWithOpts` has the ID format `%0<n>d`,
which prints an index as its decimal left-padded with `0` to width `n`; below
the width limit the encoding has length exactly `n` and is strictly
order-preserving: for `i < j < 10^n` the ID of `i` is below the ID of `j` in
the byte order. -/
theorem indexFmt_order_preserving (env : InitEnv) (name dir : Bytes) (ex : Value) (opts : Opts)
    (rels : List Bytes) (m : Mojura) (n : Nat) (hn : 1 ≤ n) (hmax : n ≤ 10000009)
    (hopts : opts.IndexLength = n)
    (h : (NewWithOpts env name dir ex opts rels).2 = .ok m) :
    m.indexFmt = "%0".toList ++ formatDecimal n ++ "d".toList ∧
    (∀ i, Sprintf m.indexFmt [.uint64 i] = padZero n (formatDecimal i)) ∧
    (∀ i j, i < j → j < 10 ^ n →
      (Sprintf m.indexFmt [.uint64 i]).length = n ∧ (Sprintf m.indexFmt [.uint64 j]).length = n ∧
      compareBytes (Sprintf m.indexFmt [.uint64 i]) (Sprintf m.indexFmt [.uint64 j]) = .lt) := by
  obtain ⟨-, -, hf, -⟩ := NewWithOpts_ok env name dir ex opts rels m h
  rw [hopts] at hf
  have hS : ∀ i, Sprintf m.indexFmt [.uint64 i] = padZero n (formatDecimal i) := by
    intro i
    rw [hf]
    exact Sprintf_index n i hmax
  refine ⟨?_, hS, ?_⟩
  · rw [hf]
    rfl
  · intro i j hij hj
    rw [hS i, hS j, padZero_eq_fixedWidth n i hn (by omega), padZero_eq_fixedWidth n j hn hj]
    exact ⟨fixedWidth_length n i, fixedWidth_length n j, fixedWidth_lt n i j hij hj⟩

theorem indexFmt_order_preserving_witness :
    sampleStore.indexFmt = "%0".toList ++ formatDecimal 8 ++ "d".toList ∧
    compareBytes (Sprintf sampleStore.indexFmt [.uint64 9])
      (Sprintf sampleStore.indexFmt [.uint64 10]) = .lt :=
  ⟨(indexFmt_order_preserving InitEnv.fresh "test".toList "test_data".toList sampleValue
      (defaultOpts sampleEncoder) ["users".toList, "tags".toList] sampleStore 8 (by decide)
      (by decide) rfl rfl).1,
    ((indexFmt_order_preserving InitEnv.fresh "test".toList "test_data".toList sampleValue
      (defaultOpts sampleEncoder) ["users".toList, "tags".toList] sampleStore 8 (by decide)
      (by decide) rfl rfl).2.2 9 10 (by decide) (by decide)).2.2⟩

/-! ## Frame of the transaction operations -/

theorem KeepsEntries_putLeaf (name id rid : Bytes) :
    KeepsEntries (fun t => t.putLeaf name id rid) := fun _ => ⟨rfl, rfl⟩

theorem KeepsEntries_deleteLeaf (name id rid : Bytes) :
    KeepsEntries (fun t => t.deleteLeaf name id rid) := fun _ => ⟨rfl, rfl⟩

theorem KeepsEntries_foldl {β : Type} (f : Transaction → β → Transaction)
    (hf : ∀ b, KeepsEntries (fun t => f t b)) (bs : List β) :
    KeepsEntries (fun t => bs.foldl f t) := by
  induction bs with
  | nil => intro t; exact ⟨rfl, rfl⟩
  | cons b bs ih =>
    intro t
    simp only [List.foldl_cons]
    obtain ⟨h1, h2⟩ := ih (f t b)
    obtain ⟨h3, h4⟩ := hf b t
    exact ⟨h1.trans h3, h2.trans h4⟩

theorem KeepsEntries_setRelationship (name id : Bytes) (rids : List Bytes) :
    KeepsEntries (fun t => t.setRelationship name id rids) :=
  KeepsEntries_foldl _ (fun rid => KeepsEntries_putLeaf name id rid) rids

theorem KeepsEntries_unsetRelationship (name id : Bytes) (rids : List Bytes) :
    KeepsEntries (fun t => t.unsetRelationship name id rids) :=
  KeepsEntries_foldl _ (fun rid => KeepsEntries_deleteLeaf name id rid) rids

theorem KeepsEntries_updateRelationship (name id : Bytes) (old new : List Bytes) :
    KeepsEntries (fun t => t.updateRelationship name id old new) := by
  intro t
  obtain ⟨h1, h2⟩ := KeepsEntries_setRelationship name id (new.filter (fun r => r ∉ old))
    (t.unsetRelationship name id (old.filter (fun r => r ∉ new)))
  obtain ⟨h3, h4⟩ := KeepsEntries_unsetRelationship name id (old.filter (fun r => r ∉ new)) t
  exact ⟨h1.trans h3, h2.trans h4⟩

theorem KeepsEntries_forSlots (op : Bytes → List Bytes → List Bytes → Transaction → Transaction)
    (hop : ∀ name old new, KeepsEntries (op name old new)) :
    ∀ (names : List Bytes) (old new : List (List Bytes)), KeepsEntries (forSlots op names old new) := by
  intro names
  induction names with
  | nil => intro old new t; exact ⟨rfl, rfl⟩
  | cons name names ih =>
    intro old new t
    simp only [forSlots]
    obtain ⟨h1, h2⟩ := ih old.tail new.tail (op name (old.headD []) (new.headD []) t)
    obtain ⟨h3, h4⟩ := hop name (old.headD []) (new.headD []) t
    exact ⟨h1.trans h3, h2.trans h4⟩

/-! ## Transactions of the store -/

theorem runTransaction_Background {α : Type} (m : Mojura) (txn : DB) (kw : Option Writer)
    (fn : TransactionFn α) :
    m.runTransaction Context.Background txn kw fn
      = ((fn (newTransaction Context.Background m txn kw)).1.txn,
         (fn (newTransaction Context.Background m txn kw)).1.kw,
         (fn (newTransaction Context.Background m txn kw)).2) := by
  simp [Mojura.runTransaction, newTransaction, Context.Background]

/-- A successful write transaction commits the closure's backend state; the
configuration of the store never changes. -/
theorem Transaction_ok {α : Type} (m : Mojura) (c : Commits) (fn : TransactionFn α) (a : α)
    (h : (m.Transaction c Context.Background fn).2 = .ok a) :
    (fn (newTransaction Context.Background m m.db (some []))).2 = .ok a ∧
    (m.Transaction c Context.Background fn).1.db
      = (fn (newTransaction Context.Background m m.db (some []))).1.txn ∧
    (m.Transaction c Context.Background fn).1.opts = m.opts ∧
    (m.Transaction c Context.Background fn).1.indexFmt = m.indexFmt ∧
    (m.Transaction c Context.Background fn).1.relationships = m.relationships := by
  rcases hfn : fn (newTransaction Context.Background m m.db (some [])) with ⟨t1, r⟩
  rcases c with ⟨cd, cl⟩
  simp only [Mojura.Transaction, Mojura.transaction, Mojura.transactionFn, Backend.Transaction,
    Kiroku.Transaction, runTransaction_Background, hfn] at h ⊢
  cases r <;> cases cl <;> cases cd <;> simp_all

theorem ReadTransaction_Background {α : Type} (m : Mojura) (fn : TransactionFn α) :
    (m.ReadTransaction Context.Background fn).2
      = (fn (newTransaction Context.Background m m.db none)).2 := by
  simp [Mojura.ReadTransaction, Backend.ReadTransaction, runTransaction_Background]

/-- What a successful `new` did: the index, the id, the payload, the entries
row and the leaves. -/
theorem Transaction.new_ok (t t1 : Transaction) (v : Value) (id : Bytes)
    (h : t.new v = (t1, .ok id)) :
    ∃ index bs, t.nextIndex = .ok index ∧ id = Sprintf t.m.indexFmt [.uint64 index] ∧
      id.length ≤ t.m.opts.IndexLength ∧ t.m.opts.Encoder.Marshal v = .ok bs ∧
      t1.m = t.m ∧ t1.txn.entries = t.txn.entries.Put id bs ∧
      t1.txn.relationships = (forSlots (fun name _ new t0 => t0.setRelationship name id new)
        t.m.relationships [] v.Relationships (t.putEntry id bs)).txn.relationships := by
  unfold Transaction.new at h
  cases hi : t.nextIndex with
  | error e => simp [hi] at h
  | ok index =>
    simp only [hi] at h
    split at h
    · simp at h
    · rename_i hlen
      cases hm : t.m.opts.Encoder.Marshal v with
      | error e => simp [hm] at h
      | ok bs =>
        simp only [hm, Prod.mk.injEq, Except.ok.injEq] at h
        obtain ⟨h1, h2⟩ := h
        have hk := KeepsEntries_forSlots
          (fun name _ new t0 => t0.setRelationship name (Sprintf t.m.indexFmt [.uint64 index]) new)
          (fun name _ new => KeepsEntries_setRelationship name _ new)
          t.m.relationships [] v.Relationships
          (t.putEntry (Sprintf t.m.indexFmt [.uint64 index]) bs)
        subst h2
        subst h1
        refine ⟨index, bs, rfl, rfl, by omega, rfl, ?_, ?_, rfl⟩
        · exact hk.1
        · exact hk.2

/-- C3. Round trip of `New` and `Get`: with an encoder whose `Unmarshal` undoes
`Marshal`, if `New(v)` succeeds with `id`, then on the resulting store
`Get(id)` succeeds and its result equals `v` in every user-provided field and
carries the ID `id`. -/
theorem New_Get_roundtrip (m : Mojura) (c : Commits) (v : Value) (id : Bytes)
    (henc : m.opts.Encoder.Lawful) (h : (m.New c v).2 = .ok id) :
    ∃ out, ((m.New c v).1.Get id).2 = .ok out ∧ out.userFields = v.userFields ∧ out.ID = id := by
  obtain ⟨h1, h2, h3, -, -⟩ := Transaction_ok m c (fun txn => txn.new v) id h
  rcases hn : (newTransaction Context.Background m m.db (some [])).new v with ⟨t1, r⟩
  rw [hn] at h1 h2
  simp only at h1 h2
  subst h1
  obtain ⟨index, bs, -, -, -, hm, -, he, -⟩ := Transaction.new_ok _ _ _ _ hn
  refine ⟨{ v with ID := id }, ?_, rfl, rfl⟩
  have hu : m.opts.Encoder.Unmarshal bs = .ok v := henc v bs hm
  have hdb : (m.New c v).1.db = t1.txn := h2
  have hopts : (m.New c v).1.opts = m.opts := h3
  rw [Mojura.Get, ReadTransaction_Background]
  simp only [Transaction.get, newTransaction, hdb, hopts, he, Bucket.Get_Put_same, hu]

theorem New_Get_roundtrip_witness :
    ∃ out, ((sampleStore.New Commits.ok sampleValue).1.Get "00000000".toList).2 = .ok out ∧
      out.userFields = sampleValue.userFields ∧ out.ID = "00000000".toList :=
  New_Get_roundtrip sampleStore Commits.ok sampleValue "00000000".toList sampleEncoder_lawful
    (by decide)

/-! ## The ID allocator -/

theorem formatDecimal_length_pos (k : Nat) : 0 < (formatDecimal k).length := by
  by_cases h : k < 10
  · rw [formatDecimal_lt k h]; simp
  · rw [formatDecimal_ge k (by omega)]; simp

theorem formatDecimal_length_bound (w : Nat) : ∀ k, (formatDecimal k).length ≤ w → k < 10 ^ w := by
  induction w with
  | zero =>
    intro k h
    have := formatDecimal_length_pos k
    omega
  | succ w ih =>
    intro k h
    by_cases hk : k < 10
    · calc k < 10 := hk
        _ = 10 ^ 1 := by norm_num
        _ ≤ 10 ^ (w + 1) := Nat.pow_le_pow_right (by norm_num) (by omega)
    · rw [formatDecimal_ge k (by omega)] at h
      simp only [List.length_append, List.length_singleton] at h
      have := ih (k / 10) (by omega)
      have e : 10 ^ (w + 1) = 10 ^ w * 10 := by ring
      rw [e]
      omega

theorem padZero_length_bound (w k : Nat) (h : (padZero w (formatDecimal k)).length ≤ w) :
    k < 10 ^ w := by
  apply formatDecimal_length_bound
  simp only [padZero, List.length_append, List.length_replicate] at h
  omega

theorem fixedWidth_inj (w i j : Nat) (hi : i < 10 ^ w) (hj : j < 10 ^ w)
    (h : fixedWidth w i = fixedWidth w j) : i = j := by
  rcases Nat.lt_trichotomy i j with hlt | heq | hgt
  · exact absurd h (compareBytes_lt_ne (fixedWidth_lt w i j hlt hj))
  · exact heq
  · exact absurd h.symm (compareBytes_lt_ne (fixedWidth_lt w j i hgt hi))

theorem fixedWidth_lt_imp (w i j : Nat) (hi : i < 10 ^ w) (hj : j < 10 ^ w)
    (h : compareBytes (fixedWidth w i) (fixedWidth w j) = .lt) : i < j := by
  rcases Nat.lt_trichotomy i j with hlt | heq | hgt
  · exact hlt
  · subst heq
    rw [compareBytes_self] at h
    cases h
  · exact absurd (fixedWidth_lt w j i hgt hi) (compareBytes_lt_asymm h)

theorem fixedWidth_ne_nil (w i : Nat) (hw : 1 ≤ w) : fixedWidth w i ≠ [] := by
  intro h
  have := fixedWidth_length w i
  rw [h] at this
  simp at this
  omega

theorem parseIDAsIndex_fixedWidth (w i : Nat) (hw : 1 ≤ w) (hi : i < 10 ^ w) (h64 : i < 2 ^ 64) :
    parseIDAsIndex (fixedWidth w i) = .ok i := by
  simp [parseIDAsIndex, parseUint, fixedWidth_ne_nil w i hw, parseUintGo_fixedWidth w i hi h64]

/-- The next index of a transaction that has not allocated yet, over canonical
entries of a width below the 64-bit range: 0 on an empty bucket, otherwise one
more than the largest index present. -/
theorem Transaction.nextIndex_spec (t : Transaction) (index w : Nat) (hw1 : 1 ≤ w)
    (hw : 10 ^ w < 2 ^ 64) (hc : CanonicalEntries w t.txn.entries) (hidx : t.index = none)
    (h : t.nextIndex = .ok index) :
    (t.txn.entries = [] ∧ index = 0) ∨
    (∃ imax, imax < 10 ^ w ∧ fixedWidth w imax ∈ t.txn.entries.keys ∧ index = imax + 1 ∧
      ∀ x ∈ t.txn.entries.keys, ∃ i, i ≤ imax ∧ x = fixedWidth w i) := by
  obtain ⟨hs, hk⟩ := hc
  simp only [Transaction.nextIndex, hidx] at h
  by_cases he : t.txn.entries = []
  · left
    simp only [he, if_true, Except.ok.injEq] at h
    exact ⟨he, h.symm⟩
  · right
    simp only [he, if_false, Mojura.getLastIDAsIndex] at h
    have hlm := Bucket.Last_mem t.txn.entries he
    obtain ⟨imax, himax, hlast⟩ := hk _ hlm
    rw [hlast, parseIDAsIndex_fixedWidth w imax hw1 himax (by omega)] at h
    simp only [Except.ok.injEq] at h
    have hmod : (imax + 1) % 2 ^ 64 = imax + 1 := Nat.mod_eq_of_lt (by omega)
    rw [hmod] at h
    refine ⟨imax, himax, ?_, h.symm, ?_⟩
    · rw [← hlast]; exact hlm
    · intro x hx
      obtain ⟨i, hi, hxi⟩ := hk x hx
      refine ⟨i, ?_, hxi⟩
      rcases Bucket.Sorted_le_Last _ hs x hx with h1 | h1
      · rw [hlast, hxi] at h1
        have := fixedWidth_inj w i imax hi himax h1
        omega
      · rw [hlast, hxi] at h1
        have := fixedWidth_lt_imp w i imax hi himax h1
        omega

/-- What a successful `New` of the store did. -/
theorem Mojura.New_ok (m : Mojura) (c : Commits) (v : Value) (id : Bytes)
    (h : (m.New c v).2 = .ok id) :
    ∃ index bs, (newTransaction Context.Background m m.db (some [])).nextIndex = .ok index ∧
      id = Sprintf m.indexFmt [.uint64 index] ∧ id.length ≤ m.opts.IndexLength ∧
      m.opts.Encoder.Marshal v = .ok bs ∧
      (m.New c v).1.db.entries = m.db.entries.Put id bs ∧
      (m.New c v).1.db.relationships
        = (forSlots (fun name _ new t0 => t0.setRelationship name id new) m.relationships []
            v.Relationships ((newTransaction Context.Background m m.db (some [])).putEntry
              id bs)).txn.relationships ∧
      (m.New c v).1.opts = m.opts ∧ (m.New c v).1.indexFmt = m.indexFmt ∧
      (m.New c v).1.relationships = m.relationships := by
  obtain ⟨h1, h2, h3, h4, h5⟩ := Transaction_ok m c (fun txn => txn.new v) id h
  rcases hn : (newTransaction Context.Background m m.db (some [])).new v with ⟨t1, r⟩
  rw [hn] at h1 h2
  simp only at h1 h2
  subst h1
  obtain ⟨index, bs, g1, g2, g3, g4, -, g6, g7⟩ := Transaction.new_ok _ _ _ _ hn
  refine ⟨index, bs, g1, g2, g3, g4, ?_, ?_, h3, h4, h5⟩
  · have : (m.New c v).1.db = t1.txn := h2
    rw [this, g6]
    rfl
  · have : (m.New c v).1.db = t1.txn := h2
    rw [this, g7]
    rfl

/-- The state of a width-8 store after `k` successful `New` calls on a fresh one. -/
theorem newAll_ids (calls : List (Commits × Value)) : ∀ (m : Mojura) (k : Nat),
    m.opts.IndexLength = 8 → m.indexFmt = '%' :: '0' :: (formatDecimal 8 ++ ['d']) →
    CanonicalEntries 8 m.db.entries →
    (∀ x ∈ m.db.entries.keys, ∃ i, i < k ∧ x = fixedWidth 8 i) →
    (0 < k → fixedWidth 8 (k - 1) ∈ m.db.entries.keys) →
    k ≤ 10 ^ 8 →
    (∀ r ∈ (newAll m calls).2, errOf r = none) →
    k + calls.length ≤ 10 ^ 8 ∧
    ∀ j, j < calls.length → (newAll m calls).2[j]? = some (.ok (fixedWidth 8 (k + j))) := by
  induction calls with
  | nil => intro m k _ _ _ _ _ hk _; simp; exact hk
  | cons cv rest ih =>
    intro m k h8 hfmt hc hkeys hlast hk hok
    obtain ⟨c, v⟩ := cv
    rcases hnew : m.New c v with ⟨m1, r⟩
    rcases hrest : newAll m1 rest with ⟨m2, rs⟩
    have hall : newAll m ((c, v) :: rest) = (m2, r :: rs) := by
      simp [newAll, hnew, hrest]
    rw [hall] at hok ⊢
    have hr : errOf r = none := hok r (by simp)
    cases r with
    | error e => simp [errOf] at hr
    | ok id =>
      have hnew2 : (m.New c v).2 = .ok id := by rw [hnew]
      obtain ⟨index, bs, g1, g2, g3, -, g5, -, g7, g8, -⟩ := Mojura.New_ok m c v id hnew2
      rw [hnew] at g5 g7 g8
      simp only at g5 g7 g8
      have hspec := Transaction.nextIndex_spec _ index 8 (by norm_num) (by norm_num) hc rfl g1
      have hindex : index = k := by
        rcases hspec with ⟨he, h0⟩ | ⟨imax, himax, hmem, hi, hle⟩
        · have he2 : m.db.entries = [] := he
          rcases Nat.eq_zero_or_pos k with hk0 | hkpos
          · omega
          · have := hlast hkpos
            rw [he2] at this
            simp [Bucket.keys] at this
        · have hmem2 : fixedWidth 8 imax ∈ m.db.entries.keys := hmem
          obtain ⟨i, hik, hie⟩ := hkeys _ hmem2
          have e1 : imax = i := fixedWidth_inj 8 imax i himax (by omega) hie
          have hkpos : 0 < k := by omega
          obtain ⟨i2, hi2, hie2⟩ := hle _ (hlast hkpos)
          have e2 : k - 1 = i2 := fixedWidth_inj 8 (k - 1) i2 (by omega) (by omega) hie2
          omega
      subst hindex
      rw [hfmt, Sprintf_index 8 index (by norm_num)] at g2
      rw [h8, g2] at g3
      have hlt : index < 10 ^ 8 := padZero_length_bound 8 index g3
      rw [padZero_eq_fixedWidth 8 index (by norm_num) hlt] at g2
      subst g2
      have hc1 : CanonicalEntries 8 m1.db.entries := by
        rw [g5]
        refine ⟨Bucket.Sorted_Put _ _ _ hc.1, ?_⟩
        intro x hx
        rcases (Bucket.mem_keys_Put _ _ _ _).mp hx with rfl | hx
        · exact ⟨index, hlt, rfl⟩
        · exact hc.2 x hx
      have hkeys1 : ∀ x ∈ m1.db.entries.keys, ∃ i, i < index + 1 ∧ x = fixedWidth 8 i := by
        rw [g5]
        intro x hx
        rcases (Bucket.mem_keys_Put _ _ _ _).mp hx with rfl | hx
        · exact ⟨index, by omega, rfl⟩
        · obtain ⟨i, hi, hxi⟩ := hkeys x hx
          exact ⟨i, by omega, hxi⟩
      have hlast1 : 0 < index + 1 → fixedWidth 8 (index + 1 - 1) ∈ m1.db.entries.keys := by
        intro _
        rw [g5]
        exact (Bucket.mem_keys_Put _ _ _ _).mpr (Or.inl (by simp))
      have hok1 : ∀ r ∈ (newAll m1 rest).2, errOf r = none := by
        intro r hr
        rw [hrest] at hr
        exact hok r (by simp only [List.mem_cons]; right; exact hr)
      obtain ⟨hb, hj⟩ := ih m1 (index + 1) (by rw [g7]; exact h8) (g8.trans hfmt) hc1 hkeys1 hlast1
        (by omega) hok1
      rw [hrest] at hj
      refine ⟨by simp only [List.length_cons]; omega, ?_⟩
      intro j hjlt
      cases j with
      | zero => simp
      | succ j =>
        simp only [List.length_cons] at hjlt
        have := hj j (by omega)
        simp only [List.getElem?_cons_succ]
        rw [this]
        congr 3
        omega

/-- C4. On a freshly created store of the default `IndexLength` 8, in every
sequence of successful `New` calls the `k`-th call (from 0) returns the decimal
of `k` zero-padded to 8 characters: the first `00000000`, the second
`00000001`, and the IDs are strictly increasing in the byte order. -/
theorem New_ids_sequence (env : InitEnv) (name dir : Bytes) (ex : Value) (opts : Opts)
    (rels : List Bytes) (m : Mojura) (calls : List (Commits × Value))
    (h8 : opts.IndexLength = 8) (hfresh : env.opened.entries = [])
    (hopen : (NewWithOpts env name dir ex opts rels).2 = .ok m)
    (hok : ∀ r ∈ (newAll m calls).2, errOf r = none) :
    (∀ k, k < calls.length →
      (newAll m calls).2[k]? = some (.ok (padZero 8 (formatDecimal k)))) ∧
    (0 < calls.length → (newAll m calls).2[0]? = some (.ok "00000000".toList)) ∧
    (1 < calls.length → (newAll m calls).2[1]? = some (.ok "00000001".toList)) ∧
    (∀ i j, i < j → j < calls.length →
      compareBytes (padZero 8 (formatDecimal i)) (padZero 8 (formatDecimal j)) = .lt) := by
  obtain ⟨g1, -, g3, -, g5, -, -⟩ := NewWithOpts_ok env name dir ex opts rels m hopen
  rw [hfresh] at g5
  rw [h8] at g3
  have hc : CanonicalEntries 8 m.db.entries := by
    rw [g5]
    exact ⟨by simp [Bucket.Sorted, Bucket.keys], by simp [Bucket.keys]⟩
  obtain ⟨hb, hj⟩ := newAll_ids calls m 0 (by rw [g1]; exact h8) g3 hc
    (by rw [g5]; simp [Bucket.keys]) (by omega) (by norm_num) hok
  have hall : ∀ k, k < calls.length →
      (newAll m calls).2[k]? = some (.ok (padZero 8 (formatDecimal k))) := by
    intro k hk
    have := hj k hk
    rw [Nat.zero_add] at this
    rw [this, padZero_eq_fixedWidth 8 k (by norm_num) (by omega)]
  refine ⟨hall, ?_, ?_, ?_⟩
  · intro h
    exact hall 0 h
  · intro h
    exact hall 1 h
  · intro i j hij hjl
    rw [padZero_eq_fixedWidth 8 i (by norm_num) (by omega),
      padZero_eq_fixedWidth 8 j (by norm_num) (by omega)]
    exact fixedWidth_lt 8 i j hij (by omega)

theorem New_ids_sequence_witness :
    (newAll sampleStore [(Commits.ok, sampleValue), (Commits.ok, sampleEdited)]).2[1]?
      = some (.ok "00000001".toList) :=
  (New_ids_sequence InitEnv.fresh "test".toList "test_data".toList sampleValue
    (defaultOpts sampleEncoder) ["users".toList, "tags".toList] sampleStore
    [(Commits.ok, sampleValue), (Commits.ok, sampleEdited)] rfl rfl rfl (by decide)).2.2.1
    (by decide)

/-! ## Relationship leaves -/

theorem mem_putLeafAt (rel : Bytes → Bytes → Bucket) (name id rid n r x : Bytes) :
    x ∈ (putLeafAt rel name id rid n r).keys ↔
      (n = name ∧ r = rid ∧ x = id) ∨ x ∈ (rel n r).keys := by
  simp only [putLeafAt]
  by_cases h : n = name ∧ r = rid
  · rw [if_pos h, Bucket.mem_keys_Put]
    simp [h]
  · rw [if_neg h]
    constructor
    · intro hx; exact Or.inr hx
    · rintro (⟨h1, h2, -⟩ | hx)
      · exact absurd ⟨h1, h2⟩ h
      · exact hx

theorem mem_deleteLeafAt (rel : Bytes → Bytes → Bucket) (name id rid n r x : Bytes) :
    x ∈ (deleteLeafAt rel name id rid n r).keys ↔
      x ∈ (rel n r).keys ∧ ¬ (n = name ∧ r = rid ∧ x = id) := by
  simp only [deleteLeafAt]
  by_cases h : n = name ∧ r = rid
  · rw [if_pos h, Bucket.mem_keys_Delete]
    simp only [h, true_and, ne_eq]
    exact And.comm
  · rw [if_neg h]
    constructor
    · intro hx
      exact ⟨hx, fun h2 => h ⟨h2.1, h2.2.1⟩⟩
    · intro hx; exact hx.1

theorem mem_setRelationship (name id : Bytes) (rids : List Bytes) : ∀ (t : Transaction)
    (n r x : Bytes),
    x ∈ ((t.setRelationship name id rids).txn.relationships n r).keys ↔
      (n = name ∧ r ∈ rids ∧ x = id) ∨ x ∈ (t.txn.relationships n r).keys := by
  induction rids with
  | nil => intro t n r x; simp [Transaction.setRelationship]
  | cons rid rids ih =>
    intro t n r x
    simp only [Transaction.setRelationship, List.foldl_cons] at ih ⊢
    rw [ih (t.putLeaf name id rid) n r x]
    have e : (t.putLeaf name id rid).txn.relationships
        = putLeafAt t.txn.relationships name id rid := rfl
    rw [e, mem_putLeafAt]
    simp only [List.mem_cons]
    constructor
    · rintro (⟨h1, h2, h3⟩ | ⟨h1, h2, h3⟩ | h)
      · exact Or.inl ⟨h1, Or.inr h2, h3⟩
      · exact Or.inl ⟨h1, Or.inl h2, h3⟩
      · exact Or.inr h
    · rintro (⟨h1, h2 | h2, h3⟩ | h)
      · exact Or.inr (Or.inl ⟨h1, h2, h3⟩)
      · exact Or.inl ⟨h1, h2, h3⟩
      · exact Or.inr (Or.inr h)

theorem mem_unsetRelationship (name id : Bytes) (rids : List Bytes) : ∀ (t : Transaction)
    (n r x : Bytes),
    x ∈ ((t.unsetRelationship name id rids).txn.relationships n r).keys ↔
      x ∈ (t.txn.relationships n r).keys ∧ ¬ (n = name ∧ r ∈ rids ∧ x = id) := by
  induction rids with
  | nil => intro t n r x; simp [Transaction.unsetRelationship]
  | cons rid rids ih =>
    intro t n r x
    simp only [Transaction.unsetRelationship, List.foldl_cons] at ih ⊢
    rw [ih (t.deleteLeaf name id rid) n r x]
    have e : (t.deleteLeaf name id rid).txn.relationships
        = deleteLeafAt t.txn.relationships name id rid := rfl
    rw [e, mem_deleteLeafAt]
    simp only [List.mem_cons]
    constructor
    · rintro ⟨⟨h1, h2⟩, h3⟩
      refine ⟨h1, ?_⟩
      rintro ⟨g1, g2 | g2, g3⟩
      · exact h2 ⟨g1, g2, g3⟩
      · exact h3 ⟨g1, g2, g3⟩
    · rintro ⟨h1, h2⟩
      exact ⟨⟨h1, fun g => h2 ⟨g.1, Or.inl g.2.1, g.2.2⟩⟩,
        fun g => h2 ⟨g.1, Or.inr g.2.1, g.2.2⟩⟩

theorem mem_updateRelationship (name id : Bytes) (old new : List Bytes) (t : Transaction)
    (n r x : Bytes) :
    x ∈ ((t.updateRelationship name id old new).txn.relationships n r).keys ↔
      (n = name ∧ (r ∈ new ∧ r ∉ old) ∧ x = id) ∨
      (x ∈ (t.txn.relationships n r).keys ∧ ¬ (n = name ∧ (r ∈ old ∧ r ∉ new) ∧ x = id)) := by
  simp only [Transaction.updateRelationship]
  rw [mem_setRelationship, mem_unsetRelationship]
  simp [List.mem_filter]

theorem setRelationship_eq_update (t : Transaction) (name id : Bytes) (new : List Bytes) :
    t.setRelationship name id new = t.updateRelationship name id [] new := by
  simp [Transaction.updateRelationship, Transaction.unsetRelationship]

theorem unsetRelationship_eq_update (t : Transaction) (name id : Bytes) (old : List Bytes) :
    t.unsetRelationship name id old = t.updateRelationship name id old [] := by
  simp [Transaction.updateRelationship, Transaction.setRelationship]

theorem forSlots_set_eq (id : Bytes) : ∀ (names : List Bytes) (new : List (List Bytes))
    (t : Transaction),
    forSlots (fun name _ new t0 => t0.setRelationship name id new) names [] new t
      = forSlots (updateOp id) names [] new t := by
  intro names
  induction names with
  | nil => intro new t; rfl
  | cons name names ih =>
    intro new t
    simp only [forSlots, List.tail_nil, List.headD_nil]
    rw [ih, setRelationship_eq_update]
    rfl

theorem forSlots_unset_eq (id : Bytes) : ∀ (names : List Bytes) (old : List (List Bytes))
    (t : Transaction),
    forSlots (fun name old _ t0 => t0.unsetRelationship name id old) names old [] t
      = forSlots (updateOp id) names old [] t := by
  intro names
  induction names with
  | nil => intro old t; rfl
  | cons name names ih =>
    intro old t
    simp only [forSlots, List.tail_nil, List.headD_nil]
    rw [ih, unsetRelationship_eq_update]
    rfl

theorem slotOf_not_mem : ∀ (names : List Bytes) (rels : List (List Bytes)) (name : Bytes),
    name ∉ names → slotOf names rels name = [] := by
  intro names
  induction names with
  | nil => intro rels name _; rfl
  | cons n names ih =>
    intro rels name h
    simp only [List.mem_cons, not_or] at h
    simp only [slotOf]
    rw [if_neg (fun e => h.1 e.symm)]
    exact ih rels.tail name h.2

theorem slotOf_nil : ∀ (names : List Bytes) (name : Bytes), slotOf names [] name = [] := by
  intro names
  induction names with
  | nil => intro name; rfl
  | cons n names ih =>
    intro name
    simp only [slotOf, List.headD_nil, List.tail_nil]
    split
    · rfl
    · exact ih name

/-- Buckets of relationships that are not among the names are left alone, and
so are the leaves of other entries. -/
theorem forSlots_update_other (id : Bytes) : ∀ (names : List Bytes) (old new : List (List Bytes))
    (t : Transaction) (n r x : Bytes), (n ∉ names ∨ x ≠ id) →
    (x ∈ ((forSlots (updateOp id) names old new t).txn.relationships n r).keys ↔
      x ∈ (t.txn.relationships n r).keys) := by
  intro names
  induction names with
  | nil => intro old new t n r x _; rfl
  | cons name names ih =>
    intro old new t n r x h
    simp only [forSlots]
    rw [ih old.tail new.tail _ n r x (by
      rcases h with h | h
      · left; exact fun hm => h (List.mem_cons_of_mem _ hm)
      · right; exact h)]
    simp only [updateOp]
    rw [mem_updateRelationship]
    constructor
    · rintro (⟨h1, -, h3⟩ | ⟨h1, -⟩)
      · rcases h with h | h
        · exact absurd (by rw [h1]; exact List.mem_cons_self _ _) h
        · exact absurd h3 h
      · exact h1
    · intro hx
      right
      refine ⟨hx, ?_⟩
      rintro ⟨h1, -, h3⟩
      rcases h with h | h
      · exact absurd (by rw [h1]; exact List.mem_cons_self _ _) h
      · exact absurd h3 h

/-- The diff over all slots: when the leaves of the entry are those of the old
vector, afterwards they are those of the new vector. -/
theorem forSlots_update_self (id : Bytes) : ∀ (names : List Bytes) (old new : List (List Bytes))
    (t : Transaction), names.Nodup →
    (∀ n r, n ∈ names → (id ∈ (t.txn.relationships n r).keys ↔ r ∈ slotOf names old n)) →
    ∀ n r, n ∈ names →
      (id ∈ ((forSlots (updateOp id) names old new t).txn.relationships n r).keys ↔
        r ∈ slotOf names new n) := by
  intro names
  induction names with
  | nil => intro old new t _ _ n r hn; simp at hn
  | cons name names ih =>
    intro old new t hnd hpre n r hn
    obtain ⟨hnotin, hnd2⟩ := List.nodup_cons.mp hnd
    simp only [forSlots]
    by_cases hname : name = n
    · subst hname
      rw [forSlots_update_other id names old.tail new.tail _ name r id (Or.inl hnotin)]
      simp only [updateOp, slotOf, if_true]
      rw [mem_updateRelationship]
      have hp := hpre name r (List.mem_cons_self _ _)
      simp only [slotOf, if_true] at hp
      rw [hp]
      simp only [true_and, and_true]
      tauto
    · have hn2 : n ∈ names := by
        rcases List.mem_cons.mp hn with h | h
        · exact absurd h.symm hname
        · exact h
      simp only [slotOf, if_neg hname]
      apply ih old.tail new.tail _ hnd2 _ n r hn2
      intro n2 r2 hn2m
      have hne : name ≠ n2 := fun e => hnotin (e ▸ hn2m)
      simp only [updateOp]
      rw [mem_updateRelationship]
      have hp := hpre n2 r2 (List.mem_cons_of_mem _ hn2m)
      simp only [slotOf, if_neg hne] at hp
      rw [← hp]
      constructor
      · rintro (⟨h1, -⟩ | ⟨h1, -⟩)
        · exact absurd h1.symm hne
        · exact h1
      · intro h1
        right
        exact ⟨h1, fun g => hne g.1.symm⟩

/-- The relationship buckets stay in order under the per-slot operations. -/
theorem forSlots_update_sorted (id : Bytes) : ∀ (names : List Bytes) (old new : List (List Bytes))
    (t : Transaction), (∀ n r, (t.txn.relationships n r).Sorted) →
    ∀ n r, ((forSlots (updateOp id) names old new t).txn.relationships n r).Sorted := by
  have hput : ∀ (name rid : Bytes) (t : Transaction),
      (∀ n r, (t.txn.relationships n r).Sorted) →
      ∀ n r, ((t.putLeaf name id rid).txn.relationships n r).Sorted := by
    intro name rid t h n r
    have e : (t.putLeaf name id rid).txn.relationships
        = putLeafAt t.txn.relationships name id rid := rfl
    rw [e]
    simp only [putLeafAt]
    split
    · exact Bucket.Sorted_Put _ _ _ (h n r)
    · exact h n r
  have hdel : ∀ (name rid : Bytes) (t : Transaction),
      (∀ n r, (t.txn.relationships n r).Sorted) →
      ∀ n r, ((t.deleteLeaf name id rid).txn.relationships n r).Sorted := by
    intro name rid t h n r
    have e : (t.deleteLeaf name id rid).txn.relationships
        = deleteLeafAt t.txn.relationships name id rid := rfl
    rw [e]
    simp only [deleteLeafAt]
    split
    · exact Bucket.Sorted_Delete _ _ (h n r)
    · exact h n r
  have hset : ∀ (name : Bytes) (rids : List Bytes) (t : Transaction),
      (∀ n r, (t.txn.relationships n r).Sorted) →
      ∀ n r, ((t.setRelationship name id rids).txn.relationships n r).Sorted := by
    intro name rids
    induction rids with
    | nil => intro t h; exact h
    | cons rid rids ih =>
      intro t h
      simp only [Transaction.setRelationship, List.foldl_cons] at ih ⊢
      exact ih _ (hput name rid t h)
  have hunset : ∀ (name : Bytes) (rids : List Bytes) (t : Transaction),
      (∀ n r, (t.txn.relationships n r).Sorted) →
      ∀ n r, ((t.unsetRelationship name id rids).txn.relationships n r).Sorted := by
    intro name rids
    induction rids with
    | nil => intro t h; exact h
    | cons rid rids ih =>
      intro t h
      simp only [Transaction.unsetRelationship, List.foldl_cons] at ih ⊢
      exact ih _ (hdel name rid t h)
  intro names
  induction names with
  | nil => intro old new t h; exact h
  | cons name names ih =>
    intro old new t h
    simp only [forSlots]
    apply ih
    simp only [updateOp, Transaction.updateRelationship]
    exact hset _ _ _ (hunset _ _ _ h)

/-! ## Live entries -/

theorem entryOf_Put_self (enc : Encoder) (b : Bucket) (id bs : Bytes) (v : Value)
    (h : enc.Unmarshal bs = .ok v) : entryOf enc (b.Put id bs) id = some v := by
  simp [entryOf, Bucket.Get_Put_same, h]

theorem entryOf_Put_other (enc : Encoder) (b : Bucket) (id bs x : Bytes) (h : x ≠ id) :
    entryOf enc (b.Put id bs) x = entryOf enc b x := by
  simp [entryOf, Bucket.Get_Put_other b id bs x h]

theorem entryOf_Delete_self (enc : Encoder) (b : Bucket) (id : Bytes) :
    entryOf enc (b.Delete id) id = none := by
  simp [entryOf, Bucket.Get_Delete]

theorem entryOf_Delete_other (enc : Encoder) (b : Bucket) (id x : Bytes) (h : x ≠ id) :
    entryOf enc (b.Delete id) x = entryOf enc b x := by
  simp [entryOf, Bucket.Get_Delete, h]

theorem entryOf_none_of_not_mem (enc : Encoder) (b : Bucket) (id : Bytes) (h : id ∉ b.keys) :
    entryOf enc b id = none := by
  have : ¬ (b.Get id).isSome = true := fun g => h ((Bucket.Get_isSome_iff b id).mp g)
  cases hg : b.Get id with
  | none => simp [entryOf, hg]
  | some bs => simp [hg] at this

theorem entryOf_some_mem (enc : Encoder) (b : Bucket) (id : Bytes) (v : Value)
    (h : entryOf enc b id = some v) : id ∈ b.keys := by
  by_contra hn
  rw [entryOf_none_of_not_mem enc b id hn] at h
  cases h

theorem Transaction.get_iff (t : Transaction) (id : Bytes) (out : Value) :
    t.get id = .ok out ↔
      ∃ v, entryOf t.m.opts.Encoder t.txn.entries id = some v ∧ out = { v with ID := id } := by
  simp only [Transaction.get, entryOf]
  cases hg : t.txn.entries.Get id with
  | none => simp
  | some bs =>
    cases hu : t.m.opts.Encoder.Unmarshal bs with
    | error e => simp [hu]
    | ok v =>
      simp only [hu, Except.ok.injEq, Option.some.injEq, exists_eq_left']
      exact eq_comm

/-- What a successful `Edit` of the store did. -/
theorem Mojura.Edit_ok (m : Mojura) (c : Commits) (id : Bytes) (v : Value)
    (h : (m.Edit c id v).2 = .ok ()) :
    ∃ orig bs, (newTransaction Context.Background m m.db (some [])).get id = .ok orig ∧
      m.opts.Encoder.Marshal v = .ok bs ∧
      (m.Edit c id v).1.db.entries = m.db.entries.Put id bs ∧
      (m.Edit c id v).1.db.relationships
        = (forSlots (updateOp id) m.relationships orig.Relationships v.Relationships
            (newTransaction Context.Background m m.db (some []))).txn.relationships ∧
      (m.Edit c id v).1.opts = m.opts ∧ (m.Edit c id v).1.indexFmt = m.indexFmt ∧
      (m.Edit c id v).1.relationships = m.relationships := by
  obtain ⟨h1, h2, h3, h4, h5⟩ := Transaction_ok m c (fun txn => txn.edit id v) () h
  have hdb : (m.Edit c id v).1.db
      = ((newTransaction Context.Background m m.db (some [])).edit id v).1.txn := h2
  unfold Transaction.edit at h1 hdb
  cases hg : (newTransaction Context.Background m m.db (some [])).get id with
  | error e => simp [hg] at h1
  | ok orig =>
    have hm0 : (newTransaction Context.Background m m.db (some [])).m = m := rfl
    simp only [hg, hm0] at h1 hdb
    cases hm : m.opts.Encoder.Marshal v with
    | error e => simp [hm] at h1
    | ok bs =>
      simp only [hm] at hdb
      have hk := KeepsEntries_forSlots
        (fun name old new t0 => t0.updateRelationship name id old new)
        (fun name old new => KeepsEntries_updateRelationship name id old new)
        m.relationships orig.Relationships v.Relationships
        (newTransaction Context.Background m m.db (some []))
      refine ⟨orig, bs, rfl, rfl, ?_, ?_, h3, h4, h5⟩
      · rw [hdb]
        show Bucket.Put _ id bs = _
        rw [hk.2]
        rfl
      · rw [hdb]
        rfl

/-- What a successful `Remove` of the store did. -/
theorem Mojura.Remove_ok (m : Mojura) (c : Commits) (id : Bytes)
    (h : (m.Remove c id).2 = .ok ()) :
    ∃ orig, (newTransaction Context.Background m m.db (some [])).get id = .ok orig ∧
      (m.Remove c id).1.db.entries = m.db.entries.Delete id ∧
      (m.Remove c id).1.db.relationships
        = (forSlots (updateOp id) m.relationships orig.Relationships []
            (newTransaction Context.Background m m.db (some []))).txn.relationships ∧
      (m.Remove c id).1.opts = m.opts ∧ (m.Remove c id).1.indexFmt = m.indexFmt ∧
      (m.Remove c id).1.relationships = m.relationships := by
  obtain ⟨h1, h2, h3, h4, h5⟩ := Transaction_ok m c (fun txn => txn.remove id) () h
  have hdb : (m.Remove c id).1.db
      = ((newTransaction Context.Background m m.db (some [])).remove id).1.txn := h2
  unfold Transaction.remove at h1 hdb
  cases hg : (newTransaction Context.Background m m.db (some [])).get id with
  | error e => simp [hg] at h1
  | ok orig =>
    have hm0 : (newTransaction Context.Background m m.db (some [])).m = m := rfl
    simp only [hg, hm0] at hdb
    have hk := KeepsEntries_forSlots
      (fun name old _ t0 => t0.unsetRelationship name id old)
      (fun name old _ => KeepsEntries_unsetRelationship name id old)
      m.relationships orig.Relationships []
      (newTransaction Context.Background m m.db (some []))
    refine ⟨orig, rfl, ?_, ?_, h3, h4, h5⟩
    · rw [hdb]
      show Bucket.Delete _ id = _
      rw [hk.2]
      rfl
    · rw [hdb, ← forSlots_unset_eq]
      rfl

/-- One step of the relationship invariant: the entry `id` goes from the old
vector to the new one (either may be absent), its leaves are rewritten by the
per-slot diff, and every other entry is left alone. -/
theorem StoreInv_step (m m1 : Mojura) (t : Transaction) (id : Bytes)
    (old new : List (List Bytes)) (newEntry : Option Value)
    (hnd : m.relationships.Nodup) (hinv : StoreInv m)
    (hopts : m1.opts = m.opts) (hrels : m1.relationships = m.relationships)
    (hcanon : CanonicalEntries m.opts.IndexLength m1.db.entries)
    (hself : entryOf m.opts.Encoder m1.db.entries id = newEntry)
    (hother : ∀ x, x ≠ id →
      entryOf m.opts.Encoder m1.db.entries x = entryOf m.opts.Encoder m.db.entries x)
    (ht : t.txn.relationships = m.db.relationships)
    (hrel : m1.db.relationships
      = (forSlots (updateOp id) m.relationships old new t).txn.relationships)
    (hold : ∀ n r, (∃ v, entryOf m.opts.Encoder m.db.entries id = some v ∧
      r ∈ slotOf m.relationships v.Relationships n) ↔ r ∈ slotOf m.relationships old n)
    (hnew : ∀ n r, (∃ v, newEntry = some v ∧
      r ∈ slotOf m.relationships v.Relationships n) ↔ r ∈ slotOf m.relationships new n) :
    StoreInv m1 := by
  obtain ⟨-, hsorted, hleaf⟩ := hinv
  refine ⟨by rw [hopts]; exact hcanon, ?_, ?_⟩
  · intro name rid
    rw [hrel]
    apply forSlots_update_sorted
    intro n r
    rw [ht]
    exact hsorted n r
  · intro name rid x
    rw [hrel, hopts, hrels]
    by_cases hx : x = id
    · subst hx
      rw [hself]
      by_cases hn : name ∈ m.relationships
      · rw [forSlots_update_self x m.relationships old new t hnd ?_ name rid hn, ← hnew]
        intro n r _
        rw [ht, hleaf, hold]
      · rw [forSlots_update_other x m.relationships old new t name rid x (Or.inl hn), ht, hleaf]
        simp [slotOf_not_mem m.relationships _ name hn]
    · rw [forSlots_update_other id m.relationships old new t name rid x (Or.inr hx), ht, hleaf,
        hother x hx]

/-! ## The relationship invariant along successful calls -/

theorem pow_width_lt (w : Nat) (h : w ≤ 19) : 10 ^ w < 2 ^ 64 :=
  calc 10 ^ w ≤ 10 ^ 19 := Nat.pow_le_pow_right (by norm_num) h
    _ < 2 ^ 64 := by norm_num

/-- A successful `New` whose ID is not yet in the entries bucket keeps the
relationship invariant. -/
theorem StoreInv_New_fresh (m : Mojura) (c : Commits) (v : Value) (id : Bytes)
    (hw1 : 1 ≤ m.opts.IndexLength) (hmax : m.opts.IndexLength ≤ 10000009)
    (hfmt : m.indexFmt = '%' :: '0' :: (formatDecimal m.opts.IndexLength ++ ['d']))
    (hnd : m.relationships.Nodup) (henc : m.opts.Encoder.Lawful)
    (hinv : StoreInv m) (h : (m.New c v).2 = .ok id) (hfresh : id ∉ m.db.entries.keys) :
    StoreInv (m.New c v).1 := by
  obtain ⟨index, bs, g1, g2, g3, g4, g5, g6, g7, g8, g9⟩ := Mojura.New_ok m c v id h
  rw [hfmt, Sprintf_index _ index hmax] at g2
  rw [g2] at g3
  have hlt : index < 10 ^ m.opts.IndexLength := padZero_length_bound _ index g3
  rw [padZero_eq_fixedWidth _ index hw1 hlt] at g2
  have hnone : entryOf m.opts.Encoder m.db.entries id = none :=
    entryOf_none_of_not_mem _ _ _ hfresh
  apply StoreInv_step m (m.New c v).1
    ((newTransaction Context.Background m m.db (some [])).putEntry id bs) id []
    v.Relationships (some v) hnd hinv g7 g9
  · rw [g5]
    refine ⟨Bucket.Sorted_Put _ _ _ hinv.1.1, ?_⟩
    intro x hx
    rcases (Bucket.mem_keys_Put _ _ _ _).mp hx with rfl | hx
    · exact ⟨index, hlt, g2⟩
    · exact hinv.1.2 x hx
  · rw [g5]
    exact entryOf_Put_self _ _ _ _ _ (henc v bs g4)
  · intro x hx
    rw [g5]
    exact entryOf_Put_other _ _ _ _ _ hx
  · rfl
  · rw [g6, forSlots_set_eq]
  · intro n r
    simp [hnone, slotOf_nil]
  · intro n r
    simp

theorem StoreInv_New (m : Mojura) (c : Commits) (v : Value) (id : Bytes)
    (hcfg : StoreCfg m) (hinv : StoreInv m) (h : (m.New c v).2 = .ok id) :
    StoreCfg (m.New c v).1 ∧ StoreInv (m.New c v).1 := by
  obtain ⟨hw1, hw19, hfmt, hnd, henc⟩ := hcfg
  obtain ⟨index, bs, g1, g2, g3, g4, g5, g6, g7, g8, g9⟩ := Mojura.New_ok m c v id h
  refine ⟨?_, ?_⟩
  · refine ⟨by rw [g7]; exact hw1, by rw [g7]; exact hw19, by rw [g7, g8]; exact hfmt,
      by rw [g9]; exact hnd, by rw [g7]; exact henc⟩
  · rw [hfmt, Sprintf_index _ index (by omega)] at g2
    rw [g2] at g3
    have hlt : index < 10 ^ m.opts.IndexLength := padZero_length_bound _ index g3
    rw [padZero_eq_fixedWidth _ index hw1 hlt] at g2
    have hfresh : id ∉ m.db.entries.keys := by
      intro hmem
      rcases Transaction.nextIndex_spec _ index m.opts.IndexLength hw1
          (pow_width_lt _ hw19) hinv.1 rfl g1 with ⟨he, -⟩ | ⟨imax, himax, -, hi, hle⟩
      · have he2 : m.db.entries = [] := he
        rw [he2] at hmem
        simp [Bucket.keys] at hmem
      · obtain ⟨i, hile, hie⟩ := hle id hmem
        rw [g2] at hie
        have := fixedWidth_inj _ index i hlt (by omega) hie
        omega
    exact StoreInv_New_fresh m c v id hw1 (by omega) hfmt hnd henc hinv h hfresh

theorem StoreInv_Edit (m : Mojura) (c : Commits) (id : Bytes) (v : Value)
    (hcfg : StoreCfg m) (hinv : StoreInv m) (h : (m.Edit c id v).2 = .ok ()) :
    StoreCfg (m.Edit c id v).1 ∧ StoreInv (m.Edit c id v).1 ∧
    entryOf m.opts.Encoder (m.Edit c id v).1.db.entries id = some v := by
  obtain ⟨hw1, hw19, hfmt, hnd, henc⟩ := hcfg
  obtain ⟨orig, bs, g1, g2, g3, g4, g5, g6, g7⟩ := Mojura.Edit_ok m c id v h
  obtain ⟨v0, hv0, horig⟩ := (Transaction.get_iff _ id orig).mp g1
  have hv0e : entryOf m.opts.Encoder m.db.entries id = some v0 := hv0
  have horel : orig.Relationships = v0.Relationships := by rw [horig]
  have hself : entryOf m.opts.Encoder (m.Edit c id v).1.db.entries id = some v := by
    rw [g3]
    exact entryOf_Put_self _ _ _ _ _ (henc v bs g2)
  refine ⟨?_, ?_, hself⟩
  · refine ⟨by rw [g5]; exact hw1, by rw [g5]; exact hw19, by rw [g5, g6]; exact hfmt,
      by rw [g7]; exact hnd, by rw [g5]; exact henc⟩
  · apply StoreInv_step m (m.Edit c id v).1
      (newTransaction Context.Background m m.db (some [])) id orig.Relationships
      v.Relationships (some v) hnd hinv g5 g7
    · rw [g3]
      refine ⟨Bucket.Sorted_Put _ _ _ hinv.1.1, ?_⟩
      intro x hx
      rcases (Bucket.mem_keys_Put _ _ _ _).mp hx with rfl | hx
      · exact hinv.1.2 x (entryOf_some_mem _ _ _ _ hv0e)
      · exact hinv.1.2 x hx
    · exact hself
    · intro x hx
      rw [g3]
      exact entryOf_Put_other _ _ _ _ _ hx
    · rfl
    · exact g4
    · intro n r
      simp [hv0e, horel]
    · intro n r
      simp

theorem StoreInv_Remove (m : Mojura) (c : Commits) (id : Bytes)
    (hcfg : StoreCfg m) (hinv : StoreInv m) (h : (m.Remove c id).2 = .ok ()) :
    StoreCfg (m.Remove c id).1 ∧ StoreInv (m.Remove c id).1 ∧
    entryOf m.opts.Encoder (m.Remove c id).1.db.entries id = none := by
  obtain ⟨hw1, hw19, hfmt, hnd, henc⟩ := hcfg
  obtain ⟨orig, g1, g3, g4, g5, g6, g7⟩ := Mojura.Remove_ok m c id h
  obtain ⟨v0, hv0, horig⟩ := (Transaction.get_iff _ id orig).mp g1
  have hv0e : entryOf m.opts.Encoder m.db.entries id = some v0 := hv0
  have horel : orig.Relationships = v0.Relationships := by rw [horig]
  have hself : entryOf m.opts.Encoder (m.Remove c id).1.db.entries id = none := by
    rw [g3]
    exact entryOf_Delete_self _ _ _
  refine ⟨?_, ?_, hself⟩
  · refine ⟨by rw [g5]; exact hw1, by rw [g5]; exact hw19, by rw [g5, g6]; exact hfmt,
      by rw [g7]; exact hnd, by rw [g5]; exact henc⟩
  · apply StoreInv_step m (m.Remove c id).1
      (newTransaction Context.Background m m.db (some [])) id orig.Relationships
      [] none hnd hinv g5 g7
    · rw [g3]
      refine ⟨Bucket.Sorted_Delete _ _ hinv.1.1, ?_⟩
      intro x hx
      exact hinv.1.2 x ((Bucket.mem_keys_Delete _ _ _).mp hx).2
    · exact hself
    · intro x hx
      rw [g3]
      exact entryOf_Delete_other _ _ _ _ hx
    · rfl
    · exact g4
    · intro n r
      simp [hv0e, horel]
    · intro n r
      simp [slotOf_nil]

theorem Reachable_inv (m0 m : Mojura) (hcfg : StoreCfg m0) (hinv : StoreInv m0)
    (hr : Reachable m0 m) : StoreCfg m ∧ StoreInv m := by
  induction hr with
  | start => exact ⟨hcfg, hinv⟩
  | new m c v id _ h ih => exact StoreInv_New m c v id ih.1 ih.2 h
  | edit m c id v _ h ih =>
    exact ⟨(StoreInv_Edit m c id v ih.1 ih.2 h).1, (StoreInv_Edit m c id v ih.1 ih.2 h).2.1⟩
  | remove m c id _ h ih =>
    exact ⟨(StoreInv_Remove m c id ih.1 ih.2 h).1, (StoreInv_Remove m c id ih.1 ih.2 h).2.1⟩

theorem fresh_store_inv (env : InitEnv) (name dir : Bytes) (ex : Value) (opts : Opts)
    (rels : List Bytes) (m0 : Mojura)
    (hopen : (NewWithOpts env name dir ex opts rels).2 = .ok m0)
    (hfresh : env.opened.entries = [] ∧ env.opened.relationships = fun _ _ => [])
    (hw : opts.IndexLength ≤ 19) (hnd : rels.Nodup) (henc : opts.Encoder.Lawful) :
    StoreCfg m0 ∧ StoreInv m0 := by
  obtain ⟨g1, g2, g3, g4, g5, g6, -⟩ := NewWithOpts_ok env name dir ex opts rels m0 hopen
  refine ⟨⟨by rw [g1]; exact g2, by rw [g1]; exact hw, by rw [g1]; exact g3,
    by rw [g4]; exact hnd, by rw [g1]; exact henc⟩, ?_, ?_, ?_⟩
  · rw [g5, hfresh.1]
    exact ⟨by simp [Bucket.Sorted, Bucket.keys], by simp [Bucket.keys]⟩
  · intro n r
    rw [g6, hfresh.2]
    simp [Bucket.Sorted, Bucket.keys]
  · intro n r x
    rw [g5, g6, hfresh.1, hfresh.2]
    simp [Bucket.keys, entryOf, Bucket.Get]

theorem Transaction.getAll_ok (t : Transaction) : ∀ (ids : List Bytes),
    (∀ id ∈ ids, ∃ v, t.get id = .ok v) →
    ∃ es, t.getAll ids = .ok es ∧ es.map Value.ID = ids ∧
      ∀ out, out ∈ es ↔ (out.ID ∈ ids ∧ t.get out.ID = .ok out) := by
  intro ids
  induction ids with
  | nil => intro _; exact ⟨[], rfl, rfl, by simp⟩
  | cons id ids ih =>
    intro h
    obtain ⟨v, hv⟩ := h id (by simp)
    obtain ⟨es, he1, he2, he3⟩ := ih (fun x hx => h x (by simp [hx]))
    have hvid : v.ID = id := by
      obtain ⟨v0, -, e⟩ := (Transaction.get_iff t id v).mp hv
      rw [e]
    refine ⟨v :: es, by simp [Transaction.getAll, hv, he1], by simp [hvid, he2], ?_⟩
    intro out
    simp only [List.mem_cons, he3]
    constructor
    · rintro (rfl | ⟨h1, h2⟩)
      · exact ⟨Or.inl hvid, by rw [hvid]; exact hv⟩
      · exact ⟨Or.inr h1, h2⟩
    · rintro ⟨h1 | h1, h2⟩
      · left
        rw [h1, hv] at h2
        cases h2
        rfl
      · exact Or.inr ⟨h1, h2⟩

/-- Under the relationship invariant `GetByRelationship(name, rid)` succeeds and
returns, in ascending ID order and each once, exactly the live entries that
hold `rid` in the slot of `name`. -/
theorem GetByRelationship_spec (m : Mojura) (hinv : StoreInv m) (name rid : Bytes) :
    ∃ es, (m.GetByRelationship name rid).2 = .ok es ∧
      (es.map Value.ID).Pairwise (fun a b => compareBytes a b = .lt) ∧
      ∀ out, out ∈ es ↔
        ((m.Get out.ID).2 = .ok out ∧ rid ∈ slotOf m.relationships out.Relationships name) := by
  obtain ⟨-, hsorted, hleaf⟩ := hinv
  have hload : ∀ id ∈ (m.db.relationships name rid).keys,
      ∃ v, (newTransaction Context.Background m m.db none).get id = .ok v := by
    intro id hid
    obtain ⟨v, hv, -⟩ := (hleaf name rid id).mp hid
    exact ⟨{ v with ID := id }, (Transaction.get_iff _ id _).mpr ⟨v, hv, rfl⟩⟩
  obtain ⟨es, he1, he2, he3⟩ := Transaction.getAll_ok _ _ hload
  refine ⟨es, ?_, ?_, ?_⟩
  · rw [Mojura.GetByRelationship, ReadTransaction_Background]
    exact he1
  · rw [he2]
    exact hsorted name rid
  · intro out
    rw [he3, Mojura.Get, ReadTransaction_Background, hleaf]
    constructor
    · rintro ⟨⟨v, hv, hr⟩, hg⟩
      refine ⟨hg, ?_⟩
      obtain ⟨v2, hv2, e⟩ := (Transaction.get_iff _ _ _).mp hg
      have hv2e : entryOf m.opts.Encoder m.db.entries out.ID = some v2 := hv2
      rw [hv] at hv2e
      cases hv2e
      rw [e]
      exact hr
    · rintro ⟨hg, hr⟩
      refine ⟨?_, hg⟩
      obtain ⟨v2, hv2, e⟩ := (Transaction.get_iff _ _ _).mp hg
      refine ⟨v2, hv2, ?_⟩
      rw [e] at hr
      exact hr

theorem returnedFor_iff (m : Mojura) (hinv : StoreInv m) (name rid id : Bytes) :
    returnedFor m name rid id ↔
      ∃ v, entryOf m.opts.Encoder m.db.entries id = some v ∧
        rid ∈ slotOf m.relationships v.Relationships name := by
  obtain ⟨es, he1, -, he3⟩ := GetByRelationship_spec m hinv name rid
  simp only [returnedFor, he1, Except.ok.injEq, exists_eq_left']
  constructor
  · rintro ⟨out, hout, rfl⟩
    obtain ⟨hg, hr⟩ := (he3 out).mp hout
    rw [Mojura.Get, ReadTransaction_Background] at hg
    obtain ⟨v, hv, e⟩ := (Transaction.get_iff _ _ _).mp hg
    refine ⟨v, hv, ?_⟩
    rw [e] at hr
    exact hr
  · rintro ⟨v, hv, hr⟩
    refine ⟨{ v with ID := id }, (he3 _).mpr ⟨?_, hr⟩, rfl⟩
    rw [Mojura.Get, ReadTransaction_Background]
    exact (Transaction.get_iff _ _ _).mpr ⟨v, hv, rfl⟩

/-! ## Calls that succeed -/

/-- With both commits succeeding and a context that is never done, the result
of a write transaction is the result of its closure. -/
theorem Transaction_commits_ok {α : Type} (m : Mojura) (fn : TransactionFn α) :
    (m.Transaction Commits.ok Context.Background fn).2
      = (fn (newTransaction Context.Background m m.db (some []))).2 := by
  rcases hfn : fn (newTransaction Context.Background m m.db (some [])) with ⟨t1, r⟩
  simp only [Mojura.Transaction, Mojura.transaction, Mojura.transactionFn, Backend.Transaction,
    Kiroku.Transaction, runTransaction_Background, hfn, Commits.ok]
  cases r <;> rfl

/-- The result of `new` once the index, the width and the encoding are known. -/
theorem Transaction.new_result (t : Transaction) (v : Value) (index : Nat) (bs : Bytes)
    (hn : t.nextIndex = .ok index)
    (hlen : (Sprintf t.m.indexFmt [.uint64 index]).length ≤ t.m.opts.IndexLength)
    (hm : t.m.opts.Encoder.Marshal v = .ok bs) :
    (t.new v).2 = .ok (Sprintf t.m.indexFmt [.uint64 index]) := by
  have hlen2 : ¬ t.m.opts.IndexLength < (Sprintf t.m.indexFmt [.uint64 index]).length := by
    omega
  simp only [Transaction.new, hn, hlen2, if_false, hm]

/-- The next index over entries that hold exactly the IDs of the indices below
`k`: the index `k`, wrapped to the 64-bit range. -/
theorem Transaction.nextIndex_of_keys (t : Transaction) (w k : Nat) (hw1 : 1 ≤ w)
    (hidx : t.index = none) (hs : t.txn.entries.Sorted)
    (hkeys : ∀ x, x ∈ t.txn.entries.keys ↔ ∃ i, i < k ∧ x = fixedWidth w i)
    (hk : k ≤ 2 ^ 64) (hk10 : k ≤ 10 ^ w) :
    t.nextIndex = .ok (k % 2 ^ 64) := by
  simp only [Transaction.nextIndex, hidx]
  rcases Nat.eq_zero_or_pos k with hk0 | hkpos
  · subst hk0
    have he : t.txn.entries = [] := by
      cases hb : t.txn.entries with
      | nil => rfl
      | cons kv rest =>
        have hmem : kv.1 ∈ t.txn.entries.keys := by
          rw [hb]
          simp [Bucket.keys]
        obtain ⟨i, hi, -⟩ := (hkeys kv.1).mp hmem
        omega
    simp [he]
  · have hlastk : fixedWidth w (k - 1) ∈ t.txn.entries.keys :=
      (hkeys _).mpr ⟨k - 1, by omega, rfl⟩
    have he : t.txn.entries ≠ [] := by
      intro he
      rw [he] at hlastk
      simp [Bucket.keys] at hlastk
    obtain ⟨i, hi, hie⟩ := (hkeys _).mp (Bucket.Last_mem t.txn.entries he)
    have hik : i = k - 1 := by
      rcases Bucket.Sorted_le_Last _ hs _ hlastk with h1 | h1
      · rw [hie] at h1
        exact (fixedWidth_inj w (k - 1) i (by omega) (by omega) h1).symm
      · rw [hie] at h1
        have := fixedWidth_lt_imp w (k - 1) i (by omega) (by omega) h1
        omega
    subst hik
    simp only [he, if_false, Mojura.getLastIDAsIndex, hie]
    rw [parseIDAsIndex_fixedWidth w (k - 1) hw1 (by omega) (by omega)]
    have e : k - 1 + 1 = k := by omega
    simp only [e]


/-! ## The index beyond the 64-bit range -/

theorem pow64_lt_pow20 : 2 ^ 64 < 10 ^ 20 := by norm_num

theorem wideStore_inv : WideInv 0 wideStore := by
  refine ⟨rfl, rfl, rfl, ⟨⟨?_, ?_⟩, ?_, ?_⟩, ?_, ?_⟩
  · simp [wideStore, Bucket.Sorted, Bucket.keys]
  · simp [wideStore, Bucket.keys]
  · intro n r
    simp [wideStore, Bucket.Sorted, Bucket.keys]
  · intro n r x
    simp [wideStore, Bucket.keys, entryOf, Bucket.Get]
  · intro x
    simp [wideStore, Bucket.keys]
  · intro x hx
    simp [wideStore, Bucket.keys] at hx

/-- One more insertion of the sample record into the store of `IndexLength` 20
succeeds with the ID of the next index, as long as that index is in the
64-bit range. -/
theorem WideInv_New (k : Nat) (m : Mojura) (hk : k < 2 ^ 64) (h : WideInv k m) :
    (m.New Commits.ok sampleValue).2 = .ok (fixedWidth 20 k) ∧
    WideInv (k + 1) (m.New Commits.ok sampleValue).1 := by
  obtain ⟨hopts, hfmt, hrels, hinv, hkeys, hpay⟩ := h
  have hlen : m.opts.IndexLength = 20 := by rw [hopts]
  have henc : m.opts.Encoder = sampleEncoder := by rw [hopts]
  have hk10 : k < 10 ^ 20 := Nat.lt_trans hk pow64_lt_pow20
  have hnext : (newTransaction Context.Background m m.db (some [])).nextIndex = .ok k := by
    have := Transaction.nextIndex_of_keys (newTransaction Context.Background m m.db (some []))
      20 k (by norm_num) rfl hinv.1.1 hkeys (Nat.le_of_lt hk) (Nat.le_of_lt hk10)
    rw [this, Nat.mod_eq_of_lt hk]
  have hid : Sprintf m.indexFmt [.uint64 k] = fixedWidth 20 k := by
    rw [hfmt, Sprintf_index 20 k (by norm_num), padZero_eq_fixedWidth 20 k (by norm_num) hk10]
  have hmar : m.opts.Encoder.Marshal sampleValue = .ok ['A'] := by
    rw [henc]
    rfl
  have hres : (m.New Commits.ok sampleValue).2 = .ok (fixedWidth 20 k) := by
    rw [Mojura.New, Transaction_commits_ok,
      Transaction.new_result _ sampleValue k ['A'] hnext ?_ hmar]
    · exact congrArg Except.ok hid
    · show (Sprintf m.indexFmt [.uint64 k]).length ≤ m.opts.IndexLength
      rw [hid, fixedWidth_length, hlen]
  refine ⟨hres, ?_⟩
  have hfresh : fixedWidth 20 k ∉ m.db.entries.keys := by
    intro hmem
    obtain ⟨i, hi, hie⟩ := (hkeys _).mp hmem
    have := fixedWidth_inj 20 k i hk10 (by omega) hie
    omega
  obtain ⟨index, bs, -, -, -, g4, g5, -, g7, g8, g9⟩ :=
    Mojura.New_ok m Commits.ok sampleValue _ hres
  rw [hmar] at g4
  cases g4
  have hinv1 := StoreInv_New_fresh m Commits.ok sampleValue _ (by rw [hlen]; norm_num)
    (by rw [hlen]; norm_num) (by rw [hfmt, hlen]) (by rw [hrels]; decide)
    (by rw [henc]; exact sampleEncoder_lawful) hinv hres hfresh
  refine ⟨g7.trans hopts, g8.trans hfmt, g9.trans hrels, hinv1, ?_, ?_⟩
  · intro x
    rw [g5, Bucket.mem_keys_Put, hkeys]
    constructor
    · rintro (hx | ⟨i, hi, hie⟩)
      · exact ⟨k, Nat.lt_succ_self k, hx⟩
      · exact ⟨i, Nat.lt_succ_of_lt hi, hie⟩
    · rintro ⟨i, hi, hie⟩
      rcases Nat.lt_succ_iff_lt_or_eq.mp hi with hlt | heq
      · exact Or.inr ⟨i, hlt, hie⟩
      · left
        rw [hie, heq]
  · intro x hx
    rw [g5] at hx ⊢
    rcases (Bucket.mem_keys_Put _ _ _ _).mp hx with hx | hx
    · rw [hx]
      exact Bucket.Get_Put_same _ _ _
    · by_cases hxe : x = fixedWidth 20 k
      · rw [hxe]
        exact Bucket.Get_Put_same _ _ _
      · rw [Bucket.Get_Put_other _ _ _ _ hxe]
        exact hpay x hx

/-- Every state of the run of insertions is reached by successful calls and has
the IDs of all indices so far, up to the whole 64-bit range. -/
theorem wideFilled_inv : ∀ k, k ≤ 2 ^ 64 →
    WideInv k (wideFilled k) ∧ Reachable wideStore (wideFilled k) := by
  intro k
  induction k with
  | zero => intro _; exact ⟨wideStore_inv, Reachable.start⟩
  | succ k ih =>
    intro hk
    obtain ⟨hinv, hreach⟩ := ih (by omega)
    obtain ⟨hres, hinv1⟩ := WideInv_New k (wideFilled k) (by omega) hinv
    exact ⟨hinv1, Reachable.new _ Commits.ok sampleValue _ hreach hres⟩


/-- Once the IDs of the whole 64-bit range are taken, the next insertion wraps
the index to 0: it succeeds with the ID of the first entry, replaces that
entry and leaves the leaves of the replaced record in place, so that the entry
is returned for a relationship id its record does not hold. -/
theorem WideInv_wrap (m : Mojura) (h : WideInv (2 ^ 64) m) :
    (m.New Commits.ok sampleEdited).2 = .ok (fixedWidth 20 0) ∧
    returnedFor (m.New Commits.ok sampleEdited).1 "users".toList "user_1".toList
      (fixedWidth 20 0) ∧
    ((m.New Commits.ok sampleEdited).1.Get (fixedWidth 20 0)).2
      = .ok { sampleEdited with ID := fixedWidth 20 0 } := by
  obtain ⟨hopts, hfmt, hrels, hinv, hkeys, hpay⟩ := h
  have hlen : m.opts.IndexLength = 20 := by rw [hopts]
  have henc : m.opts.Encoder = sampleEncoder := by rw [hopts]
  have hnext : (newTransaction Context.Background m m.db (some [])).nextIndex = .ok 0 := by
    have := Transaction.nextIndex_of_keys (newTransaction Context.Background m m.db (some []))
      20 (2 ^ 64) (by norm_num) rfl hinv.1.1 hkeys (Nat.le_refl _) (Nat.le_of_lt pow64_lt_pow20)
    rw [this, Nat.mod_self]
  have hid : Sprintf m.indexFmt [.uint64 0] = fixedWidth 20 0 := by
    rw [hfmt, Sprintf_index 20 0 (by norm_num),
      padZero_eq_fixedWidth 20 0 (by norm_num) (by norm_num)]
  have hmar : m.opts.Encoder.Marshal sampleEdited = .ok ['B'] := by
    rw [henc]
    rfl
  have hres : (m.New Commits.ok sampleEdited).2 = .ok (fixedWidth 20 0) := by
    rw [Mojura.New, Transaction_commits_ok,
      Transaction.new_result _ sampleEdited 0 ['B'] hnext ?_ hmar]
    · exact congrArg Except.ok hid
    · show (Sprintf m.indexFmt [.uint64 0]).length ≤ m.opts.IndexLength
      rw [hid, fixedWidth_length, hlen]
  obtain ⟨index, bs, -, -, -, g4, g5, g6, g7, -, -⟩ :=
    Mojura.New_ok m Commits.ok sampleEdited _ hres
  rw [hmar] at g4
  cases g4
  have henc1 : (m.New Commits.ok sampleEdited).1.opts.Encoder = sampleEncoder := by
    rw [g7, henc]
  have hzero : fixedWidth 20 0 ∈ m.db.entries.keys := (hkeys _).mpr ⟨0, by norm_num, rfl⟩
  -- the leaves of `users/user_1` are those of before the call
  have hbkt : (m.New Commits.ok sampleEdited).1.db.relationships "users".toList "user_1".toList
      = m.db.relationships "users".toList "user_1".toList := by
    rw [g6, hrels]
    have e1 : ("user_1".toList = "user_3".toList) = False := eq_false (by decide)
    have e2 : ("users".toList = "tags".toList) = False := eq_false (by decide)
    simp only [sampleEdited, forSlots, List.headD_cons, List.tail_cons, List.headD_nil,
      List.tail_nil, Transaction.setRelationship, List.foldl_cons, List.foldl_nil,
      Transaction.putLeaf, Transaction.mirror, Transaction.putEntry, putLeafAt,
      newTransaction, e1, e2, and_false, false_and, if_false]
  -- the first entry was returned for `user_1` before the call
  have hleaf0 : fixedWidth 20 0 ∈ (m.db.relationships "users".toList "user_1".toList).keys := by
    refine (hinv.2.2 _ _ _).mpr ⟨sampleValue, ?_, ?_⟩
    · simp only [entryOf, hpay _ hzero, henc]
      rfl
    · rw [hrels]
      decide
  -- the entries after the call
  have hentry : ∀ x ∈ m.db.entries.keys,
      entryOf sampleEncoder (m.New Commits.ok sampleEdited).1.db.entries x
        = some (if x = fixedWidth 20 0 then sampleEdited else sampleValue) := by
    intro x hx
    rw [g5]
    by_cases hx0 : x = fixedWidth 20 0
    · rw [if_pos hx0, hx0]
      exact entryOf_Put_self _ _ _ _ _ rfl
    · rw [if_neg hx0, entryOf_Put_other _ _ _ _ _ hx0]
      simp only [entryOf, hpay _ hx]
      rfl
  have hload : ∀ x ∈ ((m.New Commits.ok sampleEdited).1.db.relationships "users".toList
        "user_1".toList).keys,
      ∃ v, (newTransaction Context.Background (m.New Commits.ok sampleEdited).1
        (m.New Commits.ok sampleEdited).1.db none).get x = .ok v := by
    intro x hx
    rw [hbkt] at hx
    obtain ⟨v, hv, -⟩ := (hinv.2.2 _ _ _).mp hx
    have hxk : x ∈ m.db.entries.keys := entryOf_some_mem _ _ _ _ hv
    refine ⟨{ (if x = fixedWidth 20 0 then sampleEdited else sampleValue) with ID := x },
      (Transaction.get_iff _ x _).mpr
        ⟨if x = fixedWidth 20 0 then sampleEdited else sampleValue, ?_, rfl⟩⟩
    show entryOf (m.New Commits.ok sampleEdited).1.opts.Encoder
      (m.New Commits.ok sampleEdited).1.db.entries x = _
    rw [henc1]
    exact hentry x hxk
  have hget0 : (newTransaction Context.Background (m.New Commits.ok sampleEdited).1
      (m.New Commits.ok sampleEdited).1.db none).get (fixedWidth 20 0)
        = .ok { sampleEdited with ID := fixedWidth 20 0 } := by
    refine (Transaction.get_iff _ _ _).mpr ⟨sampleEdited, ?_, rfl⟩
    show entryOf (m.New Commits.ok sampleEdited).1.opts.Encoder
      (m.New Commits.ok sampleEdited).1.db.entries (fixedWidth 20 0) = _
    rw [henc1, hentry _ hzero, if_pos rfl]
  obtain ⟨es, he1, -, he3⟩ := Transaction.getAll_ok _ _ hload
  refine ⟨hres, ⟨es, ?_, { sampleEdited with ID := fixedWidth 20 0 }, ?_, rfl⟩, ?_⟩
  · rw [Mojura.GetByRelationship, ReadTransaction_Background]
    exact he1
  · refine (he3 _).mpr ⟨?_, hget0⟩
    show fixedWidth 20 0 ∈ _
    rw [hbkt]
    exact hleaf0
  · rw [Mojura.Get, ReadTransaction_Background]
    exact hget0


/-- `Remove` of an entry that loads succeeds when both commits do. -/
theorem Mojura.Remove_succeeds (m : Mojura) (id : Bytes) (v0 : Value)
    (hg : (m.Get id).2 = .ok v0) : (m.Remove Commits.ok id).2 = .ok () := by
  rw [Mojura.Get, ReadTransaction_Background] at hg
  have hg2 : (newTransaction Context.Background m m.db (some [])).get id = .ok v0 := hg
  rw [Mojura.Remove, Transaction_commits_ok]
  simp only [Transaction.remove, hg2]

/-- `Edit` of an entry that loads, to a record the encoder accepts, succeeds
when both commits do. -/
theorem Mojura.Edit_succeeds (m : Mojura) (id : Bytes) (v0 v : Value) (bs : Bytes)
    (hg : (m.Get id).2 = .ok v0) (hm : m.opts.Encoder.Marshal v = .ok bs) :
    (m.Edit Commits.ok id v).2 = .ok () := by
  rw [Mojura.Get, ReadTransaction_Background] at hg
  have hg2 : (newTransaction Context.Background m m.db (some [])).get id = .ok v0 := hg
  have hm2 : (newTransaction Context.Background m m.db (some [])).m.opts.Encoder.Marshal v
      = .ok bs := hm
  rw [Mojura.Edit, Transaction_commits_ok]
  simp only [Transaction.edit, hg2, hm2]

/-- C6, as stated, fails. With the relationship name `users` declared for both
slots, after a successful `New` of a record holding `a` and `b` and a
successful `Edit` that exchanges the two slots, the entry holds `b` in its
first slot, yet `GetByRelationship(users, b)` returns nothing. With the
`IndexLength` 20, after one successful `New` for every index of the 64-bit
range, the next `New` wraps the index to 0, succeeds with the ID
`00000000000000000000` and replaces that entry, which is then still returned
for `user_1`, an id its record no longer holds. With an encoder whose
`Unmarshal` fails, `GetByRelationship` returns the decoding error after a
successful `New`. -/
theorem relationship_integrity_counterexample :
    ((New InitEnv.fresh swapEncoder "test".toList "test_data".toList swapValue
        ["users".toList, "users".toList]).2 = .ok dupStore ∧
      (dupStore.New Commits.ok swapValue).2 = .ok "00000000".toList ∧
      ((dupStore.New Commits.ok swapValue).1.Edit Commits.ok "00000000".toList
        swappedValue).2 = .ok () ∧
      (((dupStore.New Commits.ok swapValue).1.Edit Commits.ok "00000000".toList
        swappedValue).1.Get "00000000".toList).2
        = .ok { swappedValue with ID := "00000000".toList } ∧
      "b".toList ∈ slotOf dupStore.relationships swappedValue.Relationships "users".toList ∧
      (((dupStore.New Commits.ok swapValue).1.Edit Commits.ok "00000000".toList
        swappedValue).1.GetByRelationship "users".toList "b".toList).2 = .ok []) ∧
    ((NewWithOpts InitEnv.fresh "test".toList "test_data".toList sampleValue
        ⟨20, sampleEncoder⟩ ["users".toList, "tags".toList]).2 = .ok wideStore ∧
      Reachable wideStore (wideFilled (2 ^ 64)) ∧
      ((wideFilled (2 ^ 64)).New Commits.ok sampleEdited).2
        = .ok "00000000000000000000".toList ∧
      returnedFor ((wideFilled (2 ^ 64)).New Commits.ok sampleEdited).1 "users".toList
        "user_1".toList "00000000000000000000".toList ∧
      (((wideFilled (2 ^ 64)).New Commits.ok sampleEdited).1.Get
        "00000000000000000000".toList).2
        = .ok { sampleEdited with ID := "00000000000000000000".toList } ∧
      "user_1".toList ∉ slotOf wideStore.relationships sampleEdited.Relationships
        "users".toList) ∧
    ((brokenStore.New Commits.ok sampleValue).2 = .ok "00000000".toList ∧
      ((brokenStore.New Commits.ok sampleValue).1.GetByRelationship "users".toList
        "user_1".toList).2 = .error (.other "invalid payload")) :=
  have hw := WideInv_wrap (wideFilled (2 ^ 64)) (wideFilled_inv (2 ^ 64) (Nat.le_refl _)).1
  ⟨⟨rfl, by decide, by decide, by decide, by decide, by decide⟩,
    ⟨rfl, (wideFilled_inv (2 ^ 64) (Nat.le_refl _)).2, hw.1, hw.2.1, hw.2.2, by decide⟩,
    ⟨by decide, by decide⟩⟩

/-- C6, amended. Relationship integrity across `New`, `Edit` and `Remove`: on a
store opened empty with distinct relationship names, an `IndexLength` of at
most 19 and an encoder whose `Unmarshal` undoes `Marshal`, after any sequence
of successful `New`/`Edit`/`Remove` calls `GetByRelationship(name, rid)`
succeeds and returns, each once and in ascending ID order, exactly the live
entries whose current relationship vector holds `rid` in the slot of `name`;
after a successful `Edit` the entry is returned exactly for the ids of its new
vector (no longer for the dropped ids, now for the added ones), and after a
successful `Remove` it is returned for none; `Remove` of a live entry, and
`Edit` of a live entry to a record the encoder accepts, succeed when the
commits do. -/
theorem relationship_integrity (env : InitEnv) (name dir : Bytes) (ex : Value) (opts : Opts)
    (rels : List Bytes) (m0 m : Mojura)
    (hopen : (NewWithOpts env name dir ex opts rels).2 = .ok m0)
    (hfresh : env.opened.entries = [] ∧ env.opened.relationships = fun _ _ => [])
    (hw : opts.IndexLength ≤ 19) (hnd : rels.Nodup) (henc : opts.Encoder.Lawful)
    (hr : Reachable m0 m) :
    (∀ rel rid, ∃ es, (m.GetByRelationship rel rid).2 = .ok es ∧
      (es.map Value.ID).Pairwise (fun a b => compareBytes a b = .lt) ∧
      ∀ out, out ∈ es ↔
        ((m.Get out.ID).2 = .ok out ∧ rid ∈ slotOf m.relationships out.Relationships rel)) ∧
    (∀ c id v, (m.Edit c id v).2 = .ok () → ∀ rel rid,
      (returnedFor (m.Edit c id v).1 rel rid id ↔
        rid ∈ slotOf m.relationships v.Relationships rel)) ∧
    (∀ c id, (m.Remove c id).2 = .ok () → ∀ rel rid,
      ¬ returnedFor (m.Remove c id).1 rel rid id) ∧
    (∀ id v0, (m.Get id).2 = .ok v0 → (m.Remove Commits.ok id).2 = .ok ()) ∧
    (∀ id v0 v bs, (m.Get id).2 = .ok v0 → m.opts.Encoder.Marshal v = .ok bs →
      (m.Edit Commits.ok id v).2 = .ok ()) := by
  obtain ⟨hcfg0, hinv0⟩ := fresh_store_inv env name dir ex opts rels m0 hopen hfresh hw hnd henc
  obtain ⟨hcfg, hinv⟩ := Reachable_inv m0 m hcfg0 hinv0 hr
  refine ⟨fun rel rid => GetByRelationship_spec m hinv rel rid, ?_, ?_,
    fun id v0 hg => Mojura.Remove_succeeds m id v0 hg,
    fun id v0 v bs hg hm => Mojura.Edit_succeeds m id v0 v bs hg hm⟩
  · intro c id v h rel rid
    obtain ⟨-, hinv1, hself⟩ := StoreInv_Edit m c id v hcfg hinv h
    obtain ⟨_, _, -, -, -, -, g5, -, g7⟩ := Mojura.Edit_ok m c id v h
    rw [returnedFor_iff _ hinv1, g5, g7, hself]
    simp
  · intro c id h rel rid
    obtain ⟨-, hinv1, hself⟩ := StoreInv_Remove m c id hcfg hinv h
    obtain ⟨_, -, -, -, g5, -, g7⟩ := Mojura.Remove_ok m c id h
    rw [returnedFor_iff _ hinv1, g5, g7, hself]
    simp

theorem relationship_integrity_witness :
    (returnedFor ((sampleStore.New Commits.ok sampleValue).1.Edit Commits.ok
        "00000000".toList sampleEdited).1 "tags".toList "boom".toList "00000000".toList ↔
      "boom".toList ∈ slotOf (sampleStore.New Commits.ok sampleValue).1.relationships
        sampleEdited.Relationships "tags".toList) ∧
    ((sampleStore.New Commits.ok sampleValue).1.Remove Commits.ok "00000000".toList).2
      = .ok () ∧
    ¬ returnedFor ((sampleStore.New Commits.ok sampleValue).1.Remove Commits.ok
        "00000000".toList).1 "users".toList "user_1".toList "00000000".toList :=
  have h := relationship_integrity InitEnv.fresh "test".toList "test_data".toList sampleValue
    (defaultOpts sampleEncoder) ["users".toList, "tags".toList] sampleStore
    (sampleStore.New Commits.ok sampleValue).1 rfl ⟨rfl, rfl⟩ (by decide) (by decide)
    sampleEncoder_lawful
    (Reachable.new _ Commits.ok sampleValue "00000000".toList Reachable.start (by decide))
  ⟨h.2.1 Commits.ok "00000000".toList sampleEdited (by decide) "tags".toList "boom".toList,
    h.2.2.2.1 "00000000".toList { sampleValue with ID := "00000000".toList } (by decide),
    h.2.2.1 Commits.ok "00000000".toList (by decide) "users".toList "user_1".toList⟩

/-! ## Filtered iteration -/

theorem compareBytes_nil_right (a : Bytes) : compareBytes a [] ≠ .lt := by
  cases a <;> simp [compareBytes]

theorem Bucket.seek_nil (b : Bucket) : b.seek [] = b := by
  cases b with
  | nil => rfl
  | cons kv rest =>
    simp [Bucket.seek, List.dropWhile, compareBytes_nil_right]

theorem Transaction.hasLeaf_iff (t : Transaction) (name rid id : Bytes) :
    t.hasLeaf name rid id = true ↔ id ∈ (t.txn.relationships name rid).keys := by
  simp only [Transaction.hasLeaf]
  exact Bucket.Get_isSome_iff _ _

theorem Transaction.isMatch_iff (t : Transaction) (f : Filter) (id : Bytes) :
    t.isMatch f id = true ↔
      ((f.InverseComparison = false →
          id ∈ (t.txn.relationships f.RelationshipKey f.RelationshipID).keys) ∧
       (f.InverseComparison = true →
          id ∉ (t.txn.relationships f.RelationshipKey f.RelationshipID).keys)) := by
  simp only [Transaction.isMatch]
  cases hf : f.InverseComparison with
  | false => simp [Transaction.hasLeaf_iff]
  | true =>
    simp only [if_true, Bool.not_eq_true', true_implies, false_implies, true_and]
    rw [← Transaction.hasLeaf_iff]
    simp

/-- A walk whose callback never stops it and whose candidates all load
delivers exactly the candidates that pass the filters, in candidate order. -/
theorem Transaction.deliver_all (t : Transaction) (fs : List Filter) : ∀ (ids : List Bytes),
    (∀ id ∈ ids, ∃ v, t.get id = .ok v) →
    ∃ ds, t.deliver (fun _ _ => none) fs ids = (ds, none) ∧
      ds.map Prod.fst = ids.filter (fun id => fs.all (fun f => t.isMatch f id)) ∧
      ∀ p ∈ ds, t.get p.1 = .ok p.2 := by
  intro ids
  induction ids with
  | nil => intro _; exact ⟨[], rfl, rfl, by simp⟩
  | cons id ids ih =>
    intro h
    obtain ⟨ds, hd1, hd2, hd3⟩ := ih (fun x hx => h x (by simp [hx]))
    obtain ⟨v, hv⟩ := h id (by simp)
    by_cases hm : fs.all (fun f => t.isMatch f id) = true
    · refine ⟨(id, v) :: ds, ?_, ?_, ?_⟩
      · simp only [Transaction.deliver, hm, if_true, hv, hd1]
      · simp only [List.map_cons, List.filter_cons, hm, if_true, hd2]
      · intro p hp
        rcases List.mem_cons.mp hp with rfl | hp
        · exact hv
        · exact hd3 p hp
    · refine ⟨ds, ?_, ?_, hd3⟩
      · simp only [Transaction.deliver, hm, hd1]
        simp
      · simp only [List.filter_cons, hm, hd2]
        simp

/-- Under the relationship invariant every relationship bucket is in key order
and each of its leaves belongs to an entry that loads. -/
theorem StoreInv_loads (m : Mojura) (hinv : StoreInv m) (name rid : Bytes) :
    (m.db.relationships name rid).Sorted ∧
    ∀ id ∈ (m.db.relationships name rid).keys, ∃ v, (m.Get id).2 = .ok v := by
  obtain ⟨-, hsorted, hleaf⟩ := hinv
  refine ⟨hsorted name rid, ?_⟩
  intro id hid
  obtain ⟨v, hv, -⟩ := (hleaf name rid id).mp hid
  refine ⟨{ v with ID := id }, ?_⟩
  rw [Mojura.Get, ReadTransaction_Background]
  exact (Transaction.get_iff _ id _).mpr ⟨v, hv, rfl⟩

/-- In every state reached by successful `New`, `Edit` and `Remove` calls on a
store opened empty with distinct relationship names, an `IndexLength` of at
most 19 and an encoder whose `Unmarshal` undoes `Marshal`, every relationship
bucket is in key order and each of its leaves belongs to an entry that loads. -/
theorem Reachable_loads (env : InitEnv) (name dir : Bytes) (ex : Value) (opts : Opts)
    (rels : List Bytes) (m0 m : Mojura)
    (hopen : (NewWithOpts env name dir ex opts rels).2 = .ok m0)
    (hfresh : env.opened.entries = [] ∧ env.opened.relationships = fun _ _ => [])
    (hw : opts.IndexLength ≤ 19) (hnd : rels.Nodup) (henc : opts.Encoder.Lawful)
    (hr : Reachable m0 m) (rel rid : Bytes) :
    (m.db.relationships rel rid).Sorted ∧
    ∀ id ∈ (m.db.relationships rel rid).keys, ∃ v, (m.Get id).2 = .ok v := by
  obtain ⟨hcfg0, hinv0⟩ := fresh_store_inv env name dir ex opts rels m0 hopen hfresh hw hnd henc
  exact StoreInv_loads m (Reachable_inv m0 m hcfg0 hinv0 hr).2 rel rid

/-- C7, as stated, fails. With an encoder whose `Unmarshal` fails, after one
successful `New` the entry `00000000` has the leaf of the filter
`users/user_1`, yet `ForEach` with that filter returns the decoding error and
delivers nothing. With a filter without a relationship name after a
non-inverse first filter, `ForEach` fails, although the entry `00000000` has
the leaf of the first filter and none of the nameless inverse filter. And
with a callback that returns `Break`, `ForEach` delivers the entry `00000000`
only and returns nil, although the entry `00000001` has the leaf of the filter
too. -/
theorem ForEach_filtered_counterexample :
    (New InitEnv.fresh brokenEncoder "test".toList "test_data".toList sampleValue
      ["users".toList, "tags".toList]).2 = .ok brokenStore ∧
    (brokenStore.New Commits.ok sampleValue).2 = .ok "00000000".toList ∧
    leafExists (brokenStore.New Commits.ok sampleValue).1
      (MakeFilter "users".toList "user_1".toList false) "00000000".toList ∧
    ((brokenStore.New Commits.ok sampleValue).1.ForEach [] (fun _ _ => none)
      [MakeFilter "users".toList "user_1".toList false]).2
      = .error (.other "invalid payload") ∧
    leafExists sampleFilled (MakeFilter "tags".toList "bar".toList false) "00000000".toList ∧
    ¬ leafExists sampleFilled (MakeFilter [] [] true) "00000000".toList ∧
    (sampleFilled.ForEach [] (fun _ _ => none)
      [MakeFilter "tags".toList "bar".toList false, MakeFilter [] [] true]).2
      = .error .ErrRelationshipNotFound ∧
    leafExists sampleFilled (MakeFilter "tags".toList "bar".toList false) "00000001".toList ∧
    (sampleFilled.ForEach [] (fun _ _ => some .Break)
      [MakeFilter "tags".toList "bar".toList false]).2
      = .ok [("00000000".toList, { sampleValue with ID := "00000000".toList })] :=
  ⟨rfl, by decide, by unfold leafExists; decide, by decide, by unfold leafExists; decide,
    by unfold leafExists; decide, by decide, by unfold leafExists; decide, by decide⟩

/-- C7, amended. Filtered iteration, sound and complete: on a store state whose
primary relationship bucket is in key order and whose leaves there belong to
entries that load (as `Reachable_loads` shows for the states reached by
successful calls with an encoder whose `Unmarshal` undoes `Marshal`), for
every non-empty list of filters with a relationship name whose first filter
is non-inverse, `ForEach` from the empty seek ID with a callback that never
stops it returns nil and delivers, each once and in ascending ID order,
exactly the entries for which the leaf of every non-inverse filter exists and
the leaf of every inverse filter does not; each is delivered with the value
`Get` loads. -/
theorem ForEach_filtered (m : Mojura) (p : Filter) (fs : List Filter)
    (hp : p.InverseComparison = false)
    (hnames : ∀ f ∈ p :: fs, f.RelationshipKey ≠ [])
    (hsorted : (m.db.relationships p.RelationshipKey p.RelationshipID).Sorted)
    (hload : ∀ id ∈ (m.db.relationships p.RelationshipKey p.RelationshipID).keys,
      ∃ v, (m.Get id).2 = .ok v) :
    ∃ ds, (m.ForEach [] (fun _ _ => none) (p :: fs)).2 = .ok ds ∧
      (ds.map Prod.fst).Pairwise (fun a b => compareBytes a b = .lt) ∧
      (∀ id, id ∈ ds.map Prod.fst ↔
        ∀ f ∈ p :: fs, (f.InverseComparison = false → leafExists m f id) ∧
          (f.InverseComparison = true → ¬ leafExists m f id)) ∧
      (∀ q ∈ ds, (m.Get q.1).2 = .ok q.2) := by
  have hload2 : ∀ id ∈ (m.db.relationships p.RelationshipKey p.RelationshipID).keys,
      ∃ v, (newTransaction Context.Background m m.db none).get id = .ok v := by
    intro id hid
    obtain ⟨v, hv⟩ := hload id hid
    rw [Mojura.Get, ReadTransaction_Background] at hv
    exact ⟨v, hv⟩
  obtain ⟨ds, hd1, hd2, hd3⟩ :=
    Transaction.deliver_all (newTransaction Context.Background m m.db none) fs _ hload2
  have hprim : primaryFilter (p :: fs) = some (p, fs) := by
    simp [primaryFilter, hp]
  have hany : (p :: fs).any (fun g => decide (g.RelationshipKey = [])) = false := by
    rw [List.any_eq_false]
    intro f hf
    simpa using hnames f hf
  have hrun : (newTransaction Context.Background m m.db none).ForEach []
      (fun _ _ => none) (p :: fs) = (ds, none) := by
    simp only [Transaction.ForEach, hany, hprim, Bucket.seek_nil]
    have e : (newTransaction Context.Background m m.db none).txn = m.db := rfl
    rw [e, hd1]
    rfl
  refine ⟨ds, ?_, ?_, ?_, ?_⟩
  · rw [Mojura.ForEach, ReadTransaction_Background, hrun]
  · rw [hd2]
    exact List.Pairwise.sublist (List.filter_sublist _) hsorted
  · intro id
    rw [hd2, List.mem_filter, List.all_eq_true]
    simp only [Transaction.isMatch_iff, List.mem_cons, forall_eq_or_imp, leafExists, hp,
      true_implies, Bool.false_eq_true, false_implies, and_true]
    rfl
  · intro q hq
    rw [Mojura.Get, ReadTransaction_Background]
    exact hd3 q hq

theorem ForEach_filtered_witness :
    Reachable sampleStore sampleFilled ∧
    ∃ ds, (sampleFilled.ForEach [] (fun _ _ => none)
        [MakeFilter "tags".toList "bar".toList false,
          MakeFilter "users".toList "user_3".toList true]).2 = .ok ds ∧
      (ds.map Prod.fst).Pairwise (fun a b => compareBytes a b = .lt) ∧
      (∀ id, id ∈ ds.map Prod.fst ↔
        ∀ f ∈ [MakeFilter "tags".toList "bar".toList false,
            MakeFilter "users".toList "user_3".toList true],
          (f.InverseComparison = false → leafExists sampleFilled f id) ∧
          (f.InverseComparison = true → ¬ leafExists sampleFilled f id)) ∧
      (∀ q ∈ ds, (sampleFilled.Get q.1).2 = .ok q.2) :=
  have hreach : Reachable sampleStore sampleFilled :=
    Reachable.new _ Commits.ok sampleEdited "00000001".toList
      (Reachable.new _ Commits.ok sampleValue "00000000".toList Reachable.start (by decide))
      (by decide)
  have hloads := Reachable_loads InitEnv.fresh "test".toList "test_data".toList sampleValue
    (defaultOpts sampleEncoder) ["users".toList, "tags".toList] sampleStore sampleFilled rfl
    ⟨rfl, rfl⟩ (by decide) (by decide) sampleEncoder_lawful hreach "tags".toList "bar".toList
  ⟨hreach,
    ForEach_filtered sampleFilled (MakeFilter "tags".toList "bar".toList false)
      [MakeFilter "users".toList "user_3".toList true] rfl (by decide) hloads.1 hloads.2⟩

/-! ## Validation and buckets of a new store -/

/-- C11. For options that pass `Validate` and an example whose number of
relationships differs from the number of declared relationships,
`NewWithOpts` returns `ErrInvalidNumberOfRelationships` and no store, and
calls no collaborator: the backend initializer is not invoked, no change-log
handle is opened and no batcher is started. -/
theorem NewWithOpts_invalid_number (env : InitEnv) (name dir : Bytes) (ex : Value) (opts : Opts)
    (rels : List Bytes) (hv : opts.Validate = none)
    (hlen : ex.Relationships.length ≠ rels.length) :
    NewWithOpts env name dir ex opts rels = ([], .error .ErrInvalidNumberOfRelationships) ∧
    (NewWithOpts env name dir ex opts rels).2 = .error .ErrInvalidNumberOfRelationships ∧
    (∀ m, (NewWithOpts env name dir ex opts rels).2 ≠ .ok m) ∧
    (∀ eff, eff ∉ (NewWithOpts env name dir ex opts rels).1) := by
  have h : NewWithOpts env name dir ex opts rels
      = ([], .error .ErrInvalidNumberOfRelationships) := by
    simp [NewWithOpts, hv, hlen]
  refine ⟨h, by rw [h], ?_, ?_⟩
  · intro m hm
    rw [h] at hm
    cases hm
  · intro eff heff
    rw [h] at heff
    cases heff

theorem NewWithOpts_invalid_number_witness :
    NewWithOpts InitEnv.fresh "test".toList "test_data".toList sampleValue
        (defaultOpts sampleEncoder) ["users".toList]
      = ([], .error .ErrInvalidNumberOfRelationships) :=
  (NewWithOpts_invalid_number InitEnv.fresh "test".toList "test_data".toList sampleValue
    (defaultOpts sampleEncoder) ["users".toList] rfl (by decide)).1

theorem mem_getOrCreate (bs : List Bytes) (key x : Bytes) :
    x ∈ getOrCreate bs key ↔ x = key ∨ x ∈ bs := by
  simp only [getOrCreate]
  split
  · constructor
    · intro h; exact Or.inr h
    · rintro (rfl | h)
      · assumption
      · exact h
  · simp only [List.mem_append, List.mem_singleton]
    exact Or.comm

theorem initRelationships_bkts (env : InitEnv) : ∀ (rest : List Bytes) (txn : DB)
    (rels : List Bytes) (txn1 : DB) (rels1 : List Bytes),
    initRelationships env rest txn rels = (txn1, rels1, .ok ()) →
    txn1.buckets = txn.buckets ∧
    ∀ x, x ∈ txn1.relationshipBkts ↔ x ∈ rest ∨ x ∈ txn.relationshipBkts := by
  intro rest
  induction rest with
  | nil =>
    intro txn rels txn1 rels1 h
    simp only [initRelationships, Prod.mk.injEq] at h
    obtain ⟨rfl, -, -⟩ := h
    simp
  | cons r rest ih =>
    intro txn rels txn1 rels1 h
    simp only [initRelationships] at h
    cases hb : env.bucketErr r with
    | some e => simp [hb] at h
    | none =>
      simp only [hb] at h
      obtain ⟨h1, h2⟩ := ih _ _ _ _ h
      refine ⟨h1, ?_⟩
      intro x
      rw [h2, mem_getOrCreate]
      simp only [List.mem_cons]
      tauto

/-- The database a successful `NewWithOpts` leaves: the one the initializing
closure built, run once on the database found in the backend file. -/
theorem NewWithOpts_db (env : InitEnv) (name dir : Bytes) (ex : Value) (opts : Opts)
    (rels : List Bytes) (m : Mojura)
    (h : (NewWithOpts env name dir ex opts rels).2 = .ok m) :
    ex.Relationships.length = rels.length ∧
    ∃ rels1, initBuckets env rels env.opened [] = (m.db, rels1, .ok ()) := by
  unfold NewWithOpts at h
  cases hv : opts.Validate with
  | some e => simp [hv] at h
  | none =>
    simp only [hv] at h
    split at h
    · simp at h
    · rename_i hlen
      simp only [Mojura.init] at h
      cases ho : env.openErr with
      | some e => simp [ho] at h
      | none =>
        simp only [ho, Backend.Transaction] at h
        rcases hib : initBuckets env rels env.opened [] with ⟨txn1, rels1, r⟩
        simp only [hib] at h
        cases r with
        | error e => simp [errOf] at h
        | ok u =>
          cases hc : env.commitErr with
          | some e => simp [hc, errOf] at h
          | none =>
            cases hk : env.kirokuErr with
            | some e => simp [hc, hk, errOf] at h
            | none =>
              simp only [hc, hk, errOf, Except.ok.injEq] at h
              subst h
              exact ⟨by simpa using hlen, rels1, rfl⟩

theorem initBuckets_bkts (env : InitEnv) (rest : List Bytes) (txn : DB) (rels : List Bytes)
    (txn1 : DB) (rels1 : List Bytes)
    (h : initBuckets env rest txn rels = (txn1, rels1, .ok ())) :
    relationshipsBktKey ∈ txn1.buckets ∧
    ∀ x, x ∈ txn1.relationshipBkts ↔ x ∈ rest ∨ x ∈ txn.relationshipBkts := by
  simp only [initBuckets] at h
  cases h1 : env.bucketErr entriesBktKey with
  | some e => simp [h1] at h
  | none =>
    cases h2 : env.bucketErr lookupsBktKey with
    | some e => simp [h1, h2] at h
    | none =>
      cases h3 : env.bucketErr relationshipsBktKey with
      | some e => simp [h1, h2, h3] at h
      | none =>
        simp only [h1, h2, h3] at h
        have key := initRelationships_bkts env rest _ rels txn1 rels1 h
        refine ⟨?_, key.2⟩
        rw [key.1]
        exact (mem_getOrCreate _ _ _).mpr (Or.inl rfl)

/-- C20. After a successful `NewWithOpts` (the backend running the initializing
closure once) the store's relationship list is the list of declared names in
declared order; its length is the number of relationships of the example; and
every slot `i` of a relationship vector has its declared name, whose bucket
exists under the `relationships` bucket of the backend. -/
theorem NewWithOpts_relationships (env : InitEnv) (name dir : Bytes) (ex : Value) (opts : Opts)
    (rels : List Bytes) (m : Mojura)
    (h : (NewWithOpts env name dir ex opts rels).2 = .ok m) :
    m.relationships = rels ∧
    m.relationships.length = ex.Relationships.length ∧
    relationshipsBktKey ∈ m.db.buckets ∧
    (∀ i, i < ex.Relationships.length →
      ∃ rel, m.relationships[i]? = some rel ∧ rels[i]? = some rel ∧
        rel ∈ m.db.relationshipBkts) := by
  obtain ⟨-, -, -, g4, -⟩ := NewWithOpts_ok env name dir ex opts rels m h
  obtain ⟨hlen, rels1, hib⟩ := NewWithOpts_db env name dir ex opts rels m h
  obtain ⟨hb1, hb2⟩ := initBuckets_bkts env rels env.opened [] m.db rels1 hib
  refine ⟨g4, by rw [g4, hlen], hb1, ?_⟩
  intro i hi
  have hi2 : i < rels.length := by omega
  refine ⟨rels[i], by rw [g4]; exact List.getElem?_eq_getElem hi2,
    List.getElem?_eq_getElem hi2, ?_⟩
  exact (hb2 _).mpr (Or.inl (List.getElem_mem _))

theorem NewWithOpts_relationships_witness :
    sampleStore.relationships = ["users".toList, "tags".toList] ∧
    sampleStore.relationships.length = sampleValue.Relationships.length :=
  ⟨(NewWithOpts_relationships InitEnv.fresh "test".toList "test_data".toList sampleValue
      (defaultOpts sampleEncoder) ["users".toList, "tags".toList] sampleStore rfl).1,
    (NewWithOpts_relationships InitEnv.fresh "test".toList "test_data".toList sampleValue
      (defaultOpts sampleEncoder) ["users".toList, "tags".toList] sampleStore rfl).2.1⟩

/-! ## Log keys -/

/-- Induction over a text two characters at a time. -/
theorem Bytes.twoStep (P : Bytes → Prop) (h0 : P []) (h1 : ∀ c, P [c])
    (h2 : ∀ c d rest, P rest → P (d :: rest) → P (c :: d :: rest)) : ∀ s, P s := by
  have key : ∀ n (s : Bytes), s.length ≤ n → P s := by
    intro n
    induction n with
    | zero =>
      intro s hs
      cases s with
      | nil => exact h0
      | cons c r => simp at hs
    | succ n ih =>
      intro s hs
      cases s with
      | nil => exact h0
      | cons c r =>
        cases r with
        | nil => exact h1 c
        | cons d rest =>
          simp only [List.length_cons] at hs
          exact h2 c d rest (ih rest (by omega)) (ih (d :: rest) (by simp only [List.length_cons]; omega))
  intro s
  exact key s.length s (le_refl _)

theorem bytesSplitGo_delim : ∀ (n : Nat) (s cur : Bytes), s.length ≤ n →
    bytesSplitGo "::".toList n cur s = splitDelimGo cur s := by
  have e : "::".toList = [':', ':'] := rfl
  rw [e]
  intro n
  induction n with
  | zero =>
    intro s cur hs
    cases s with
    | nil => simp [bytesSplitGo, splitDelimGo]
    | cons c r => simp at hs
  | succ n ih =>
    intro s cur hs
    cases s with
    | nil => simp [bytesSplitGo, splitDelimGo]
    | cons c r =>
      simp only [List.length_cons] at hs
      cases r with
      | nil =>
        have hp : List.isPrefixOf [':', ':'] [c] = false := by
          simp [List.isPrefixOf]
        simp only [bytesSplitGo, hp, splitDelimGo]
        rw [ih [] (cur ++ [c]) (by simp)]
        simp [splitDelimGo]
      | cons d rest =>
        simp only [List.length_cons] at hs
        by_cases h : c = ':' ∧ d = ':'
        · obtain ⟨rfl, rfl⟩ := h
          have hp : List.isPrefixOf [':', ':'] (':' :: ':' :: rest) = true := by
            simp [List.isPrefixOf]
          simp only [bytesSplitGo, hp, splitDelimGo, if_true, and_self]
          rw [show List.drop [':', ':'].length (':' :: ':' :: rest) = rest from rfl]
          rw [ih rest [] (by omega)]
        · have hp : List.isPrefixOf [':', ':'] (c :: d :: rest) = false := by
            simp only [List.isPrefixOf, Bool.and_eq_false_imp, Bool.and_true]
            by_cases hc : c = ':'
            · subst hc
              have hd : d ≠ ':' := fun e => h ⟨rfl, e⟩
              simp [Ne.symm hd]
            · simp [Ne.symm hc]
          simp only [bytesSplitGo, hp, splitDelimGo, if_neg h]
          rw [ih (d :: rest) (cur ++ [c]) (by simp only [List.length_cons]; omega)]
          simp

theorem bytesSplit_delim (s : Bytes) : bytesSplit s "::".toList = splitDelimGo [] s :=
  bytesSplitGo_delim s.length s [] (le_refl _)

theorem splitDelimGo_length : ∀ (s cur : Bytes),
    (splitDelimGo cur s).length = countDelim s + 1 := by
  apply Bytes.twoStep
  · intro cur; rfl
  · intro c cur; rfl
  · intro c d rest ih1 ih2 cur
    simp only [splitDelimGo, countDelim]
    split
    · simp [ih1]
    · exact ih2 _

theorem splitDelimGo_zero : ∀ (s cur : Bytes), countDelim s = 0 →
    splitDelimGo cur s = [cur ++ s] := by
  apply Bytes.twoStep
  · intro cur _; simp [splitDelimGo]
  · intro c cur _; rfl
  · intro c d rest _ ih2 cur h
    simp only [countDelim] at h
    split at h
    · omega
    · rename_i hcd
      simp only [splitDelimGo, if_neg hcd]
      rw [ih2 _ h]
      simp

theorem countDelim_cons_of_not (c d : Char) (rest : Bytes) (h : ¬ (c = ':' ∧ d = ':')) :
    countDelim (c :: d :: rest) = countDelim (d :: rest) := by
  simp [countDelim, h]

/-- A text with exactly one delimiter splits into the piece before the leftmost
`::` and the piece after it. -/
theorem splitDelimGo_one : ∀ (s cur : Bytes), countDelim s = 1 →
    ∃ b y, splitDelimGo cur s = [cur ++ b, y] ∧ s = b ++ "::".toList ++ y ∧
      countDelim (b ++ [':']) = 0 ∧ countDelim y = 0 := by
  have e : "::".toList = [':', ':'] := rfl
  rw [e]
  apply Bytes.twoStep
  · intro cur h; simp [countDelim] at h
  · intro c cur h; simp [countDelim] at h
  · intro c d rest _ ih2 cur h
    by_cases hcd : c = ':' ∧ d = ':'
    · obtain ⟨rfl, rfl⟩ := hcd
      simp only [countDelim, and_self, if_true] at h
      have h0 : countDelim rest = 0 := by omega
      refine ⟨[], rest, ?_, by simp, by simp [countDelim], h0⟩
      simp only [splitDelimGo, and_self, if_true, List.append_nil]
      rw [splitDelimGo_zero rest [] h0]
      simp
    · rw [countDelim_cons_of_not c d rest hcd] at h
      obtain ⟨b, y, hs, hd, hb, hy⟩ := ih2 (cur ++ [c]) h
      refine ⟨c :: b, y, ?_, ?_, ?_, hy⟩
      · simp only [splitDelimGo, if_neg hcd, hs]
        simp
      · simp only [List.cons_append, List.cons.injEq, true_and]
        simpa using hd
      · cases b with
        | nil =>
          simp only [List.nil_append, List.cons_append, List.cons.injEq] at hd
          have hdd : d = ':' := hd.1
          subst hdd
          simp only [List.nil_append, List.cons_append]
          rw [countDelim_cons_of_not c ':' [] hcd]
          rfl
        | cons b0 bs =>
          simp only [List.cons_append, List.cons.injEq] at hd
          have hdd : d = b0 := hd.1
          subst hdd
          simp only [List.cons_append] at hb ⊢
          rw [countDelim_cons_of_not c d _ hcd]
          exact hb

theorem countDelim_zero_iff : ∀ (s : Bytes), countDelim s = 0 ↔ ¬ "::".toList <:+: s := by
  have e : "::".toList = [':', ':'] := rfl
  rw [e]
  apply Bytes.twoStep
  · simp [countDelim]
  · intro c
    simp only [countDelim, true_iff]
    intro h
    have := List.IsInfix.length_le h
    simp at this
  · intro c d rest _ ih2
    rw [List.infix_cons_iff]
    by_cases hcd : c = ':' ∧ d = ':'
    · obtain ⟨rfl, rfl⟩ := hcd
      simp only [countDelim, and_self, if_true]
      constructor
      · intro h; omega
      · intro h
        exact absurd (Or.inl (List.prefix_iff_eq_append.mpr (by simp))) h
    · rw [countDelim_cons_of_not c d rest hcd, ih2]
      constructor
      · intro h hor
        rcases hor with hp | hi
        · obtain ⟨t, ht⟩ := hp
          simp only [List.cons_append, List.cons.injEq, List.nil_append] at ht
          exact hcd ⟨ht.1.symm, ht.2.1.symm⟩
        · exact h hi
      · intro h hi
        exact h (Or.inr hi)

theorem parseLogKey_eq (k : Bytes) :
    parseLogKey k = (if (splitDelimGo [] k).length ≠ 2 then .error .ErrInvalidLogKey
      else .ok ((splitDelimGo [] k).getD 0 [], (splitDelimGo [] k).getD 1 [])) := by
  simp only [parseLogKey, bytesSplit_delim]

/-- C17. `parseLogKey` returns `ErrInvalidLogKey` if and only if the log key
does not hold exactly one `::` delimiter (delimiters counted from left to
right without overlap); no other error is returned; and with exactly one
delimiter it returns, with no error, the bytes before that delimiter (the
leftmost `::` of the key) as the bucket and the bytes after it as the key. -/
theorem parseLogKey_single_delimiter (logKey : Bytes) :
    (parseLogKey logKey = .error .ErrInvalidLogKey ↔ countDelim logKey ≠ 1) ∧
    (∀ e, parseLogKey logKey = .error e → e = .ErrInvalidLogKey) ∧
    (countDelim logKey = 1 →
      ∃ bucket key, parseLogKey logKey = .ok (bucket, key) ∧
        logKey = bucket ++ "::".toList ++ key ∧
        ¬ "::".toList <:+: bucket ++ [':'] ∧ ¬ "::".toList <:+: key) := by
  have hlen := splitDelimGo_length logKey []
  refine ⟨?_, ?_, ?_⟩
  · rw [parseLogKey_eq]
    constructor
    · intro h
      split at h
      · omega
      · cases h
    · intro h
      rw [if_pos (by omega)]
  · intro e h
    rw [parseLogKey_eq] at h
    split at h
    · cases h
      rfl
    · cases h
  · intro h
    obtain ⟨b, y, hs, hd, hb, hy⟩ := splitDelimGo_one logKey [] h
    refine ⟨b, y, ?_, hd, (countDelim_zero_iff _).mp hb, (countDelim_zero_iff _).mp hy⟩
    rw [parseLogKey_eq, hs]
    simp

theorem parseLogKey_single_delimiter_witness :
    ∃ bucket key, parseLogKey "entries::00000000".toList = .ok (bucket, key) ∧
      "entries::00000000".toList = bucket ++ "::".toList ++ key ∧
      ¬ "::".toList <:+: bucket ++ [':'] ∧ ¬ "::".toList <:+: key :=
  (parseLogKey_single_delimiter "entries::00000000".toList).2.2 (by decide)

/-- A bucket without `::` that does not end in a colon is cut off whole at the
delimiter that follows it. -/
theorem splitDelimGo_bucket (key : Bytes) : ∀ (bucket cur : Bytes),
    ¬ "::".toList <:+: bucket → bucket.getLast? ≠ some ':' →
    splitDelimGo cur (bucket ++ "::".toList ++ key) = (cur ++ bucket) :: splitDelimGo [] key := by
  have e : "::".toList = [':', ':'] := rfl
  rw [e]
  intro bucket
  induction bucket with
  | nil =>
    intro cur _ _
    simp [splitDelimGo]
  | cons c rest ih =>
    intro cur hinf hlast
    have hinf2 : ¬ [':', ':'] <:+: rest := fun h => hinf (List.infix_cons h)
    cases rest with
    | nil =>
      have hc : c ≠ ':' := by
        intro h
        subst h
        simp at hlast
      have hcd : ¬ (c = ':' ∧ (':' : Char) = ':') := fun h => hc h.1
      have hs : [c] ++ [':', ':'] ++ key = c :: ':' :: (':' :: key) := rfl
      have := ih (cur ++ [c]) hinf2 (by simp)
      have hs2 : ([] : Bytes) ++ [':', ':'] ++ key = ':' :: (':' :: key) := rfl
      rw [hs2] at this
      rw [hs, splitDelimGo, if_neg hcd, this]
      simp
    | cons d rest2 =>
      have hcd : ¬ (c = ':' ∧ d = ':') := by
        rintro ⟨rfl, rfl⟩
        exact hinf (List.IsPrefix.isInfix (List.prefix_iff_eq_append.mpr (by simp)))
      have hl2 : (d :: rest2).getLast? ≠ some ':' := by
        simpa [List.getLast?_cons_cons] using hlast
      have := ih (cur ++ [c]) hinf2 hl2
      have hs : c :: d :: rest2 ++ [':', ':'] ++ key
          = c :: d :: (rest2 ++ [':', ':'] ++ key) := rfl
      have hs2 : d :: rest2 ++ [':', ':'] ++ key = d :: (rest2 ++ [':', ':'] ++ key) := rfl
      rw [hs2] at this
      rw [hs, splitDelimGo, if_neg hcd, this]
      simp

/-- C19. Log-key round trip: for a bucket that holds no `::` and does not end
in a colon and a key that holds no `::`, `parseLogKey(getLogKey(bucket, key))`
returns the bucket and the key with no error. The condition on the last byte
of the bucket is needed: for the bucket `a:` and the key `b` the parse
succeeds and returns `a` and `:b`. -/
theorem parseLogKey_getLogKey (bucket key : Bytes)
    (hb : ¬ "::".toList <:+: bucket) (hlast : bucket.getLast? ≠ some ':')
    (hk : ¬ "::".toList <:+: key) :
    parseLogKey (getLogKey bucket key) = .ok (bucket, key) ∧
    parseLogKey (getLogKey "a:".toList "b".toList) = .ok ("a".toList, ":b".toList) := by
  refine ⟨?_, by decide⟩
  rw [parseLogKey_eq, getLogKey, splitDelimGo_bucket key bucket [] hb hlast,
    splitDelimGo_zero key [] ((countDelim_zero_iff key).mpr hk)]
  simp

theorem parseLogKey_getLogKey_witness :
    parseLogKey (getLogKey "entries".toList "00000000".toList)
      = .ok ("entries".toList, "00000000".toList) :=
  (parseLogKey_getLogKey "entries".toList "00000000".toList (by decide) (by decide)
    (by decide)).1

/-! ## `getLogKey` in memory -/

/-- The slice is a buffer at the start of its array: its elements are `data`
and `k` spare zero bytes follow them. An append that fits is made in place. -/
theorem Heap.append_buffer (h : Heap) (dst : Slice) (data src : Bytes) (k : Nat)
    (hcells : h.cells dst.arr = data ++ List.replicate k (Char.ofNat 0))
    (hoff : dst.off = 0) (hlen : dst.len = data.length) (hcap : dst.cap = data.length + k)
    (hsrc : src.length ≤ k) (h1 : Heap) (s1 : Slice) (hap : h.append dst src = (h1, s1)) :
    h1.cells s1.arr = (data ++ src) ++ List.replicate (k - src.length) (Char.ofNat 0) ∧
    s1.arr = dst.arr ∧ s1.off = 0 ∧ s1.len = (data ++ src).length ∧
    s1.cap = (data ++ src).length + (k - src.length) ∧ h1.next = h.next ∧
    (∀ a, a ≠ dst.arr → h1.cells a = h.cells a) := by
  have hfit : dst.len + src.length ≤ dst.cap := by omega
  simp only [Heap.append, if_pos hfit, Prod.mk.injEq] at hap
  obtain ⟨rfl, rfl⟩ := hap
  refine ⟨?_, rfl, hoff, ?_, ?_, rfl, ?_⟩
  · simp only [Heap.set, if_true, hcells, hoff, hlen, Nat.zero_add, writeAt]
    rw [List.take_left' rfl, List.drop_append_eq_append_drop]
    have e1 : data.length + src.length - data.length = src.length := by omega
    have e2 : List.drop (data.length + src.length) data = [] :=
      List.drop_eq_nil_of_le (by omega)
    rw [e1, e2, List.drop_replicate]
    simp
  · simp [hlen]
  · simp only [hcap, List.length_append]
    omega
  · intro a ha
    simp [Heap.set, ha]

theorem Slice.read_congr (s : Slice) (h h1 : Heap) (hc : h1.cells s.arr = h.cells s.arr) :
    s.read h1 = s.read h := by
  simp [Slice.read, hc]

theorem Slice.read_length (s : Slice) (h : Heap)
    (hin : s.off + s.len ≤ (h.cells s.arr).length) : (s.read h).length = s.len := by
  simp only [Slice.read, List.length_take, List.length_drop]
  omega

/-- C16. `getLogKey(bucket, key)` is the concatenation of the bucket, the
delimiter `::` and the key, of length `len(bucket) + len(key) + 2`, and it
leaves its two arguments unchanged: run on slices in memory it fills a fresh
buffer whose capacity is exactly that length, no allocated array is written,
and the bucket and the key read as before. -/
theorem getLogKey_concat (h : Heap) (bucket key : Slice)
    (hb : bucket.arr < h.next) (hk : key.arr < h.next)
    (hbin : bucket.off + bucket.len ≤ (h.cells bucket.arr).length)
    (hkin : key.off + key.len ≤ (h.cells key.arr).length) :
    getLogKey (bucket.read h) (key.read h) = bucket.read h ++ "::".toList ++ key.read h ∧
    (getLogKey (bucket.read h) (key.read h)).length = bucket.len + key.len + 2 ∧
    (getLogKeyIn h bucket key).2.read (getLogKeyIn h bucket key).1
      = getLogKey (bucket.read h) (key.read h) ∧
    (getLogKeyIn h bucket key).2.len = bucket.len + key.len + 2 ∧
    (getLogKeyIn h bucket key).2.cap = bucket.len + key.len + 2 ∧
    (∀ a, a < h.next → (getLogKeyIn h bucket key).1.cells a = h.cells a) ∧
    bucket.read (getLogKeyIn h bucket key).1 = bucket.read h ∧
    key.read (getLogKeyIn h bucket key).1 = key.read h := by
  have hbl := Slice.read_length bucket h hbin
  have hkl := Slice.read_length key h hkin
  have e : "::".toList.length = 2 := rfl
  rcases hm : h.make 0 (bucket.len + key.len + 2) with ⟨h1, s1⟩
  have hm2 := hm
  simp only [Heap.make, Prod.mk.injEq] at hm2
  obtain ⟨hh1, hs1⟩ := hm2
  have hcells1 : h1.cells s1.arr
      = [] ++ List.replicate (bucket.len + key.len + 2) (Char.ofNat 0) := by
    rw [← hh1, ← hs1]
    simp [Heap.set]
  have hother1 : ∀ a, a < h.next → h1.cells a = h.cells a := by
    intro a ha
    rw [← hh1]
    have : a ≠ h.next := by omega
    simp [Heap.set, this]
  have harr1 : s1.arr = h.next := by rw [← hs1]
  have hrb : bucket.read h1 = bucket.read h := Slice.read_congr _ _ _ (hother1 _ hb)
  rcases hap1 : h1.append s1 (bucket.read h) with ⟨h2, s2⟩
  obtain ⟨a1, a2, a3, a4, a5, -, a7⟩ := Heap.append_buffer h1 s1 [] (bucket.read h)
    (bucket.len + key.len + 2) hcells1 (by rw [← hs1]) (by rw [← hs1]; rfl)
    (by rw [← hs1]; simp) (by omega) h2 s2 hap1
  rcases hap2 : h2.append s2 "::".toList with ⟨h3, s3⟩
  obtain ⟨b1, b2, b3, b4, b5, -, b7⟩ := Heap.append_buffer h2 s2 _ "::".toList _
    a1 a3 a4 a5 (by omega) h3 s3 hap2
  have hother3 : ∀ a, a < h.next → h3.cells a = h.cells a := by
    intro a ha
    rw [b7 a (by omega), a7 a (by omega), hother1 a ha]
  have hrk : key.read h3 = key.read h := Slice.read_congr _ _ _ (hother3 _ hk)
  rcases hap3 : h3.append s3 (key.read h) with ⟨h4, s4⟩
  obtain ⟨c1, c2, c3, c4, c5, -, c7⟩ := Heap.append_buffer h3 s3 _ (key.read h) _
    b1 b3 b4 b5 (by omega) h4 s4 hap3
  have hres : getLogKeyIn h bucket key = (h4, s4) := by
    simp only [getLogKeyIn, hm, hrb, hap1, hap2, hrk, hap3]
  have hframe : ∀ a, a < h.next → h4.cells a = h.cells a := by
    intro a ha
    rw [c7 a (by omega), hother3 a ha]
  have hlenres : (getLogKey (bucket.read h) (key.read h)).length = bucket.len + key.len + 2 := by
    simp only [getLogKey, List.length_append, hbl, hkl, e]
    omega
  rw [hres]
  refine ⟨rfl, hlenres, ?_, ?_, ?_, hframe, ?_, ?_⟩
  · simp only [Slice.read, c1, c3, c4, List.drop_zero]
    rw [List.take_left' rfl]
    simp [getLogKey]
  · rw [c4]
    simp only [List.length_append, List.length_nil, hbl, hkl, e]
    omega
  · rw [c5]
    simp only [List.length_append, List.length_nil, hbl, hkl, e]
    omega
  · exact Slice.read_congr _ _ _ (hframe _ hb)
  · exact Slice.read_congr _ _ _ (hframe _ hk)

theorem getLogKey_concat_witness :
    (getLogKeyIn sampleHeap ⟨0, 0, 7, 7⟩ ⟨1, 0, 8, 8⟩).2.read
        (getLogKeyIn sampleHeap ⟨0, 0, 7, 7⟩ ⟨1, 0, 8, 8⟩).1
      = getLogKey ((⟨0, 0, 7, 7⟩ : Slice).read sampleHeap)
          ((⟨1, 0, 8, 8⟩ : Slice).read sampleHeap) ∧
    (getLogKeyIn sampleHeap ⟨0, 0, 7, 7⟩ ⟨1, 0, 8, 8⟩).2.len = 7 + 8 + 2 :=
  ⟨(getLogKey_concat sampleHeap ⟨0, 0, 7, 7⟩ ⟨1, 0, 8, 8⟩ (by decide) (by decide)
      (by decide) (by decide)).2.2.1,
    (getLogKey_concat sampleHeap ⟨0, 0, 7, 7⟩ ⟨1, 0, 8, 8⟩ (by decide) (by decide)
      (by decide) (by decide)).2.2.2.1⟩

/-! ## Reflection on the entries argument -/

theorem GoType.pointer_to_iff (E T : GoType) :
    (E.Kind = .Ptr ∧ E.Elem = some T) ↔ (E = .ptr T ∨ ∃ n, E = .definedPtr n T) := by
  cases E <;> simp [GoType.Kind, GoType.Elem]

/-- The result of `getReflectedSlice` on a non-nil pointer to a slice with the
element type `E`. -/
theorem getReflectedSlice_slice (t E : GoType) (entries s : GoValue)
    (hk : ReflectValue.Kind (some entries) = .Ptr)
    (he : ReflectValue.Elem (some entries) = some s)
    (hs : s.typeOf.Kind = .Slice) (hE : s.typeOf.Elem = some E) :
    getReflectedSlice t (some entries)
      = (if E.Kind = .Ptr ∧ E.Elem = some t then (some s, none)
         else (some s, some .ErrInvalidType)) := by
  have hsk : ReflectValue.Kind (some s) = .Slice := hs
  simp only [getReflectedSlice, hk, he, hsk, ne_eq, not_true_eq_false, if_false, isType, hE,
    isPointer]
  by_cases h1 : E.Kind = .Ptr
  · by_cases h2 : E.Elem = some t
    · simp [h1, h2]
    · simp [h1, h2]
  · simp [h1]

/-- C12, as stated, fails: for the entry type `testStruct` and a pointer to a
slice whose element type is the defined type `testPointer` with the underlying
type `*testStruct` (`type testPointer *testStruct`), an element type that is
not the pointer type `*testStruct`, `getReflectedSlice` returns the slice and
no error. And for a nil pointer of the type `*[]*testStruct` it returns
`ErrInvalidEntries`, not the slice. -/
theorem getReflectedSlice_defined_pointer_counterexample :
    getCoreType sampleExample = .named "testStruct" ∧
    GoType.definedPtr "testPointer" (.named "testStruct") ≠ .ptr (.named "testStruct") ∧
    getReflectedSlice (getCoreType sampleExample)
        (some (.pointer (.slice (.definedPtr "testPointer" (.named "testStruct")) [])))
      = (some (.slice (.definedPtr "testPointer" (.named "testStruct")) []), none) ∧
    (GoValue.nilPointer (.slice (.ptr (.named "testStruct")))).typeOf
      = .ptr (.slice (.ptr (.named "testStruct"))) ∧
    getReflectedSlice (getCoreType sampleExample)
        (some (.nilPointer (.slice (.ptr (.named "testStruct")))))
      = (none, some .ErrInvalidEntries) := by
  decide

/-- C12, amended. For the entry type `T` registered from an example (its type
with one pointer level stripped by `getCoreType`) and a non-nil pointer to a
slice with the element type `E`, `getReflectedSlice` returns `ErrInvalidType`
if and only if `E` is not a pointer type with the element type `T`, that is
neither `*T` nor a defined type whose underlying type is `*T`; otherwise it
returns the slice pointed to and no error. `Transaction.GetByRelationship`
fails with `ErrInvalidType` before it makes the lookup in exactly the same
case, and otherwise goes on to the lookup. -/
theorem getReflectedSlice_type (exampleValue entries s : GoValue) (E : GoType)
    (hk : ReflectValue.Kind (some entries) = .Ptr)
    (he : ReflectValue.Elem (some entries) = some s)
    (hs : s.typeOf.Kind = .Slice) (hE : s.typeOf.Elem = some E) :
    ((getReflectedSlice (getCoreType exampleValue) (some entries)).2 = some .ErrInvalidType ↔
      ¬ (E = .ptr (getCoreType exampleValue) ∨
        ∃ n, E = .definedPtr n (getCoreType exampleValue))) ∧
    ((E = .ptr (getCoreType exampleValue) ∨
        ∃ n, E = .definedPtr n (getCoreType exampleValue)) →
      getReflectedSlice (getCoreType exampleValue) (some entries) = (some s, none)) ∧
    (∀ (t : Transaction) (rel rid : Bytes),
      (t.GetByRelationship (getCoreType exampleValue) rel rid (some entries)
          = (false, .error .ErrInvalidType) ↔
        ¬ (E = .ptr (getCoreType exampleValue) ∨
          ∃ n, E = .definedPtr n (getCoreType exampleValue))) ∧
      ((E = .ptr (getCoreType exampleValue) ∨
          ∃ n, E = .definedPtr n (getCoreType exampleValue)) →
        t.GetByRelationship (getCoreType exampleValue) rel rid (some entries)
          = (true, t.getByRelationship rel rid))) := by
  have hrun := getReflectedSlice_slice (getCoreType exampleValue) E entries s hk he hs hE
  by_cases h : E = .ptr (getCoreType exampleValue) ∨
      ∃ n, E = .definedPtr n (getCoreType exampleValue)
  · rw [if_pos ((GoType.pointer_to_iff _ _).mpr h)] at hrun
    refine ⟨by simp [hrun, h], fun _ => hrun, fun t rel rid => ⟨?_, fun _ => ?_⟩⟩
    · simp [Transaction.GetByRelationship, hrun, h]
    · simp [Transaction.GetByRelationship, hrun]
  · rw [if_neg (fun hp => h ((GoType.pointer_to_iff _ _).mp hp))] at hrun
    refine ⟨by simp [hrun, h], fun h2 => absurd h2 h, fun t rel rid => ⟨?_, fun h2 => absurd h2 h⟩⟩
    simp [Transaction.GetByRelationship, hrun, h]

theorem getReflectedSlice_type_witness :
    getCoreType sampleExample = .named "testStruct" ∧
    getReflectedSlice (getCoreType sampleExample)
        (some (.pointer (.slice (.ptr (.named "testStruct")) [])))
      = (some (.slice (.ptr (.named "testStruct")) []), none) ∧
    ((newTransaction Context.Background sampleStore sampleStore.db none).GetByRelationship
        (getCoreType sampleExample) "contacts".toList "contact_1".toList
        (some (.pointer (.slice (.ptr (.named "testBadType")) [])))
      = (false, .error .ErrInvalidType)) ∧
    ((newTransaction Context.Background sampleStore sampleStore.db none).GetByRelationship
        (getCoreType sampleExample) "users".toList "user_1".toList
        (some (.pointer (.slice (.ptr (.named "testStruct")) [])))
      = (true, .ok [])) :=
  ⟨rfl,
    (getReflectedSlice_type sampleExample (.pointer (.slice (.ptr (.named "testStruct")) []))
      (.slice (.ptr (.named "testStruct")) []) (.ptr (.named "testStruct")) rfl rfl rfl rfl).2.1
      (Or.inl rfl),
    ((getReflectedSlice_type sampleExample (.pointer (.slice (.ptr (.named "testBadType")) []))
      (.slice (.ptr (.named "testBadType")) []) (.ptr (.named "testBadType")) rfl rfl rfl
      rfl).2.2 _ _ _).1.mpr (by simp [getCoreType, sampleExample, GoValue.typeOf, isPointer,
        GoType.Kind, GoType.Elem]),
    ((getReflectedSlice_type sampleExample (.pointer (.slice (.ptr (.named "testStruct")) []))
      (.slice (.ptr (.named "testStruct")) []) (.ptr (.named "testStruct")) rfl rfl rfl
      rfl).2.2 (newTransaction Context.Background sampleStore sampleStore.db none)
      "users".toList "user_1".toList).2 (Or.inl rfl)⟩

/-- C13, at the failing input: a `testStruct` handed over by value is not a
slice, yet `getReflectedSlice` returns the zero Value with a nil error at its
first return, and `Transaction.GetByRelationship` goes on to the lookup; only
pointers that do not point to a slice get `ErrInvalidEntries`. -/
theorem getReflectedSlice_non_pointer :
    getReflectedSlice (.named "testStruct") (some (.basic "testStruct" [])) = (none, none) ∧
    (getReflectedSlice (.named "testStruct") (some (.basic "testStruct" []))).2
      ≠ some .ErrInvalidEntries ∧
    ((newTransaction Context.Background sampleStore sampleStore.db none).GetByRelationship
        (.named "testStruct") "users".toList "user_1".toList
        (some (.basic "testStruct" []))).1 = true ∧
    getReflectedSlice (.named "testStruct") (some (.slice (.ptr (.named "testStruct")) []))
      = (none, none) ∧
    getReflectedSlice (.named "testStruct") none = (none, none) ∧
    (getReflectedSlice (.named "testStruct") (some (.pointer (.basic "testStruct" [])))).2
      = some .ErrInvalidEntries ∧
    (getReflectedSlice (.named "testStruct")
      (some (.nilPointer (.slice (.ptr (.named "testStruct")))))).2
      = some .ErrInvalidEntries := by
  decide

/-! ## Cursors -/

/-- C14. For every cursor callback and filter list `Mojura.Cursor` returns nil
when the result of its read transaction is the sentinel `Break`, and returns
every other result unchanged, the error of building the cursor included. -/
theorem Cursor_break (m : Mojura) (fn : Cursor → Option Error) (fs : List Filter) :
    (errOf (m.ReadTransaction Context.Background (Mojura.cursorFn fn fs)).2 = some .Break →
      (m.Cursor fn fs).2 = none) ∧
    (errOf (m.ReadTransaction Context.Background (Mojura.cursorFn fn fs)).2 ≠ some .Break →
      (m.Cursor fn fs).2
        = errOf (m.ReadTransaction Context.Background (Mojura.cursorFn fn fs)).2) ∧
    (∀ e, (newTransaction Context.Background m m.db none).cursor fs = .error e →
      e ≠ .Break → (m.Cursor fn fs).2 = some e) ∧
    (∀ c e, (newTransaction Context.Background m m.db none).cursor fs = .ok c →
      fn c = some e → e ≠ .Break → (m.Cursor fn fs).2 = some e) ∧
    (∀ c, (newTransaction Context.Background m m.db none).cursor fs = .ok c →
      (fn c = some .Break ∨ fn c = none) → (m.Cursor fn fs).2 = none) := by
  have hrun : (m.ReadTransaction Context.Background (Mojura.cursorFn fn fs)).2
      = (Mojura.cursorFn fn fs (newTransaction Context.Background m m.db none)).2 :=
    ReadTransaction_Background m _
  refine ⟨?_, ?_, ?_, ?_, ?_⟩
  · intro h
    simp [Mojura.Cursor, h]
  · intro h
    simp [Mojura.Cursor, h]
  · intro e he hne
    simp [Mojura.Cursor, hrun, Mojura.cursorFn, he, errOf, hne]
  · intro c e hc hfn hne
    simp [Mojura.Cursor, hrun, Mojura.cursorFn, hc, hfn, errOf, hne]
  · intro c hc hfn
    rcases hfn with hfn | hfn <;> simp [Mojura.Cursor, hrun, Mojura.cursorFn, hc, hfn, errOf]

theorem Cursor_break_witness :
    (sampleStore.Cursor (fun _ => some .Break) []).2 = none ∧
    (sampleStore.Cursor (fun _ => none)
        [MakeFilter "users".toList "user_1".toList true]).2
      = some .ErrInversePrimaryFilter :=
  ⟨(Cursor_break sampleStore (fun _ => some .Break) []).2.2.2.2 _ rfl (Or.inl rfl),
    (Cursor_break sampleStore (fun _ => none)
      [MakeFilter "users".toList "user_1".toList true]).2.2.1 _ rfl (by decide)⟩

/-! ## Closing -/

/-- A store is open when `NewWithOpts` returns it. -/
theorem NewWithOpts_open (env : InitEnv) (name dir : Bytes) (ex : Value) (opts : Opts)
    (rels : List Bytes) (m : Mojura)
    (h : (NewWithOpts env name dir ex opts rels).2 = .ok m) : m.closed = false := by
  unfold NewWithOpts at h
  cases hv : opts.Validate with
  | some e => simp [hv] at h
  | none =>
    simp only [hv] at h
    split at h
    · simp at h
    · simp only [Mojura.init] at h
      cases ho : env.openErr with
      | some e => simp [ho] at h
      | none =>
        simp only [ho, Backend.Transaction] at h
        rcases hib : initBuckets env rels env.opened [] with ⟨txn1, rels1, r⟩
        simp only [hib] at h
        cases r with
        | error e => simp [errOf] at h
        | ok u =>
          cases hc : env.commitErr with
          | some e => simp [hc, errOf] at h
          | none =>
            cases hk : env.kirokuErr with
            | some e => simp [hc, hk, errOf] at h
            | none =>
              simp only [hc, hk, errOf, Except.ok.injEq] at h
              subst h
              rfl

theorem Close_closed (m : Mojura) (env : CloseEnv) (h : m.closed = true) :
    m.Close env = (m, [], some .ErrIsClosed) := by
  simp [Mojura.Close, h]

theorem closeAll_closed : ∀ (envs : List CloseEnv) (m : Mojura), m.closed = true →
    closeAll m envs = List.replicate envs.length ([], some .ErrIsClosed) := by
  intro envs
  induction envs with
  | nil => intro m _; rfl
  | cons env rest ih =>
    intro m h
    simp only [closeAll, Close_closed m env h, List.length_cons, List.replicate_succ]
    rw [ih m h]

/-- C15. `Close` is closed-once: on an open store the first `Close` closes the
backend and the change log once each, both whatever the first returns, and
returns their combined error (nil when both succeed); every later `Close`
returns `ErrIsClosed` and closes neither. -/
theorem Close_once (m : Mojura) (env : CloseEnv) (later : List CloseEnv)
    (hopen : m.closed = false) :
    (m.Close env).2.1 = [.closeBackend, .closeLog] ∧
    (m.Close env).2.2
      = ErrorList.Err (ErrorList.Push (ErrorList.Push [] env.dbErr) env.kErr) ∧
    ((m.Close env).2.2 = none ↔ env.dbErr = none ∧ env.kErr = none) ∧
    (m.Close env).1.closed = true ∧
    closeAll m (env :: later)
      = (m.Close env).2 :: List.replicate later.length ([], some .ErrIsClosed) ∧
    (∀ env2, (m.Close env).1.Close env2 = ((m.Close env).1, [], some .ErrIsClosed)) := by
  have h1 : m.Close env = ({ m with closed := true }, [.closeBackend, .closeLog],
      ErrorList.Err (ErrorList.Push (ErrorList.Push [] env.dbErr) env.kErr)) := by
    simp [Mojura.Close, hopen]
  have hc : (m.Close env).1.closed = true := by rw [h1]
  refine ⟨by rw [h1], by rw [h1], ?_, hc, ?_, ?_⟩
  · rw [h1]
    rcases env with ⟨d, k⟩
    cases d <;> cases k <;> simp [ErrorList.Push, ErrorList.Err]
  · simp only [closeAll]
    rw [closeAll_closed later _ hc]
  · intro env2
    exact Close_closed _ env2 hc

theorem Close_once_witness :
    closeAll sampleStore [⟨some (.other "db"), some (.other "log")⟩, ⟨none, none⟩]
      = [([.closeBackend, .closeLog], some (.both (.other "db") (.other "log"))),
         ([], some .ErrIsClosed)] :=
  ((Close_once sampleStore ⟨some (.other "db"), some (.other "log")⟩ [⟨none, none⟩]
    (NewWithOpts_open _ _ _ _ _ _ _ sampleStore_opened)).2.2.2.2.1).trans (by decide)

/-! ## Lookups -/

theorem lookupCall_ok (m : Mojura) (c : Commits) (lookup lookupID : Bytes) (op : LookupOp)
    (h : (m.lookupCall c lookup lookupID op).2 = .ok ()) :
    (m.lookupCall c lookup lookupID op).1.db.lookups lookup lookupID
      = (m.db.lookups lookup lookupID).afterLookupOps [op] := by
  cases op with
  | set key =>
    have h1 := (Transaction_ok m c (fun txn => txn.setLookup lookup lookupID key) () h).2.1
    simp only [Mojura.lookupCall, Mojura.SetLookup, h1]
    simp [Transaction.setLookup, Transaction.mirror, newTransaction, putLookupAt,
      Bucket.afterLookupOps]
  | remove key =>
    have h1 := (Transaction_ok m c (fun txn => txn.removeLookup lookup lookupID key) () h).2.1
    simp only [Mojura.lookupCall, Mojura.RemoveLookup, h1]
    simp [Transaction.removeLookup, Transaction.mirror, newTransaction, deleteLookupAt,
      Bucket.afterLookupOps]

theorem lookupAll_bucket (lookup lookupID : Bytes) : ∀ (calls : List (Commits × LookupOp))
    (m : Mojura), (∀ r ∈ (lookupAll lookup lookupID m calls).2, r = .ok ()) →
    (lookupAll lookup lookupID m calls).1.db.lookups lookup lookupID
      = (m.db.lookups lookup lookupID).afterLookupOps (calls.map Prod.snd) := by
  intro calls
  induction calls with
  | nil => intro m _; rfl
  | cons call rest ih =>
    intro m h
    obtain ⟨c, op⟩ := call
    have hstep : lookupAll lookup lookupID m ((c, op) :: rest)
        = ((lookupAll lookup lookupID (m.lookupCall c lookup lookupID op).1 rest).1,
           (m.lookupCall c lookup lookupID op).2
             :: (lookupAll lookup lookupID (m.lookupCall c lookup lookupID op).1 rest).2) := rfl
    rw [hstep] at h ⊢
    have h0 : (m.lookupCall c lookup lookupID op).2 = .ok () := h _ (List.mem_cons_self _ _)
    have hrest : ∀ r ∈ (lookupAll lookup lookupID (m.lookupCall c lookup lookupID op).1 rest).2,
        r = .ok () := fun r hr => h r (List.mem_cons_of_mem _ hr)
    simp only [List.map_cons]
    rw [ih _ hrest, lookupCall_ok m c lookup lookupID op h0]
    cases op <;> rfl

theorem Bucket.keys_PutLast (b : Bucket) (k v : Bytes) :
    (b.PutLast k v).keys = if k ∈ b.keys then b.keys else b.keys ++ [k] := by
  unfold Bucket.PutLast
  by_cases h : k ∈ b.keys
  · rw [if_pos h, if_pos h]
    simp only [Bucket.keys, List.map_map]
    apply List.map_congr_left
    intro kv _
    by_cases hk : kv.1 = k
    · simp [hk]
    · simp [hk]
  · rw [if_neg h, if_neg h]
    simp [Bucket.keys]

theorem Bucket.keys_Delete (b : Bucket) (k : Bytes) :
    (b.Delete k).keys = b.keys.filter (fun x => x ≠ k) := by
  simp only [Bucket.Delete, Bucket.keys, List.filter_map]
  rfl

theorem Bucket.afterLookupOps_nodup : ∀ (ops : List LookupOp) (b : Bucket), b.keys.Nodup →
    (b.afterLookupOps ops).keys.Nodup := by
  intro ops
  induction ops with
  | nil => intro b h; exact h
  | cons op rest ih =>
    intro b h
    cases op with
    | set key =>
      apply ih
      rw [Bucket.keys_PutLast]
      by_cases hk : key ∈ b.keys
      · rw [if_pos hk]; exact h
      · rw [if_neg hk]
        exact List.Nodup.append h (List.nodup_singleton key) (by simpa using hk)
    | remove key =>
      apply ih
      rw [Bucket.keys_Delete]
      exact h.filter _

theorem Bucket.afterLookupOps_sublist : ∀ (ops : List LookupOp) (b : Bucket),
    (b.afterLookupOps ops).keys.Sublist (b.keys ++ setKeys ops) := by
  intro ops
  induction ops with
  | nil => intro b; simp [Bucket.afterLookupOps, setKeys]
  | cons op rest ih =>
    intro b
    cases op with
    | set key =>
      refine (ih (b.PutLast key [])).trans ?_
      rw [Bucket.keys_PutLast]
      have e : b.keys ++ setKeys (LookupOp.set key :: rest) = (b.keys ++ [key]) ++ setKeys rest := by
        simp [setKeys]
      rw [e]
      apply List.Sublist.append_right
      by_cases hk : key ∈ b.keys
      · rw [if_pos hk]; exact List.sublist_append_left _ _
      · rw [if_neg hk]
    | remove key =>
      refine (ih (b.Delete key)).trans ?_
      rw [Bucket.keys_Delete]
      exact List.Sublist.append_right (List.filter_sublist _) _

theorem Bucket.mem_afterLookupOps (k : Bytes) : ∀ (ops : List LookupOp) (b : Bucket),
    k ∈ (b.afterLookupOps ops).keys ↔
      (∃ before after, ops = before ++ LookupOp.set k :: after ∧ LookupOp.remove k ∉ after) ∨
      (k ∈ b.keys ∧ LookupOp.remove k ∉ ops) := by
  intro ops
  induction ops with
  | nil =>
    intro b
    simp [Bucket.afterLookupOps]
  | cons op rest ih =>
    intro b
    cases op with
    | set key =>
      simp only [Bucket.afterLookupOps]
      have hmem : k ∈ (b.PutLast key []).keys ↔ k = key ∨ k ∈ b.keys := by
        rw [Bucket.keys_PutLast]
        by_cases hk : key ∈ b.keys
        · rw [if_pos hk]
          constructor
          · exact Or.inr
          · rintro (rfl | h)
            · exact hk
            · exact h
        · rw [if_neg hk]
          simp [or_comm]
      rw [ih, hmem]
      constructor
      · rintro (⟨before, after, hb, ha⟩ | ⟨hk | hk, hr⟩)
        · exact Or.inl ⟨LookupOp.set key :: before, after, by rw [hb]; rfl, ha⟩
        · subst hk
          exact Or.inl ⟨[], rest, rfl, hr⟩
        · refine Or.inr ⟨hk, ?_⟩
          simp [hr]
      · rintro (⟨before, after, hb, ha⟩ | ⟨hk, hr⟩)
        · cases before with
          | nil =>
            simp only [List.nil_append, List.cons.injEq, LookupOp.set.injEq] at hb
            obtain ⟨hkey, hrest⟩ := hb
            subst hrest
            exact Or.inr ⟨Or.inl hkey.symm, ha⟩
          | cons x before1 =>
            simp only [List.cons_append, List.cons.injEq] at hb
            exact Or.inl ⟨before1, after, hb.2, ha⟩
        · refine Or.inr ⟨Or.inr hk, ?_⟩
          intro hmem2
          exact hr (List.mem_cons_of_mem _ hmem2)
    | remove key =>
      simp only [Bucket.afterLookupOps]
      rw [ih, Bucket.mem_keys_Delete]
      constructor
      · rintro (⟨before, after, hb, ha⟩ | ⟨⟨hne, hk⟩, hr⟩)
        · exact Or.inl ⟨LookupOp.remove key :: before, after, by rw [hb]; rfl, ha⟩
        · refine Or.inr ⟨hk, ?_⟩
          simp [hr, hne]
      · rintro (⟨before, after, hb, ha⟩ | ⟨hk, hr⟩)
        · cases before with
          | nil => simp at hb
          | cons x before1 =>
            simp only [List.cons_append, List.cons.injEq] at hb
            exact Or.inl ⟨before1, after, hb.2, ha⟩
        · simp only [List.mem_cons, LookupOp.remove.injEq, not_or] at hr
          exact Or.inr ⟨⟨hr.1, hk⟩, hr.2⟩

theorem Bucket.afterLookupOps_newestFirst : ∀ (ops : List LookupOp) (b : Bucket),
    (b.afterLookupOps ops).keys.reverse = newestFirst b.keys.reverse ops := by
  intro ops
  induction ops with
  | nil => intro b; rfl
  | cons op rest ih =>
    intro b
    cases op with
    | set key =>
      simp only [Bucket.afterLookupOps, newestFirst]
      rw [ih, Bucket.keys_PutLast]
      by_cases hk : key ∈ b.keys
      · simp [hk]
      · simp [hk]
    | remove key =>
      simp only [Bucket.afterLookupOps, newestFirst]
      rw [ih, Bucket.keys_Delete, List.filter_reverse]

theorem GetLookup_eq (m : Mojura) (lookup lookupID : Bytes) :
    (m.GetLookup lookup lookupID).2 = .ok (m.db.lookups lookup lookupID).keys.reverse := by
  rw [Mojura.GetLookup, ReadTransaction_Background]
  rfl

/-- C18. For every sequence of successful `SetLookup` and `RemoveLookup` calls
on a lookup that held no key before them, `GetLookup` returns exactly the keys
that were set and not since removed, each once, in reverse-insertion order (the
result is a subsequence of the keys of the `SetLookup` calls, the last call
first, a key set again while it is held keeping its place), which is the
order of the bucket's cursor walked from last to first. -/
theorem GetLookup_keys (m : Mojura) (lookup lookupID : Bytes)
    (calls : List (Commits × LookupOp))
    (hempty : m.db.lookups lookup lookupID = [])
    (hok : ∀ r ∈ (lookupAll lookup lookupID m calls).2, r = .ok ()) :
    ∃ keys, ((lookupAll lookup lookupID m calls).1.GetLookup lookup lookupID).2 = .ok keys ∧
      (∀ k, k ∈ keys ↔ ∃ before after,
        calls.map Prod.snd = before ++ LookupOp.set k :: after ∧ LookupOp.remove k ∉ after) ∧
      keys.Nodup ∧
      keys.Sublist (setKeys (calls.map Prod.snd)).reverse ∧
      keys = newestFirst [] (calls.map Prod.snd) ∧
      keys = ((lookupAll lookup lookupID m calls).1.db.lookups lookup lookupID).keys.reverse := by
  refine ⟨_, GetLookup_eq _ lookup lookupID, ?_, ?_, ?_, ?_, rfl⟩
  · intro k
    rw [List.mem_reverse, lookupAll_bucket lookup lookupID calls m hok,
      Bucket.mem_afterLookupOps, hempty]
    simp [Bucket.keys]
  · rw [List.nodup_reverse, lookupAll_bucket lookup lookupID calls m hok, hempty]
    exact Bucket.afterLookupOps_nodup _ [] List.nodup_nil
  · rw [lookupAll_bucket lookup lookupID calls m hok, hempty]
    have h := Bucket.afterLookupOps_sublist (calls.map Prod.snd) []
    simp only [Bucket.keys, List.map_nil, List.nil_append] at h
    exact h.reverse
  · rw [lookupAll_bucket lookup lookupID calls m hok, hempty,
      Bucket.afterLookupOps_newestFirst]
    rfl

theorem GetLookup_keys_witness :
    (∃ keys, ((lookupAll "test_lookup".toList "test_0".toList sampleStore
          [(Commits.ok, .set "foo".toList), (Commits.ok, .set "bar".toList)]).1.GetLookup
          "test_lookup".toList "test_0".toList).2 = .ok keys ∧
      (∀ k, k ∈ keys ↔ ∃ before after,
        [LookupOp.set "foo".toList, .set "bar".toList]
          = before ++ LookupOp.set k :: after ∧ LookupOp.remove k ∉ after) ∧
      keys.Nodup ∧
      keys.Sublist (setKeys [LookupOp.set "foo".toList, .set "bar".toList]).reverse ∧
      keys = newestFirst [] [LookupOp.set "foo".toList, .set "bar".toList] ∧
      keys = ((lookupAll "test_lookup".toList "test_0".toList sampleStore
          [(Commits.ok, .set "foo".toList), (Commits.ok, .set "bar".toList)]).1.db.lookups
          "test_lookup".toList "test_0".toList).keys.reverse) ∧
    ((lookupAll "test_lookup".toList "test_0".toList sampleStore
        [(Commits.ok, .set "foo".toList), (Commits.ok, .set "bar".toList)]).1.GetLookup
        "test_lookup".toList "test_0".toList).2 = .ok ["bar".toList, "foo".toList] ∧
    ((lookupAll "test_lookup".toList "test_0".toList sampleStore
        [(Commits.ok, .set "foo".toList), (Commits.ok, .set "bar".toList),
         (Commits.ok, .remove "foo".toList)]).1.GetLookup
        "test_lookup".toList "test_0".toList).2 = .ok ["bar".toList] :=
  ⟨GetLookup_keys sampleStore "test_lookup".toList "test_0".toList
      [(Commits.ok, .set "foo".toList), (Commits.ok, .set "bar".toList)] (by decide) (by decide),
    by decide, by decide⟩

end Dbl
